import Mathlib

/-!
A shallow embedding of the cancellation-tree core of the `context` package
(file `src/unnamed/part_000`): contexts, cancelable nodes, deadline nodes,
propagation wiring, value lookup and cause tracking.

Mutable per-node state (`done`, `children`, `err`, `cause`, `timer`) lives in
an explicit heap indexed by node id (a node id models a `*cancelCtx` /
`*timerCtx` pointer).  The immutable context chain (the `Context` fields set
once at derivation time) is a structural inductive type, so the read-only
interface methods (`Deadline`, `Err`, `Value`, `Done`) recurse structurally.
The cancel cascade recurses through the heap's `children` sets, so it takes an
explicit fuel argument; on well-formed heaps (children ids strictly larger
than the parent id) any fuel of at least the heap size is enough.

Machine concurrency is modelled sequentially: each operation runs to
completion (the source holds per-node mutexes; the lock/unlock sequence of the
cascade is reified separately as an event trace for the lock-discipline
analysis).  `time.Now` is an integer clock stored in the heap, and the
goroutine counter (`goroutines`) counts spawned fallback waiters.
-/

namespace ContextPkg

/-- Go `error` values that occur in the package: the sentinel `Canceled`,
the sentinel `DeadlineExceeded`, and arbitrary caller-supplied cause errors
(`other n`).  A Go `error` variable is `Option GoErr`; `none` is `nil`. -/
inductive GoErr where
  | canceled
  | deadlineExceeded
  | other (n : Nat)
deriving DecidableEq, Repr

/-- Keys stored in contexts: the package-private `&cancelCtxKey`, or a
caller-supplied comparable key. -/
inductive Key where
  | cancelCtxKey
  | user (n : Nat)
deriving DecidableEq, Repr

/-- Values produced by `Context.Value`: untyped `nil`, a user value, or a
`*cancelCtx` pointer (what a `cancelCtx` returns for `&cancelCtxKey`). -/
inductive Val where
  | nilv
  | user (n : Nat)
  | cancelPtr (id : Nat)
deriving DecidableEq, Repr

/-- An opaque context implemented outside the package, as seen through the
`Context` interface: whether `Done()` returns a channel and whether that
channel is closed, its `Err()`, its `Deadline()`, and whether it has an
`AfterFunc(func()) func() bool` method (the `afterFuncer` capability).
Its `Value` returns `nil` for every key. -/
structure CustomCtx where
  tag : Nat
  hasDone : Bool
  closed : Bool
  errV : Option GoErr
  dl : Option Int
  hasAfterFunc : Bool
deriving DecidableEq, Repr

/-- The `Context` interface values built by the package.  `cancelRef id p` is
a `*cancelCtx` whose heap id is `id` and whose `Context` field is `p`;
`timerRef id d p` is a `*timerCtx` with deadline `d`.  `stopC p tag` is the
`stopCtx{Context: p, stop: ...}` wrapper installed when an `AfterFunc`
registration was used (the tag identifies the registration). -/
inductive Ctx where
  | background
  | todo
  | cancelRef (id : Nat) (parent : Ctx)
  | timerRef (id : Nat) (deadline : Int) (parent : Ctx)
  | valueC (parent : Ctx) (key : Key) (v : Val)
  | withoutC (parent : Ctx)
  | stopC (parent : Ctx) (stopTag : Nat)
  | custom (c : CustomCtx)
deriving DecidableEq, Repr

/-- Identity of a `chan struct{}`: the shared `closedchan`, the lazily
created channel of heap node `id`, or the channel of an opaque context
(with its closedness, fixed for the snapshot). -/
inductive Chan where
  | closedchan
  | node (id : Nat)
  | custom (tag : Nat) (closed : Bool)
deriving DecidableEq, Repr

/-- The state of a `cancelCtx.done` atomic value: not yet created, a lazily
created channel (open or closed), or the shared `closedchan` stored by a
cancel that ran before `Done` was ever called. -/
inductive DoneV where
  | unset
  | fresh (closed : Bool)
  | storedClosed
deriving DecidableEq, Repr

/-- A `canceler` interface value as stored in a `children` set or captured by
a cancel function: the heap id of the node, whether its dynamic type is
`*timerCtx` (so `cancel` dispatches to `timerCtx.cancel`), and the value of
its `Context` field (needed by `removeChild`). -/
structure Canceler where
  id : Nat
  isTimer : Bool
  ctxField : Ctx
deriving DecidableEq, Repr

/-- The mutable fields of a `cancelCtx` (and of the `timerCtx` that embeds
it).  `children = none` models the nil map; `timer` models whether
`timerCtx.timer` is non-nil (armed). -/
structure Node where
  isTimer : Bool
  done : DoneV
  children : Option (List Canceler)
  err : Option GoErr
  cause : Option GoErr
  timer : Bool
deriving DecidableEq, Repr

/-- The node a dangling id reads as (all zero values, like Go's zero
`cancelCtx`). -/
def Node.default0 : Node :=
  { isTimer := false, done := .unset, children := none,
    err := none, cause := none, timer := false }

/-- Global mutable state: the nodes (id = list index), the integer clock
(`time.Now`), and the `goroutines` counter of spawned fallback waiters. -/
structure Heap where
  nodes : List Node
  now : Int
  goroutines : Nat
deriving DecidableEq, Repr

def Heap.get (st : Heap) (id : Nat) : Node := st.nodes.getD id Node.default0

def Heap.set (st : Heap) (id : Nat) (n : Node) : Heap :=
  { st with nodes := st.nodes.set id n }

/-- The entries of a node's `children` set (`range` over a nil map is empty). -/
def childIds (st : Heap) (a : Nat) : List Canceler := ((st.get a).children).getD []

/-- Whether a channel is closed in the given heap.  A `Chan.node id` channel
exists only while the node's `done` is in the `fresh` state. -/
def chanClosed (st : Heap) : Chan → Bool
  | .closedchan => true
  | .node id =>
      match (st.get id).done with
      | .fresh c => c
      | .storedClosed => true
      | .unset => false
  | .custom _ c => c

/-- `cancelCtx.Done`: return the stored channel, lazily creating it
(double-checked locking collapses to one check in the sequential model). -/
def cancelCtxDone (st : Heap) (id : Nat) : Heap × Chan :=
  let n := st.get id
  match n.done with
  | .unset => (st.set id { n with done := .fresh false }, .node id)
  | .fresh _ => (st, .node id)
  | .storedClosed => (st, .closedchan)

/-- `Context.Done` dynamic dispatch.  `emptyCtx` and `withoutCancelCtx`
return nil; `valueCtx` and `stopCtx` delegate to their embedded `Context`;
`timerCtx` uses the embedded `cancelCtx`'s method. -/
def ctxDone (st : Heap) : Ctx → Heap × Option Chan
  | .background => (st, none)
  | .todo => (st, none)
  | .cancelRef id _ =>
      let r := cancelCtxDone st id
      (r.1, some r.2)
  | .timerRef id _ _ =>
      let r := cancelCtxDone st id
      (r.1, some r.2)
  | .valueC p _ _ => ctxDone st p
  | .withoutC _ => (st, none)
  | .stopC p _ => ctxDone st p
  | .custom c => (st, if c.hasDone then some (.custom c.tag c.closed) else none)

/-- `Context.Err` dynamic dispatch (`cancelCtx.Err` reads `c.err` under the
lock; `emptyCtx` and `withoutCancelCtx` return nil). -/
def ctxErr (st : Heap) : Ctx → Option GoErr
  | .background => none
  | .todo => none
  | .cancelRef id _ => (st.get id).err
  | .timerRef id _ _ => (st.get id).err
  | .valueC p _ _ => ctxErr st p
  | .withoutC _ => none
  | .stopC p _ => ctxErr st p
  | .custom c => c.errV

/-- `Context.Deadline` dynamic dispatch: `timerCtx.Deadline` returns its
deadline; `cancelCtx`, `valueCtx` and `stopCtx` delegate to the embedded
`Context`; `emptyCtx` and `withoutCancelCtx` report none. -/
def ctxDeadline : Ctx → Option Int
  | .background => none
  | .todo => none
  | .cancelRef _ p => ctxDeadline p
  | .timerRef _ d _ => some d
  | .valueC p _ _ => ctxDeadline p
  | .withoutC _ => none
  | .stopC p _ => ctxDeadline p
  | .custom c => c.dl

mutual

/-- The package-level `value(c, key)` loop; the `for` loop becomes structural
recursion on the context chain.  The `default` branch (`c.Value(key)`) covers
`stopCtx` (whose promoted `Value` is the embedded parent's) and opaque
contexts (which return nil here). -/
def valueLookup : Ctx → Key → Val
  | .valueC p k v, key => if key = k then v else valueLookup p key
  | .cancelRef id p, key =>
      if key = .cancelCtxKey then .cancelPtr id else valueLookup p key
  | .withoutC p, key =>
      if key = .cancelCtxKey then .nilv else valueLookup p key
  | .timerRef id _ p, key =>
      if key = .cancelCtxKey then .cancelPtr id else valueLookup p key
  | .background, _ => .nilv
  | .todo, _ => .nilv
  | .stopC p _, key => ctxValue p key
  | .custom _, _ => .nilv

/-- `Context.Value` dynamic dispatch.  `cancelCtx.Value` answers
`&cancelCtxKey` with itself and otherwise runs `value` on its parent
(`timerCtx` promotes the embedded `cancelCtx`'s method);
`withoutCancelCtx.Value` runs `value` on itself, whose `withoutCancelCtx`
case is inlined here; `stopCtx` promotes the embedded `Context`'s `Value`. -/
def ctxValue : Ctx → Key → Val
  | .background, _ => .nilv
  | .todo, _ => .nilv
  | .cancelRef id p, key =>
      if key = .cancelCtxKey then .cancelPtr id else valueLookup p key
  | .timerRef id _ p, key =>
      if key = .cancelCtxKey then .cancelPtr id else valueLookup p key
  | .valueC p k v, key => if key = k then v else valueLookup p key
  | .withoutC p, key =>
      if key = .cancelCtxKey then .nilv else valueLookup p key
  | .stopC p _, key => ctxValue p key
  | .custom _, _ => .nilv

end

/-- `Cause(c)`: if `c.Value(&cancelCtxKey)` is a `*cancelCtx`, return its
recorded `cause`; otherwise fall back to `c.Err()`. -/
def Cause (st : Heap) (c : Ctx) : Option GoErr :=
  match ctxValue c .cancelCtxKey with
  | .cancelPtr id => (st.get id).cause
  | _ => ctxErr st c

/-- `parentCancelCtx(parent)`: find the innermost enclosing `*cancelCtx` and
check that `parent.Done()` is that node's own channel (not `closedchan`, not
nil, not a wrapper's different channel). -/
def parentCancelCtx (st : Heap) (parent : Ctx) : Heap × Option Nat :=
  let r := ctxDone st parent
  if r.2 = some .closedchan ∨ r.2 = none then (r.1, none)
  else
    match ctxValue parent .cancelCtxKey with
    | .cancelPtr pid =>
        let pdone : Option Chan :=
          match (r.1.get pid).done with
          | .unset => none
          | .fresh _ => some (.node pid)
          | .storedClosed => some .closedchan
        if pdone = r.2 then (r.1, some pid) else (r.1, none)
    | _ => (r.1, none)

/-- `removeChild(parent, child)`: a `stopCtx` parent means an `AfterFunc`
registration was used, so call its stop function (which unregisters the
callback on the external parent — outside the modelled heap); otherwise
delete the child from the enclosing `*cancelCtx`'s non-nil children map. -/
def removeChild (st : Heap) (parent : Ctx) (child : Canceler) : Heap :=
  match parent with
  | .stopC _ _ => st
  | _ =>
    let r := parentCancelCtx st parent
    match r.2 with
    | none => r.1
    | some pid =>
        let n := r.1.get pid
        match n.children with
        | none => r.1
        | some cs => r.1.set pid { n with children := some (cs.filter (fun x => x ≠ child)) }

/-- The node record `cancelCtx.cancel` writes under the lock before
cascading: error and cause recorded, done signal closed (a lazily unset
channel becomes the stored `closedchan`). -/
def cancWrite (n : Node) (e : GoErr) (c : GoErr) : Node :=
  { n with err := some e, cause := some c,
           done := (match n.done with
                    | .unset => .storedClosed
                    | .fresh _ => .fresh true
                    | .storedClosed => .storedClosed) }

mutual

/-- `canceler.cancel` dynamic dispatch: `*timerCtx` values go through
`timerCtx.cancel`, `*cancelCtx` values through `cancelCtx.cancel`.
The source panics when `err` is nil; the `GoErr` argument type models the
non-nil error that every reachable call site passes. -/
def cancelAny (fuel : Nat) (st : Heap) (self : Canceler) (removeFromParent : Bool)
    (err : GoErr) (cause : Option GoErr) : Heap :=
  if self.isTimer then timerCtxCancel fuel st self removeFromParent err cause
  else cancelCtxCancel fuel st self removeFromParent err cause

/-- `timerCtx.cancel`: delegate to the embedded `cancelCtx.cancel` with
`removeFromParent = false`, then detach from the parent if requested, then
stop and clear the timer under the lock. -/
def timerCtxCancel (fuel : Nat) (st : Heap) (self : Canceler) (removeFromParent : Bool)
    (err : GoErr) (cause : Option GoErr) : Heap :=
  let st1 := cancelCtxCancel fuel st self false err cause
  let st2 := if removeFromParent then removeChild st1 self.ctxField self else st1
  let n := st2.get self.id
  if n.timer then st2.set self.id { n with timer := false } else st2

/-- `cancelCtx.cancel`: default the cause to the error, return if already
canceled, otherwise record err and cause, close (or store closed) the done
channel, cancel every registered child while still holding the lock, clear
the children set to nil, and finally detach from the parent if requested. -/
def cancelCtxCancel : Nat → Heap → Canceler → Bool → GoErr → Option GoErr → Heap
  | 0, st, _, _, _, _ => st
  | fuel + 1, st, self, removeFromParent, err, cause0 =>
      let cause := some (cause0.getD err)
      let n := st.get self.id
      if n.err ≠ none then st
      else
        let st1 := st.set self.id (cancWrite n err (cause0.getD err))
        let kids := n.children.getD []
        let st2 := kids.foldl
          (fun acc ch => cancelAny fuel acc ch false err cause) st1
        let n2 := st2.get self.id
        let st3 := st2.set self.id { n2 with children := none }
        if removeFromParent then removeChild st3 self.ctxField self else st3

end

/-- Whether the parent satisfies the `afterFuncer` interface.  Only an opaque
context with an `AfterFunc` method does: no package type declares one, and
wrappers such as `valueCtx` embed only the `Context` interface, which has no
`AfterFunc`, so the type assertion fails on them. -/
def hasAfterFuncCap : Ctx → Bool
  | .custom c => c.hasAfterFunc
  | _ => false

def afterFuncTag : Ctx → Nat
  | .custom c => c.tag
  | _ => 0

/-- `cancelCtx.propagateCancel(parent, child)`: set `c.Context = parent`
(returned as the second component, possibly rewrapped as a `stopCtx` by the
`afterFuncer` branch), then wire cancellation by the first applicable
strategy: nil parent done; parent already done (cancel the child now with the
parent's error and cause — a nil parent error would panic in the source,
modelled as an unreachable no-op); enclosing `*cancelCtx` (register in its
children set, or cancel now if it was canceled); `afterFuncer` capability
(register a callback, keep the stop handle in a `stopCtx`); otherwise spawn a
fallback waiter goroutine (counted in `goroutines`). -/
def propagateCancel (fuel : Nat) (st : Heap) (parent : Ctx) (child : Canceler) :
    Heap × Ctx :=
  let r := ctxDone st parent
  match r.2 with
  | none => (r.1, parent)
  | some dch =>
    if chanClosed r.1 dch then
      match ctxErr r.1 parent with
      | some e => (cancelAny fuel r.1 child false e (Cause r.1 parent), parent)
      | none => (r.1, parent)
    else
      let q := parentCancelCtx r.1 parent
      match q.2 with
      | some pid =>
          let n := q.1.get pid
          match n.err with
          | some pe => (cancelAny fuel q.1 child false pe n.cause, parent)
          | none =>
              let cs := n.children.getD []
              (q.1.set pid { n with children := some (cs ++ [child]) }, parent)
      | none =>
          if hasAfterFuncCap parent then
            (q.1, .stopC parent (afterFuncTag parent))
          else
            ({ q.1 with goroutines := q.1.goroutines + 1 }, parent)

/-- A cancel function returned by a derivation: the captured canceler and the
`removeFromParent` flag it passes (true everywhere except the handle returned
on the already-past-deadline path of `WithDeadlineCause`). -/
structure CancelHandle where
  c : Canceler
  removeFromParent : Bool
deriving DecidableEq, Repr

/-- Calling a `CancelFunc`: `c.cancel(removeFromParent, Canceled, nil)`. -/
def callCancelFunc (fuel : Nat) (st : Heap) (h : CancelHandle) : Heap :=
  cancelAny fuel st h.c h.removeFromParent .canceled none

/-- Calling a `CancelCauseFunc(cause)`: `c.cancel(true, Canceled, cause)`. -/
def callCancelCauseFunc (fuel : Nat) (st : Heap) (c : Canceler)
    (cause : Option GoErr) : Heap :=
  cancelAny fuel st c true .canceled cause

/-- `withCancel(parent)`: allocate a fresh `cancelCtx` and wire it to the
parent.  Returns the heap, the new node's id, and its final `Context` field.
(The source panics on a nil parent; the `Ctx` argument type is the non-nil
parent.) -/
def withCancel (fuel : Nat) (st : Heap) (parent : Ctx) : Heap × Nat × Ctx :=
  let id := st.nodes.length
  let st1 : Heap := { st with nodes := st.nodes ++ [Node.default0] }
  let r := propagateCancel fuel st1 parent ⟨id, false, parent⟩
  (r.1, id, r.2)

/-- `WithCancel(parent)`: the derived context and its `CancelFunc`,
`func() { c.cancel(true, Canceled, nil) }`. -/
def WithCancel (fuel : Nat) (st : Heap) (parent : Ctx) : Heap × Ctx × CancelHandle :=
  let r := withCancel fuel st parent
  (r.1, .cancelRef r.2.1 r.2.2, ⟨⟨r.2.1, false, r.2.2⟩, true⟩)

/-- `WithCancelCause(parent)`: like `WithCancel` but the handle is a
`CancelCauseFunc`, `func(cause error) { c.cancel(true, Canceled, cause) }`. -/
def WithCancelCause (fuel : Nat) (st : Heap) (parent : Ctx) : Heap × Ctx × Canceler :=
  let r := withCancel fuel st parent
  (r.1, .cancelRef r.2.1 r.2.2, ⟨r.2.1, false, r.2.2⟩)

/-- `WithoutCancel(parent)` (nil-parent panic at the boundary not modelled). -/
def WithoutCancel (parent : Ctx) : Ctx := .withoutC parent

/-- `WithDeadlineCause(parent, d, cause)`: if the parent's deadline is
already strictly earlier, fall back to `WithCancel(parent)`.  Otherwise
allocate a `timerCtx`, wire it, and: if the deadline has passed, cancel now
with `DeadlineExceeded` (the returned handle then passes
`removeFromParent = false`); else arm the timer if not canceled meanwhile.
The timer firing is the separate `fireTimer` transition. -/
def WithDeadlineCause (fuel : Nat) (st : Heap) (parent : Ctx) (d : Int)
    (cause : Option GoErr) : Heap × Ctx × CancelHandle :=
  match ctxDeadline parent with
  | some cur =>
      if cur < d then WithCancel fuel st parent
      else WithDeadlineCause.body fuel st parent d cause
  | none => WithDeadlineCause.body fuel st parent d cause
where
  /-- The timer-node path of `WithDeadlineCause` (no earlier parent deadline). -/
  body (fuel : Nat) (st : Heap) (parent : Ctx) (d : Int) (cause : Option GoErr) :
      Heap × Ctx × CancelHandle :=
    let id := st.nodes.length
    let st1 : Heap := { st with nodes := st.nodes ++ [{ Node.default0 with isTimer := true }] }
    let r := propagateCancel fuel st1 parent ⟨id, true, parent⟩
    let c : Canceler := ⟨id, true, r.2⟩
    let dur := d - r.1.now
    if dur ≤ 0 then
      (cancelAny fuel r.1 c true .deadlineExceeded cause, .timerRef id d r.2, ⟨c, false⟩)
    else
      let n := r.1.get id
      let st2 := if n.err = none then r.1.set id { n with timer := true } else r.1
      (st2, .timerRef id d r.2, ⟨c, true⟩)

/-- `WithDeadline(parent, d) = WithDeadlineCause(parent, d, nil)`. -/
def WithDeadline (fuel : Nat) (st : Heap) (parent : Ctx) (d : Int) :
    Heap × Ctx × CancelHandle :=
  WithDeadlineCause fuel st parent d none

/-- `WithTimeout(parent, timeout) = WithDeadline(parent, Now().Add(timeout))`. -/
def WithTimeout (fuel : Nat) (st : Heap) (parent : Ctx) (timeout : Int) :
    Heap × Ctx × CancelHandle :=
  WithDeadline fuel st parent (st.now + timeout)

/-- `WithTimeoutCause(parent, timeout, cause)`. -/
def WithTimeoutCause (fuel : Nat) (st : Heap) (parent : Ctx) (timeout : Int)
    (cause : Option GoErr) : Heap × Ctx × CancelHandle :=
  WithDeadlineCause fuel st parent (st.now + timeout) cause

/-- The timer armed by `WithDeadlineCause` firing:
`c.cancel(true, DeadlineExceeded, cause)` — but only if the timer is still
armed (a stopped timer never runs its function). -/
def fireTimer (fuel : Nat) (st : Heap) (c : Canceler) (d : Int)
    (cause : Option GoErr) : Heap :=
  if (st.get c.id).timer ∧ st.now ≥ d then
    cancelAny fuel st c true .deadlineExceeded cause
  else st

/-- A key argument passed to `WithValue`: a usable comparable key, or a
non-nil key of a non-comparable type (slice, map, function), detected by
`reflectlite.TypeOf(key).Comparable()`.  `Option KeyArg` adds nil. -/
inductive KeyArg where
  | validKey (k : Key)
  | noncomparableKey (n : Nat)
deriving DecidableEq, Repr

/-- `WithValue(parent, key, val)` with its three panic paths (`Except.error`
models the panic): nil parent, nil key, non-comparable key; otherwise the new
`valueCtx`. -/
def WithValue (parent : Option Ctx) (key : Option KeyArg) (v : Val) :
    Except String Ctx :=
  match parent with
  | none => .error "cannot create context from nil parent"
  | some p =>
    match key with
    | none => .error "nil key"
    | some (.noncomparableKey _) => .error "key is not comparable"
    | some (.validKey k) => .ok (.valueC p k v)

/-! ## Well-formedness, descendants, lock traces -/

/-- The one-shot closed state of a node's done signal, as observed through
`Done` (a node whose channel was never created is not closed). -/
def doneClosed (st : Heap) (a : Nat) : Bool :=
  match (st.get a).done with
  | .unset => false
  | .fresh c => c
  | .storedClosed => true

/-- Well-formedness of one heap node `a`, maintained by every operation of
the package: children were derived later (larger id), are in range, have the
dynamic type their `canceler` value records, and are not yet canceled (a
canceled node is removed from its parent, and a canceled parent clears its
set); a canceled node's children set is nil; `err` and `cause` are set
together; the done signal is closed exactly when the node is canceled; and a
canceled timer node's timer has been stopped. -/
def NodeWfAt (st : Heap) (a : Nat) : Prop :=
  (∀ ch ∈ childIds st a,
      a < ch.id ∧ ch.id < st.nodes.length ∧
      ch.isTimer = (st.get ch.id).isTimer ∧ (st.get ch.id).err = none) ∧
  ((st.get a).err ≠ none → (st.get a).children = none) ∧
  ((st.get a).err = none ↔ (st.get a).cause = none) ∧
  (doneClosed st a = true ↔ (st.get a).err ≠ none) ∧
  ((st.get a).err ≠ none → (st.get a).timer = false)

instance (st : Heap) (a : Nat) : Decidable (NodeWfAt st a) := by
  unfold NodeWfAt; infer_instance

/-- Heap well-formedness: every node in range is well-formed (out-of-range
ids read as the zero node, which is trivially well-formed). -/
def Wf (st : Heap) : Prop := ∀ a < st.nodes.length, NodeWfAt st a

instance (st : Heap) : Decidable (Wf st) := by
  unfold Wf; infer_instance

/-- `Desc st a d`: node `d` is currently registered, transitively, below `a`:
it is reachable from `a` through the `children` sets of `st`. -/
inductive Desc (st : Heap) : Nat → Nat → Prop
  | here {a : Nat} {ch : Canceler} : ch ∈ childIds st a → Desc st a ch.id
  | step {a b : Nat} {ch : Canceler} :
      Desc st a b → ch ∈ childIds st b → Desc st a ch.id

/-- Well-formedness of a context chain over a heap of size `bound`: every
node id mentioned is below `bound`, and no `valueCtx` stores the private
`&cancelCtxKey` (it is unexported, so client calls to `WithValue` can never
pass it).  True of every chain the package builds over such a heap. -/
def CtxBound (bound : Nat) : Ctx → Bool
  | .cancelRef id p => decide (id < bound) && CtxBound bound p
  | .timerRef id _ p => decide (id < bound) && CtxBound bound p
  | .valueC p k _ => decide (k ≠ Key.cancelCtxKey) && CtxBound bound p
  | .withoutC p => CtxBound bound p
  | .stopC p _ => CtxBound bound p
  | .background => true
  | .todo => true
  | .custom _ => true

/-- A mutex event of the cancel cascade: node `id`'s lock is acquired or
released. -/
inductive LockEv where
  | acq (id : Nat)
  | rel (id : Nat)
deriving DecidableEq, Repr

mutual

/-- The lock events of `canceler.cancel`, dispatched like `cancelAny`. -/
def cancelAnyTrace (fuel : Nat) (st : Heap) (self : Canceler)
    (removeFromParent : Bool) (err : GoErr) (cause : Option GoErr) :
    List LockEv × Heap :=
  if self.isTimer then timerCtxCancelTrace fuel st self removeFromParent err cause
  else cancelCtxCancelTrace fuel st self removeFromParent err cause

/-- The lock events of `timerCtx.cancel`: the embedded cancel's events, then
(after the `removeChild`, which locks only the parent's own mutex — a
different node — and is not part of this node's cascade here) a reacquisition
of the same mutex to stop the timer. -/
def timerCtxCancelTrace (fuel : Nat) (st : Heap) (self : Canceler)
    (removeFromParent : Bool) (err : GoErr) (cause : Option GoErr) :
    List LockEv × Heap :=
  let r := cancelCtxCancelTrace fuel st self false err cause
  let st2 := if removeFromParent then removeChild r.2 self.ctxField self else r.2
  let n := st2.get self.id
  let st3 := if n.timer then st2.set self.id { n with timer := false } else st2
  (r.1 ++ [.acq self.id, .rel self.id], st3)

/-- The lock/unlock events emitted by `cancelCtx.cancel`, in source order:
`c.mu.Lock()`; early unlock and return if already canceled; otherwise the
entire children loop runs before `c.mu.Unlock()` — each child's cancel
(and hence each child's lock acquisition) happens while this node's lock is
held. -/
def cancelCtxCancelTrace : Nat → Heap → Canceler → Bool → GoErr → Option GoErr →
    List LockEv × Heap
  | 0, st, _, _, _, _ => ([], st)
  | fuel + 1, st, self, removeFromParent, err, cause0 =>
      let cause := some (cause0.getD err)
      let n := st.get self.id
      if n.err ≠ none then ([.acq self.id, .rel self.id], st)
      else
        let n1 : Node :=
          { n with err := some err, cause := cause,
                   done := match n.done with
                           | .unset => .storedClosed
                           | .fresh _ => .fresh true
                           | .storedClosed => .storedClosed }
        let st1 := st.set self.id n1
        let kids := n.children.getD []
        let r := kids.foldl
          (fun acc ch =>
            let s := cancelAnyTrace fuel acc.2 ch false err cause
            (acc.1 ++ s.1, s.2))
          (([] : List LockEv), st1)
        let n2 := r.2.get self.id
        let st3 := r.2.set self.id { n2 with children := none }
        let st4 := if removeFromParent then removeChild st3 self.ctxField self else st3
        ([.acq self.id] ++ r.1 ++ [.rel self.id], st4)

end

/-- The multiset of locks held after a list of events (acquisitions push,
releases remove one matching entry). -/
def heldAfter (evs : List LockEv) : List Nat :=
  evs.foldl
    (fun held e =>
      match e with
      | .acq id => id :: held
      | .rel id => held.erase id)
    []

/-- The largest number of locks held simultaneously at any prefix of an
event list. -/
def maxHeld (evs : List LockEv) : Nat :=
  (evs.foldl
    (fun p e =>
      let held :=
        match e with
        | .acq id => id :: p.1
        | .rel id => p.1.erase id
      (held, max p.2 held.length))
    (([] : List Nat), 0)).2

/-! ## Heap access lemmas -/

theorem Heap.length_set (st : Heap) (id : Nat) (n : Node) :
    (st.set id n).nodes.length = st.nodes.length := by
  simp [Heap.set]

theorem Heap.now_set (st : Heap) (id : Nat) (n : Node) : (st.set id n).now = st.now := rfl

theorem Heap.goroutines_set (st : Heap) (id : Nat) (n : Node) :
    (st.set id n).goroutines = st.goroutines := rfl

theorem Heap.get_set_eq (st : Heap) (id : Nat) (n : Node) (h : id < st.nodes.length) :
    (st.set id n).get id = n := by
  simp [Heap.set, Heap.get, List.getD_eq_getElem?_getD, List.getElem?_set_self, h]

theorem Heap.get_set_ne (st : Heap) (id : Nat) (n : Node) (d : Nat) (h : d ≠ id) :
    (st.set id n).get d = st.get d := by
  simp [Heap.set, Heap.get, List.getD_eq_getElem?_getD, List.getElem?_set_ne (Ne.symm h)]

theorem Heap.set_oob (st : Heap) (id : Nat) (n : Node) (h : st.nodes.length ≤ id) :
    st.set id n = st := by
  simp [Heap.set, List.set_eq_of_length_le h]

theorem Heap.get_oob (st : Heap) (d : Nat) (h : st.nodes.length ≤ d) :
    st.get d = Node.default0 := by
  simp [Heap.get, List.getD_eq_getElem?_getD, List.getElem?_eq_none h]

/-! ## Cascade invariants -/

/-- Administrative state preserved by a cancel cascade. -/
def AdminEq (st stp : Heap) : Prop :=
  stp.nodes.length = st.nodes.length ∧ stp.now = st.now ∧ stp.goroutines = st.goroutines

/-- Node `d` is fully canceled with error `e` and (resolved) cause `c`:
done signal closed, children cleared, and (for a timer node) timer stopped. -/
def Canc (e c : GoErr) (st : Heap) (d : Nat) : Prop :=
  (st.get d).err = some e ∧ (st.get d).cause = some c ∧ doneClosed st d = true ∧
  (st.get d).children = none ∧ ((st.get d).isTimer = true → (st.get d).timer = false)

/-- A node left alone by a cascade step, up to its timer being stopped. -/
def TChg (a b : Node) : Prop := b = a ∨ b = { a with timer := false }

/-- How one cancel call moves the heap: every node is either untouched (up
to a stopped timer), or it has been fully canceled with `e`/`c` — and in the
latter case each child it had on entry was either canceled along with it or
was already canceled before the call. -/
def StepInv (e c : GoErr) (st stp : Heap) : Prop :=
  ∀ d, TChg (st.get d) (stp.get d) ∨
    (Canc e c stp d ∧ ∀ ch ∈ childIds st d, Canc e c stp ch.id ∨ (st.get ch.id).err ≠ none)

/-- The ranking part of heap well-formedness: children always have strictly
larger ids, are in range, and their `canceler` values record the right
dynamic type. -/
def RankWf (st : Heap) : Prop :=
  ∀ a, ∀ ch ∈ childIds st a,
    a < ch.id ∧ ch.id < st.nodes.length ∧ ch.isTimer = (st.get ch.id).isTimer

theorem childIds_oob (st : Heap) (a : Nat) (h : st.nodes.length ≤ a) :
    childIds st a = [] := by
  simp [childIds, Heap.get_oob st a h, Node.default0]

theorem rankWf_of_wf (st : Heap) (h : Wf st) : RankWf st := by
  intro a ch hch
  by_cases ha : a < st.nodes.length
  · exact ⟨(h a ha).1 ch hch |>.1, ((h a ha).1 ch hch).2.1, ((h a ha).1 ch hch).2.2.1⟩
  · rw [childIds_oob st a (Nat.le_of_not_lt ha)] at hch
    cases hch

theorem doneClosed_congr (st stp : Heap) (d : Nat)
    (h : (stp.get d).done = (st.get d).done) : doneClosed stp d = doneClosed st d := by
  unfold doneClosed
  rw [h]

theorem tchg_refl (a : Node) : TChg a a := Or.inl rfl

theorem tchg_fields {a b : Node} (h : TChg a b) :
    b.err = a.err ∧ b.cause = a.cause ∧ b.done = a.done ∧
    b.children = a.children ∧ b.isTimer = a.isTimer := by
  cases h with
  | inl h => subst h; exact ⟨rfl, rfl, rfl, rfl, rfl⟩
  | inr h => subst h; exact ⟨rfl, rfl, rfl, rfl, rfl⟩

theorem tchg_trans {a b c : Node} (h1 : TChg a b) (h2 : TChg b c) : TChg a c := by
  cases h1 with
  | inl h1 => subst h1; exact h2
  | inr h1 =>
    cases h2 with
    | inl h2 => subst h2; exact Or.inr h1
    | inr h2 => subst h1; subst h2; exact Or.inr rfl

theorem canc_mono {e c : GoErr} {st stp : Heap} {d : Nat}
    (hinv : StepInv e c st stp) (hc : Canc e c st d) : Canc e c stp d := by
  rcases hinv d with h | h
  · obtain ⟨he, hca, hdo, hch, hit⟩ := tchg_fields h
    refine ⟨?_, ?_, ?_, ?_, ?_⟩
    · rw [he]; exact hc.1
    · rw [hca]; exact hc.2.1
    · rw [doneClosed_congr st stp d hdo]; exact hc.2.2.1
    · rw [hch]; exact hc.2.2.2.1
    · intro ht
      rcases h with h | h
      · rw [h]; exact hc.2.2.2.2 (by rw [hit] at ht; exact ht)
      · rw [h]
  · exact h.1

theorem errSome_mono {e c : GoErr} {st stp : Heap} {d : Nat}
    (hinv : StepInv e c st stp) (he : (st.get d).err ≠ none) :
    (stp.get d).err ≠ none := by
  rcases hinv d with h | h
  · rw [(tchg_fields h).1]; exact he
  · rw [h.1.1]; exact Option.some_ne_none e

theorem stepInv_refl (e c : GoErr) (st : Heap) : StepInv e c st st :=
  fun _ => Or.inl (tchg_refl _)

theorem stepInv_comp {e c : GoErr} {st st1 st2 : Heap}
    (h1 : StepInv e c st st1) (h2 : StepInv e c st1 st2) : StepInv e c st st2 := by
  intro d
  rcases h2 d with hb | hb
  · rcases h1 d with ha | ha
    · exact Or.inl (tchg_trans ha hb)
    · refine Or.inr ⟨?_, ?_⟩
      · obtain ⟨he, hca, hdo, hch, hit⟩ := tchg_fields hb
        refine ⟨?_, ?_, ?_, ?_, ?_⟩
        · rw [he]; exact ha.1.1
        · rw [hca]; exact ha.1.2.1
        · rw [doneClosed_congr st1 st2 d hdo]; exact ha.1.2.2.1
        · rw [hch]; exact ha.1.2.2.2.1
        · intro ht
          rcases hb with hb | hb
          · rw [hb]; exact ha.1.2.2.2.2 (by rw [hit] at ht; exact ht)
          · rw [hb]
      · intro ch hch
        rcases ha.2 ch hch with hx | hx
        · exact Or.inl (canc_mono h2 hx)
        · exact Or.inr hx
  · refine Or.inr ⟨hb.1, ?_⟩
    intro ch hch
    rcases h1 d with ha | ha
    · have hch1 : ch ∈ childIds st1 d := by
        unfold childIds
        rw [(tchg_fields ha).2.2.2.1]
        exact hch
      rcases hb.2 ch hch1 with hx | hx
      · exact Or.inl hx
      · by_cases horig : (st.get ch.id).err = none
        · rcases h1 ch.id with hy | hy
          · rw [(tchg_fields hy).1] at hx
            exact absurd horig (by intro hcon; rw [hcon] at hx; exact hx rfl)
          · exact Or.inl (canc_mono h2 hy.1)
        · exact Or.inr horig
    · rcases ha.2 ch hch with hx | hx
      · exact Or.inl (canc_mono h2 hx)
      · exact Or.inr hx

theorem canc_congr {e c : GoErr} {st stp : Heap} {d : Nat}
    (h : stp.get d = st.get d) (hc : Canc e c st d) : Canc e c stp d := by
  unfold Canc doneClosed at *
  rw [h]
  exact hc

theorem rankWf_transfer {st stp : Heap}
    (hr : RankWf st)
    (hlen : stp.nodes.length = st.nodes.length)
    (hit : ∀ d, (stp.get d).isTimer = (st.get d).isTimer)
    (hch : ∀ d, childIds stp d = childIds st d ∨ childIds stp d = []) :
    RankWf stp := by
  intro a ch hmem
  rcases hch a with h | h
  · rw [h] at hmem
    obtain ⟨h1, h2, h3⟩ := hr a ch hmem
    exact ⟨h1, by rw [hlen]; exact h2, by rw [hit ch.id]; exact h3⟩
  · rw [h] at hmem
    cases hmem

theorem rankWf_of_stepInv {e c : GoErr} {st stp : Heap}
    (hr : RankWf st) (hinv : StepInv e c st stp)
    (hlen : stp.nodes.length = st.nodes.length)
    (hit : ∀ d, (stp.get d).isTimer = (st.get d).isTimer) :
    RankWf stp := by
  refine rankWf_transfer hr hlen hit ?_
  intro d
  rcases hinv d with h | h
  · exact Or.inl (by unfold childIds; rw [(tchg_fields h).2.2.2.1])
  · exact Or.inr (by unfold childIds; rw [h.1.2.2.2.1]; rfl)

/-! ## Field preservation by Done materialization and removeChild -/

/-- All cancellation-relevant observables preserved (done channels may be
materialized, which changes the `done` field from unset to a fresh open
channel but never its closedness). -/
def FieldsEq (st stp : Heap) : Prop :=
  stp.nodes.length = st.nodes.length ∧ stp.now = st.now ∧ stp.goroutines = st.goroutines ∧
  ∀ d, (stp.get d).err = (st.get d).err ∧ (stp.get d).cause = (st.get d).cause ∧
       (stp.get d).isTimer = (st.get d).isTimer ∧ (stp.get d).timer = (st.get d).timer ∧
       doneClosed stp d = doneClosed st d

theorem fieldsEq_refl (st : Heap) : FieldsEq st st :=
  ⟨rfl, rfl, rfl, fun _ => ⟨rfl, rfl, rfl, rfl, rfl⟩⟩

theorem fieldsEq_trans {st1 st2 st3 : Heap} (h1 : FieldsEq st1 st2) (h2 : FieldsEq st2 st3) :
    FieldsEq st1 st3 := by
  obtain ⟨a1, b1, c1, f1⟩ := h1
  obtain ⟨a2, b2, c2, f2⟩ := h2
  refine ⟨a2.trans a1, b2.trans b1, c2.trans c1, fun d => ?_⟩
  obtain ⟨x1, y1, z1, w1, v1⟩ := f1 d
  obtain ⟨x2, y2, z2, w2, v2⟩ := f2 d
  exact ⟨x2.trans x1, y2.trans y1, z2.trans z1, w2.trans w1, v2.trans v1⟩

theorem cancelCtxDone_cases (st : Heap) (id : Nat) :
    (cancelCtxDone st id).1 = st ∨
    ((st.get id).done = .unset ∧
      (cancelCtxDone st id).1 = st.set id { st.get id with done := .fresh false }) := by
  unfold cancelCtxDone
  dsimp only
  rcases hdone : (st.get id).done with _ | cl | _
  · exact Or.inr ⟨rfl, rfl⟩
  · exact Or.inl rfl
  · exact Or.inl rfl

theorem cancelCtxDone_fieldsEq (st : Heap) (id : Nat) :
    FieldsEq st (cancelCtxDone st id).1 ∧
    (∀ d, ((cancelCtxDone st id).1.get d).children = (st.get d).children) := by
  rcases cancelCtxDone_cases st id with h | ⟨hdone, h⟩
  · rw [h]
    exact ⟨fieldsEq_refl st, fun _ => rfl⟩
  · rw [h]
    by_cases hlt : id < st.nodes.length
    · constructor
      · refine ⟨Heap.length_set _ _ _, rfl, rfl, fun d => ?_⟩
        by_cases hd : d = id
        · subst hd
          rw [Heap.get_set_eq st d _ hlt]
          refine ⟨rfl, rfl, rfl, rfl, ?_⟩
          unfold doneClosed
          rw [Heap.get_set_eq st d _ hlt, hdone]
        · rw [Heap.get_set_ne st id _ d hd]
          exact ⟨rfl, rfl, rfl, rfl, by
            unfold doneClosed
            rw [Heap.get_set_ne st id _ d hd]⟩
      · intro d
        by_cases hd : d = id
        · subst hd
          rw [Heap.get_set_eq st d _ hlt]
        · rw [Heap.get_set_ne st id _ d hd]
    · rw [Heap.set_oob st id _ (Nat.le_of_not_lt hlt)]
      exact ⟨fieldsEq_refl st, fun _ => rfl⟩

theorem ctxDone_fieldsEq (st : Heap) (p : Ctx) :
    FieldsEq st (ctxDone st p).1 ∧
    (∀ d, ((ctxDone st p).1.get d).children = (st.get d).children) := by
  induction p generalizing st with
  | background => exact ⟨fieldsEq_refl st, fun _ => rfl⟩
  | todo => exact ⟨fieldsEq_refl st, fun _ => rfl⟩
  | cancelRef id q _ => exact cancelCtxDone_fieldsEq st id
  | timerRef id dl q _ => exact cancelCtxDone_fieldsEq st id
  | valueC q k v ih => exact ih st
  | withoutC q _ => exact ⟨fieldsEq_refl st, fun _ => rfl⟩
  | stopC q t ih => exact ih st
  | custom cc => exact ⟨fieldsEq_refl st, fun _ => rfl⟩

theorem parentCancelCtx_heap (st : Heap) (p : Ctx) :
    (parentCancelCtx st p).1 = (ctxDone st p).1 := by
  have h : ∀ (r : Heap × Option Chan) (v : Val),
      (if r.2 = some Chan.closedchan ∨ r.2 = none then (r.1, none)
       else
         match v with
         | .cancelPtr pid =>
             let pdone : Option Chan :=
               match (r.1.get pid).done with
               | .unset => none
               | .fresh _ => some (.node pid)
               | .storedClosed => some .closedchan
             if pdone = r.2 then (r.1, (some pid : Option Nat)) else (r.1, none)
         | _ => (r.1, none)).1 = r.1 := by
    intro r v
    split
    · rfl
    · rcases v with _ | u | pid
      · rfl
      · rfl
      · dsimp only
        split <;> rfl
  exact h (ctxDone st p) (ctxValue p Key.cancelCtxKey)

/-- The non-`stopCtx` branch of `removeChild`, expressed through
`parentCancelCtx`, only materializes done channels and possibly deletes one
canceler from one children set. -/
theorem removeChild_shape (st stq : Heap) (p : Ctx) (child : Canceler)
    (helse : stq =
      (match (parentCancelCtx st p).2 with
       | none => (parentCancelCtx st p).1
       | some pid =>
         match ((parentCancelCtx st p).1.get pid).children with
         | none => (parentCancelCtx st p).1
         | some cs =>
           (parentCancelCtx st p).1.set pid
             { (parentCancelCtx st p).1.get pid with
               children := some (cs.filter (fun x => x ≠ child)) })) :
    FieldsEq st stq ∧
    (∀ d, (stq.get d).children = (st.get d).children ∨
      ∃ cs, (st.get d).children = some cs ∧
        (stq.get d).children = some (cs.filter (fun x => x ≠ child))) := by
  have hd1 := (ctxDone_fieldsEq st p).1
  have hd2 := (ctxDone_fieldsEq st p).2
  rw [parentCancelCtx_heap] at helse
  rcases hq : (parentCancelCtx st p).2 with _ | pid
  · rw [hq] at helse
    subst helse
    exact ⟨hd1, fun d => Or.inl (hd2 d)⟩
  · rw [hq] at helse
    dsimp only at helse
    rcases hch : ((ctxDone st p).1.get pid).children with _ | cs
    · rw [hch] at helse
      subst helse
      exact ⟨hd1, fun d => Or.inl (hd2 d)⟩
    · rw [hch] at helse
      dsimp only at helse
      by_cases hlt : pid < (ctxDone st p).1.nodes.length
      · subst helse
        refine ⟨fieldsEq_trans hd1
          ⟨Heap.length_set _ _ _, rfl, rfl, fun d => ?_⟩, fun d => ?_⟩
        · by_cases hd : d = pid
          · subst hd
            rw [Heap.get_set_eq _ d _ hlt]
            exact ⟨rfl, rfl, rfl, rfl, by
              unfold doneClosed
              rw [Heap.get_set_eq _ d _ hlt]⟩
          · rw [Heap.get_set_ne _ pid _ d hd]
            exact ⟨rfl, rfl, rfl, rfl, by
              unfold doneClosed
              rw [Heap.get_set_ne _ pid _ d hd]⟩
        · by_cases hd : d = pid
          · subst hd
            rw [Heap.get_set_eq _ d _ hlt]
            exact Or.inr ⟨cs, by rw [← hd2 d, hch], rfl⟩
          · rw [Heap.get_set_ne _ pid _ d hd]
            exact Or.inl (hd2 d)
      · rw [Heap.set_oob _ pid _ (Nat.le_of_not_lt hlt)] at helse
        subst helse
        exact ⟨hd1, fun d => Or.inl (hd2 d)⟩


theorem removeChild_fieldsEq (st : Heap) (p : Ctx) (child : Canceler) :
    FieldsEq st (removeChild st p child) ∧
    (∀ d, ((removeChild st p child).get d).children = (st.get d).children ∨
      ∃ cs, (st.get d).children = some cs ∧
        ((removeChild st p child).get d).children =
          some (cs.filter (fun x => x ≠ child))) := by
  cases p
  case stopC q t => exact ⟨fieldsEq_refl st, fun _ => Or.inl rfl⟩
  case background => exact removeChild_shape st _ Ctx.background child rfl
  case todo => exact removeChild_shape st _ Ctx.todo child rfl
  case cancelRef id q => exact removeChild_shape st _ (Ctx.cancelRef id q) child rfl
  case timerRef id dl q => exact removeChild_shape st _ (Ctx.timerRef id dl q) child rfl
  case valueC q k v => exact removeChild_shape st _ (Ctx.valueC q k v) child rfl
  case withoutC q => exact removeChild_shape st _ (Ctx.withoutC q) child rfl
  case custom cc => exact removeChild_shape st _ (Ctx.custom cc) child rfl

/-! ## The cancel cascade: unfolding lemmas and the main induction -/

theorem cancelCtxCancel_zero (st : Heap) (self : Canceler) (rm : Bool) (e : GoErr)
    (c0 : Option GoErr) : cancelCtxCancel 0 st self rm e c0 = st := by
  unfold cancelCtxCancel
  rfl

theorem timerCtxCancel_eq (fuel : Nat) (st : Heap) (self : Canceler) (rm : Bool)
    (e : GoErr) (c0 : Option GoErr) :
    timerCtxCancel fuel st self rm e c0 =
      (let st1 := cancelCtxCancel fuel st self false e c0
       let st2 := if rm then removeChild st1 self.ctxField self else st1
       if (st2.get self.id).timer then
         st2.set self.id { st2.get self.id with timer := false }
       else st2) := by
  unfold timerCtxCancel
  rfl

theorem cancelAny_eq_timer (fuel : Nat) (st : Heap) (self : Canceler) (rm : Bool)
    (e : GoErr) (c0 : Option GoErr) (h : self.isTimer = true) :
    cancelAny fuel st self rm e c0 = timerCtxCancel fuel st self rm e c0 := by
  unfold cancelAny
  rw [h]
  simp

theorem cancelAny_eq_cancel (fuel : Nat) (st : Heap) (self : Canceler) (rm : Bool)
    (e : GoErr) (c0 : Option GoErr) (h : self.isTimer = false) :
    cancelAny fuel st self rm e c0 = cancelCtxCancel fuel st self rm e c0 := by
  unfold cancelAny
  rw [h]
  simp

theorem cancelCtxCancel_canceled (fuel : Nat) (st : Heap) (self : Canceler) (rm : Bool)
    (e : GoErr) (c0 : Option GoErr) (herr : (st.get self.id).err ≠ none) :
    cancelCtxCancel (fuel + 1) st self rm e c0 = st := by
  unfold cancelCtxCancel
  dsimp only
  rw [if_pos herr]

theorem cancelCtxCancel_fresh (fuel : Nat) (st : Heap) (self : Canceler) (rm : Bool)
    (e : GoErr) (c0 : Option GoErr) (herr : (st.get self.id).err = none) :
    cancelCtxCancel (fuel + 1) st self rm e c0 =
      (let st2 := (childIds st self.id).foldl
          (fun acc ch => cancelAny fuel acc ch false e (some (c0.getD e)))
          (st.set self.id (cancWrite (st.get self.id) e (c0.getD e)))
       let st3 := st2.set self.id { st2.get self.id with children := none }
       if rm then removeChild st3 self.ctxField self else st3) := by
  unfold cancelCtxCancel
  dsimp only
  rw [if_neg (by simp [herr])]
  rfl

/-- The inductive hypothesis of the cascade induction: one cancel call with
`removeFromParent = false` preserves the administrative state, touches no
node below the canceled one, preserves every dynamic type, moves the heap by
a `StepInv` step, and fully cancels a fresh in-range node. -/
def CancelIH (e c : GoErr) (fuel : Nat) : Prop :=
  ∀ (st : Heap) (self : Canceler),
    RankWf st →
    st.nodes.length ≤ fuel + self.id →
    self.isTimer = (st.get self.id).isTimer →
    AdminEq st (cancelAny fuel st self false e (some c)) ∧
    (∀ d, d < self.id → (cancelAny fuel st self false e (some c)).get d = st.get d) ∧
    (∀ d, ((cancelAny fuel st self false e (some c)).get d).isTimer =
      (st.get d).isTimer) ∧
    StepInv e c st (cancelAny fuel st self false e (some c)) ∧
    (self.id < st.nodes.length → (st.get self.id).err = none →
      Canc e c (cancelAny fuel st self false e (some c)) self.id)

theorem cancelIH_zero (e c : GoErr) : CancelIH e c 0 := by
  intro st self hrank hlen hcoh
  have hoob : st.nodes.length ≤ self.id := by omega
  have htf : (st.get self.id).timer = false := by
    rw [Heap.get_oob st self.id hoob]
    rfl
  have hres : cancelAny 0 st self false e (some c) = st := by
    by_cases ht : self.isTimer = true
    · rw [cancelAny_eq_timer 0 st self false e (some c) ht, timerCtxCancel_eq]
      simp [cancelCtxCancel_zero, htf]
    · have ht2 : self.isTimer = false := by
        cases h : self.isTimer
        · rfl
        · exact absurd h ht
      rw [cancelAny_eq_cancel 0 st self false e (some c) ht2, cancelCtxCancel_zero]
  rw [hres]
  exact ⟨⟨rfl, rfl, rfl⟩, fun _ _ => rfl, fun _ => rfl, stepInv_refl e c st,
    fun hid _ => absurd hid (by omega)⟩

/-- Folding one cancel call (with the cascade's arguments) over a list of
cancelers whose ids all exceed `lo`, assuming the inductive hypothesis for
the inner calls. -/
theorem cancelFold (e c : GoErr) (fuel : Nat) (IH : CancelIH e c fuel) :
    ∀ (kids : List Canceler) (st0 : Heap) (lo : Nat),
      RankWf st0 →
      (∀ ch ∈ kids, lo < ch.id ∧ ch.id < st0.nodes.length ∧
        ch.isTimer = (st0.get ch.id).isTimer) →
      st0.nodes.length ≤ fuel + lo + 1 →
      AdminEq st0 (kids.foldl (fun acc ch => cancelAny fuel acc ch false e (some c)) st0) ∧
      (∀ d, d ≤ lo →
        (kids.foldl (fun acc ch => cancelAny fuel acc ch false e (some c)) st0).get d =
          st0.get d) ∧
      (∀ d, ((kids.foldl (fun acc ch => cancelAny fuel acc ch false e (some c)) st0).get d).isTimer =
        (st0.get d).isTimer) ∧
      StepInv e c st0 (kids.foldl (fun acc ch => cancelAny fuel acc ch false e (some c)) st0) ∧
      (∀ ch ∈ kids,
        Canc e c (kids.foldl (fun acc ch => cancelAny fuel acc ch false e (some c)) st0) ch.id ∨
        (st0.get ch.id).err ≠ none) := by
  intro kids
  induction kids with
  | nil =>
      intro st0 lo _ _ _
      exact ⟨⟨rfl, rfl, rfl⟩, fun _ _ => rfl, fun _ => rfl, stepInv_refl e c st0,
        fun ch h => absurd h (List.not_mem_nil ch)⟩
  | cons ch kids ih =>
      intro st0 lo hrank hkids hlen
      have hK := hkids ch (List.mem_cons_self ch kids)
      obtain ⟨hadmin1, hlow1, hit1, hinv1, hcanc1⟩ :=
        IH st0 ch hrank (by omega) hK.2.2
      rw [List.foldl_cons]
      have hrank1 : RankWf (cancelAny fuel st0 ch false e (some c)) :=
        rankWf_of_stepInv hrank hinv1 hadmin1.1 hit1
      have hkids1 : ∀ ch' ∈ kids, lo < ch'.id ∧
          ch'.id < (cancelAny fuel st0 ch false e (some c)).nodes.length ∧
          ch'.isTimer = ((cancelAny fuel st0 ch false e (some c)).get ch'.id).isTimer := by
        intro ch' h'
        have h0 := hkids ch' (List.mem_cons_of_mem ch h')
        exact ⟨h0.1, by rw [hadmin1.1]; exact h0.2.1, by rw [hit1]; exact h0.2.2⟩
      have hlen1 : (cancelAny fuel st0 ch false e (some c)).nodes.length ≤ fuel + lo + 1 := by
        rw [hadmin1.1]
        exact hlen
      obtain ⟨hadmin2, hlow2, hit2, hinv2, hcanc2⟩ :=
        ih (cancelAny fuel st0 ch false e (some c)) lo hrank1 hkids1 hlen1
      refine ⟨⟨hadmin2.1.trans hadmin1.1, hadmin2.2.1.trans hadmin1.2.1,
          hadmin2.2.2.trans hadmin1.2.2⟩, ?_, ?_, stepInv_comp hinv1 hinv2, ?_⟩
      · intro d hd
        rw [hlow2 d hd, hlow1 d (by omega)]
      · intro d
        rw [hit2 d, hit1 d]
      · intro ch' h'
        rcases List.mem_cons.mp h' with h' | h'
        · subst h'
          by_cases horig : (st0.get ch'.id).err = none
          · exact Or.inl (canc_mono hinv2 (hcanc1 hK.2.1 horig))
          · exact Or.inr horig
        · rcases hcanc2 ch' h' with hx | hx
          · exact Or.inl hx
          · by_cases horig : (st0.get ch'.id).err = none
            · rcases hinv1 ch'.id with hy | hy
              · rw [(tchg_fields hy).1] at hx
                exact absurd horig (fun hcon => hx (by rw [hcon]))
              · exact Or.inl (canc_mono hinv2 hy.1)
            · exact Or.inr horig

theorem cancWrite_err (n : Node) (e c : GoErr) : (cancWrite n e c).err = some e := rfl

theorem cancWrite_cause (n : Node) (e c : GoErr) : (cancWrite n e c).cause = some c := rfl

theorem cancWrite_isTimer (n : Node) (e c : GoErr) :
    (cancWrite n e c).isTimer = n.isTimer := rfl

theorem cancWrite_children (n : Node) (e c : GoErr) :
    (cancWrite n e c).children = n.children := rfl

theorem cancWrite_timer (n : Node) (e c : GoErr) : (cancWrite n e c).timer = n.timer := rfl

theorem cancWrite_done (n : Node) (e c : GoErr) :
    (cancWrite n e c).done = DoneV.storedClosed ∨ (cancWrite n e c).done = DoneV.fresh true := by
  unfold cancWrite
  dsimp only
  rcases n.done with _ | b | _
  · exact Or.inl rfl
  · exact Or.inr rfl
  · exact Or.inl rfl

theorem doneClosed_true_of (st : Heap) (d : Nat)
    (h : (st.get d).done = DoneV.storedClosed ∨ (st.get d).done = DoneV.fresh true) :
    doneClosed st d = true := by
  unfold doneClosed
  rcases h with h | h <;> rw [h]

theorem bool_eq_false_of_ne_true {b : Bool} (h : ¬ b = true) : b = false := by
  cases b
  · rfl
  · exact absurd rfl h

theorem cancelIH_succ (e c : GoErr) (fuel : Nat) (IH : CancelIH e c fuel) :
    CancelIH e c (fuel + 1) := by
  intro st self hrank hlen hcoh
  by_cases hid : self.id < st.nodes.length
  case neg =>
    have hoob : st.nodes.length ≤ self.id := Nat.le_of_not_lt hid
    have hget : st.get self.id = Node.default0 := Heap.get_oob st self.id hoob
    have herr : (st.get self.id).err = none := by
      rw [hget]
      rfl
    have htf : (st.get self.id).timer = false := by
      rw [hget]
      rfl
    have hres : cancelCtxCancel (fuel + 1) st self false e (some c) = st := by
      rw [cancelCtxCancel_fresh fuel st self false e (some c) herr]
      dsimp only
      rw [childIds_oob st self.id hoob, List.foldl_nil,
        Heap.set_oob st self.id _ hoob, Heap.set_oob st self.id _ hoob]
      rfl
    have hres2 : cancelAny (fuel + 1) st self false e (some c) = st := by
      by_cases ht : self.isTimer = true
      · rw [cancelAny_eq_timer _ _ _ _ _ _ ht, timerCtxCancel_eq]
        dsimp only
        rw [hres]
        simp [htf]
      · rw [cancelAny_eq_cancel _ _ _ _ _ _ (bool_eq_false_of_ne_true ht), hres]
    rw [hres2]
    exact ⟨⟨rfl, rfl, rfl⟩, fun _ _ => rfl, fun _ => rfl, stepInv_refl e c st,
      fun h2 _ => absurd h2 hid⟩
  case pos =>
    by_cases herr : (st.get self.id).err = none
    case neg =>
      have hres : cancelCtxCancel (fuel + 1) st self false e (some c) = st :=
        cancelCtxCancel_canceled fuel st self false e (some c) herr
      by_cases ht : self.isTimer = true
      · have heq : cancelAny (fuel + 1) st self false e (some c) =
            (if (st.get self.id).timer then
              st.set self.id { st.get self.id with timer := false }
            else st) := by
          rw [cancelAny_eq_timer _ _ _ _ _ _ ht, timerCtxCancel_eq]
          dsimp only
          rw [hres]
          simp
        rcases htm : (st.get self.id).timer with _ | _
        · have hres3 : cancelAny (fuel + 1) st self false e (some c) = st := by
            rw [heq, htm]
            simp
          rw [hres3]
          exact ⟨⟨rfl, rfl, rfl⟩, fun _ _ => rfl, fun _ => rfl, stepInv_refl e c st,
            fun _ h2 => absurd h2 herr⟩
        · have hres4 : cancelAny (fuel + 1) st self false e (some c) =
              st.set self.id { st.get self.id with timer := false } := by
            rw [heq, htm]
            simp
          rw [hres4]
          refine ⟨⟨Heap.length_set _ _ _, rfl, rfl⟩, ?_, ?_, ?_,
            fun _ h2 => absurd h2 herr⟩
          · intro d hd
            exact Heap.get_set_ne st self.id _ d (by omega)
          · intro d
            by_cases hd : d = self.id
            · rw [hd, Heap.get_set_eq st self.id _ hid]
            · rw [Heap.get_set_ne st self.id _ d hd]
          · intro d
            by_cases hd : d = self.id
            · rw [hd, Heap.get_set_eq st self.id _ hid]
              exact Or.inl (Or.inr rfl)
            · rw [Heap.get_set_ne st self.id _ d hd]
              exact Or.inl (tchg_refl _)
      · rw [cancelAny_eq_cancel _ _ _ _ _ _ (bool_eq_false_of_ne_true ht), hres]
        exact ⟨⟨rfl, rfl, rfl⟩, fun _ _ => rfl, fun _ => rfl, stepInv_refl e c st,
          fun _ h2 => absurd h2 herr⟩
    case pos =>
      -- the main path: write the node, cascade over the children, clear the set
      have htrans := cancelCtxCancel_fresh fuel st self false e (some c) herr
      rw [if_neg Bool.false_ne_true] at htrans
      simp only [Option.getD_some] at htrans
      set stW := st.set self.id (cancWrite (st.get self.id) e c) with hstW
      set st2 := (childIds st self.id).foldl
        (fun acc ch => cancelAny fuel acc ch false e (some c)) stW with hst2
      set st3 := st2.set self.id { st2.get self.id with children := none } with hst3
      -- facts about the written heap
      have hlenW : stW.nodes.length = st.nodes.length := Heap.length_set _ _ _
      have hgetW : stW.get self.id = cancWrite (st.get self.id) e c :=
        Heap.get_set_eq _ _ _ hid
      have hgetWne : ∀ d, d ≠ self.id → stW.get d = st.get d := fun d hd =>
        Heap.get_set_ne _ _ _ d hd
      have hitW : ∀ d, (stW.get d).isTimer = (st.get d).isTimer := by
        intro d
        by_cases hd : d = self.id
        · subst hd
          rw [hgetW, cancWrite_isTimer]
        · rw [hgetWne d hd]
      have hchW : ∀ d, childIds stW d = childIds st d := by
        intro d
        by_cases hd : d = self.id
        · subst hd
          unfold childIds
          rw [hgetW, cancWrite_children]
        · unfold childIds
          rw [hgetWne d hd]
      have hrankW : RankWf stW :=
        rankWf_transfer hrank hlenW hitW (fun d => Or.inl (hchW d))
      have hkidsW : ∀ ch ∈ childIds st self.id, self.id < ch.id ∧
          ch.id < stW.nodes.length ∧ ch.isTimer = (stW.get ch.id).isTimer := by
        intro ch hmem
        obtain ⟨h1, h2, h3⟩ := hrank self.id ch hmem
        exact ⟨h1, by rw [hlenW]; exact h2, by rw [hitW ch.id]; exact h3⟩
      have hlenW2 : stW.nodes.length ≤ fuel + self.id + 1 := by
        rw [hlenW]
        omega
      obtain ⟨fadmin, flow, fit, finv, fkids⟩ :=
        cancelFold e c fuel IH (childIds st self.id) stW self.id hrankW hkidsW hlenW2
      rw [← hst2] at fadmin flow fit finv fkids
      have hget2 : st2.get self.id = cancWrite (st.get self.id) e c := by
        rw [flow self.id (Nat.le_refl _), hgetW]
      have hlen2 : st2.nodes.length = st.nodes.length := fadmin.1.trans hlenW
      have hnow2 : st2.now = st.now := fadmin.2.1
      have hgor2 : st2.goroutines = st.goroutines := fadmin.2.2
      have hid2 : self.id < st2.nodes.length := by omega
      -- facts about the final heap of cancelCtx.cancel
      have hget3 : st3.get self.id = { cancWrite (st.get self.id) e c with children := none } := by
        rw [hst3, Heap.get_set_eq _ _ _ hid2, hget2]
      have hget3ne : ∀ d, d ≠ self.id → st3.get d = st2.get d := fun d hd =>
        Heap.get_set_ne _ _ _ d hd
      have hlen3 : st3.nodes.length = st2.nodes.length := Heap.length_set _ _ _
      -- the assembled conclusion, for any final heap that refines st2 by a
      -- fully canceled self node
      have key : ∀ R : Heap,
          R.nodes.length = st2.nodes.length → R.now = st2.now →
          R.goroutines = st2.goroutines →
          (∀ d, d ≠ self.id → R.get d = st2.get d) →
          Canc e c R self.id →
          (R.get self.id).isTimer = (st.get self.id).isTimer →
          AdminEq st R ∧ (∀ d, d < self.id → R.get d = st.get d) ∧
          (∀ d, (R.get d).isTimer = (st.get d).isTimer) ∧ StepInv e c st R ∧
          (self.id < st.nodes.length → (st.get self.id).err = none →
            Canc e c R self.id) := by
        intro R hRlen hRnow hRgor hRne hRcanc hRit
        have hlow : ∀ d, d < self.id → R.get d = st.get d := by
          intro d hd
          rw [hRne d (by omega), flow d (Nat.le_of_lt hd), hgetWne d (by omega)]
        refine ⟨⟨hRlen.trans hlen2, hRnow.trans hnow2, hRgor.trans hgor2⟩, hlow, ?_, ?_, ?_⟩
        · intro d
          by_cases hd : d = self.id
          · subst hd
            exact hRit
          · rw [hRne d hd, fit d, hitW d]
        · intro d
          by_cases hd : d = self.id
          · subst hd
            refine Or.inr ⟨hRcanc, ?_⟩
            intro ch hmem
            have hne : ch.id ≠ self.id := by
              have := (hrank self.id ch hmem).1
              omega
            rcases fkids ch hmem with hx | hx
            · exact Or.inl (canc_congr (hRne ch.id hne) hx)
            · rw [hgetWne ch.id hne] at hx
              exact Or.inr hx
          · rcases finv d with hx | hx
            · rw [hgetWne d hd] at hx
              refine Or.inl ?_
              rw [hRne d hd]
              exact hx
            · refine Or.inr ⟨canc_congr (hRne d hd) hx.1, ?_⟩
              intro ch hmem
              rw [← hchW d] at hmem
              by_cases hcs : ch.id = self.id
              · rw [hcs]
                exact Or.inl hRcanc
              · rcases hx.2 ch hmem with hy | hy
                · exact Or.inl (canc_congr (hRne ch.id hcs) hy)
                · rw [hgetWne ch.id hcs] at hy
                  exact Or.inr hy
        · exact fun _ _ => hRcanc
      -- dispatch on the dynamic type of self
      by_cases ht : self.isTimer = true
      · have hR : cancelAny (fuel + 1) st self false e (some c) =
            (if (st3.get self.id).timer then
              st3.set self.id { st3.get self.id with timer := false }
            else st3) := by
          rw [cancelAny_eq_timer _ _ _ _ _ _ ht, timerCtxCancel_eq]
          dsimp only
          rw [htrans]
          simp
        have hitself : (st.get self.id).isTimer = true := by
          rw [← hcoh]
          exact ht
        rcases htm : (st3.get self.id).timer with _ | _
        · rw [hR, htm]
          simp only [Bool.false_eq_true, if_false]
          refine key st3 hlen3 rfl rfl hget3ne ?_ ?_
          · refine ⟨?_, ?_, ?_, ?_, ?_⟩
            · rw [hget3]
              exact cancWrite_err (st.get self.id) e c
            · rw [hget3]
              exact cancWrite_cause (st.get self.id) e c
            · refine doneClosed_true_of st3 self.id ?_
              rw [hget3]
              exact cancWrite_done (st.get self.id) e c
            · rw [hget3]
            · intro _
              exact htm
          · rw [hget3]
            exact cancWrite_isTimer (st.get self.id) e c
        · rw [hR, htm]
          simp only [if_true]
          have hget4 : (st3.set self.id { st3.get self.id with timer := false }).get self.id =
              { st3.get self.id with timer := false } := by
            refine Heap.get_set_eq _ _ _ ?_
            omega
          refine key (st3.set self.id { st3.get self.id with timer := false })
            ((Heap.length_set _ _ _).trans hlen3) rfl rfl ?_ ?_ ?_
          · intro d hd
            rw [Heap.get_set_ne _ _ _ d hd]
            exact hget3ne d hd
          · refine ⟨?_, ?_, ?_, ?_, ?_⟩
            · rw [hget4]
              show (st3.get self.id).err = some e
              rw [hget3]
              exact cancWrite_err (st.get self.id) e c
            · rw [hget4]
              show (st3.get self.id).cause = some c
              rw [hget3]
              exact cancWrite_cause (st.get self.id) e c
            · refine doneClosed_true_of _ self.id ?_
              rw [hget4]
              show (st3.get self.id).done = DoneV.storedClosed ∨
                (st3.get self.id).done = DoneV.fresh true
              rw [hget3]
              exact cancWrite_done (st.get self.id) e c
            · rw [hget4]
              show (st3.get self.id).children = none
              rw [hget3]
            · intro _
              rw [hget4]
          · rw [hget4]
            show (st3.get self.id).isTimer = (st.get self.id).isTimer
            rw [hget3]
            exact cancWrite_isTimer (st.get self.id) e c
      · have hR : cancelAny (fuel + 1) st self false e (some c) = st3 := by
          rw [cancelAny_eq_cancel _ _ _ _ _ _ (bool_eq_false_of_ne_true ht), htrans]
        have hitself : (st.get self.id).isTimer = false := by
          rw [← hcoh]
          exact bool_eq_false_of_ne_true ht
        rw [hR]
        refine key st3 hlen3 rfl rfl hget3ne ?_ ?_
        · refine ⟨?_, ?_, ?_, ?_, ?_⟩
          · rw [hget3]
            exact cancWrite_err (st.get self.id) e c
          · rw [hget3]
            exact cancWrite_cause (st.get self.id) e c
          · refine doneClosed_true_of st3 self.id ?_
            rw [hget3]
            exact cancWrite_done (st.get self.id) e c
          · rw [hget3]
          · intro hcon
            rw [hget3, cancWrite_isTimer] at hcon
            rw [hitself] at hcon
            cases hcon
        · rw [hget3]
          exact cancWrite_isTimer (st.get self.id) e c

/-- The inductive hypothesis holds at every fuel. -/
theorem cancelIH_all (e c : GoErr) : ∀ fuel, CancelIH e c fuel
  | 0 => cancelIH_zero e c
  | fuel + 1 => cancelIH_succ e c fuel (cancelIH_all e c fuel)

/-! ## removeFromParent only detaches: observable equivalence -/

/-- `stB` agrees with `stA` on every cancellation observable; children sets
may additionally have shrunk (a cleared set stays cleared). -/
def ObsEq (stA stB : Heap) : Prop :=
  stB.nodes.length = stA.nodes.length ∧ stB.now = stA.now ∧
  stB.goroutines = stA.goroutines ∧
  ∀ d, (stB.get d).err = (stA.get d).err ∧ (stB.get d).cause = (stA.get d).cause ∧
    doneClosed stB d = doneClosed stA d ∧ (stB.get d).isTimer = (stA.get d).isTimer ∧
    (stB.get d).timer = (stA.get d).timer ∧
    ((stA.get d).children = none → (stB.get d).children = none)

theorem obsEq_refl (st : Heap) : ObsEq st st :=
  ⟨rfl, rfl, rfl, fun _ => ⟨rfl, rfl, rfl, rfl, rfl, fun h => h⟩⟩

theorem removeChild_obsEq (st : Heap) (p : Ctx) (child : Canceler) :
    ObsEq st (removeChild st p child) := by
  obtain ⟨⟨hl, hn, hg, hf⟩, hch⟩ := removeChild_fieldsEq st p child
  refine ⟨hl, hn, hg, fun d => ?_⟩
  obtain ⟨h1, h2, h3, h4, h5⟩ := hf d
  refine ⟨h1, h2, h5, h3, h4, fun hnone => ?_⟩
  rcases hch d with h | ⟨cs, hcs, _⟩
  · rw [h, hnone]
  · rw [hnone] at hcs
    cases hcs

/-- The timer-stop step at the end of `timerCtx.cancel`. -/
def timerClear (st : Heap) (i : Nat) : Heap :=
  if (st.get i).timer then st.set i { st.get i with timer := false } else st

theorem obsEq_timerClear {stA stB : Heap} (i : Nat) (h : ObsEq stA stB) :
    ObsEq (timerClear stA i) (timerClear stB i) := by
  obtain ⟨hl, hn, hg, hf⟩ := h
  unfold timerClear
  rcases htm : (stA.get i).timer with _ | _
  · rw [(hf i).2.2.2.2.1, htm]
    simp only [Bool.false_eq_true, if_false]
    exact ⟨hl, hn, hg, hf⟩
  · rw [(hf i).2.2.2.2.1, htm]
    simp only [if_true]
    by_cases hi : i < stA.nodes.length
    · refine ⟨by rw [Heap.length_set, Heap.length_set, hl],
        by rw [Heap.now_set, Heap.now_set, hn],
        by rw [Heap.goroutines_set, Heap.goroutines_set, hg], fun d => ?_⟩
      by_cases hd : d = i
      · subst hd
        rw [Heap.get_set_eq stA d _ hi, Heap.get_set_eq stB d _ (by rw [hl]; exact hi)]
        obtain ⟨h1, h2, h3, h4, h5, h6⟩ := hf d
        refine ⟨h1, h2, ?_, h4, rfl, fun hnone => h6 hnone⟩
        · unfold doneClosed at h3 ⊢
          rw [Heap.get_set_eq stA d _ hi, Heap.get_set_eq stB d _ (by rw [hl]; exact hi)]
          exact h3
      · rw [Heap.get_set_ne stA i _ d hd, Heap.get_set_ne stB i _ d hd]
        obtain ⟨h1, h2, h3, h4, h5, h6⟩ := hf d
        refine ⟨h1, h2, ?_, h4, h5, h6⟩
        unfold doneClosed at h3 ⊢
        rw [Heap.get_set_ne stA i _ d hd, Heap.get_set_ne stB i _ d hd]
        exact h3
    · rw [Heap.set_oob stA i _ (Nat.le_of_not_lt hi),
        Heap.set_oob stB i _ (by rw [hl]; exact Nat.le_of_not_lt hi)]
      exact ⟨hl, hn, hg, hf⟩

theorem timerCtxCancel_as_clear (fuel : Nat) (st : Heap) (self : Canceler) (rm : Bool)
    (e : GoErr) (c0 : Option GoErr) :
    timerCtxCancel fuel st self rm e c0 =
      timerClear
        (if rm then removeChild (cancelCtxCancel fuel st self false e c0) self.ctxField self
         else cancelCtxCancel fuel st self false e c0) self.id := by
  rw [timerCtxCancel_eq]
  rfl

/-- `removeFromParent = true` only detaches the node from its parent's
bookkeeping: every cancellation observable matches the
`removeFromParent = false` call. -/
theorem cancelAny_rm (fuel : Nat) (st : Heap) (self : Canceler) (e : GoErr)
    (c0 : Option GoErr) :
    ObsEq (cancelAny fuel st self false e c0) (cancelAny fuel st self true e c0) := by
  by_cases ht : self.isTimer = true
  · rw [cancelAny_eq_timer _ _ _ _ _ _ ht, cancelAny_eq_timer _ _ _ _ _ _ ht,
      timerCtxCancel_as_clear, timerCtxCancel_as_clear]
    simp only [if_true, Bool.false_eq_true, if_false]
    exact obsEq_timerClear self.id
      (removeChild_obsEq (cancelCtxCancel fuel st self false e c0) self.ctxField self)
  · rw [cancelAny_eq_cancel _ _ _ _ _ _ (bool_eq_false_of_ne_true ht),
      cancelAny_eq_cancel _ _ _ _ _ _ (bool_eq_false_of_ne_true ht)]
    rcases fuel with _ | fuel
    · rw [cancelCtxCancel_zero, cancelCtxCancel_zero]
      exact obsEq_refl st
    · by_cases herr : (st.get self.id).err = none
      · rw [cancelCtxCancel_fresh fuel st self false e c0 herr,
          cancelCtxCancel_fresh fuel st self true e c0 herr]
        simp only [if_true, Bool.false_eq_true, if_false]
        exact removeChild_obsEq _ self.ctxField self
      · rw [cancelCtxCancel_canceled fuel st self false e c0 herr,
          cancelCtxCancel_canceled fuel st self true e c0 herr]
        exact obsEq_refl st

/-- The cause argument of a cancel call can be pre-resolved: a nil cause
behaves exactly like passing the error as the cause. -/
theorem cancelAny_causeNorm (fuel : Nat) (st : Heap) (self : Canceler) (rm : Bool)
    (e : GoErr) (c0 : Option GoErr) :
    cancelAny fuel st self rm e c0 = cancelAny fuel st self rm e (some (c0.getD e)) := by
  have core : ∀ rm2, cancelCtxCancel fuel st self rm2 e c0 =
      cancelCtxCancel fuel st self rm2 e (some (c0.getD e)) := by
    intro rm2
    rcases fuel with _ | fuel
    · rw [cancelCtxCancel_zero, cancelCtxCancel_zero]
    · by_cases herr : (st.get self.id).err = none
      · rw [cancelCtxCancel_fresh fuel st self rm2 e c0 herr,
          cancelCtxCancel_fresh fuel st self rm2 e (some (c0.getD e)) herr]
        simp only [Option.getD_some]
      · rw [cancelCtxCancel_canceled fuel st self rm2 e c0 herr,
          cancelCtxCancel_canceled fuel st self rm2 e (some (c0.getD e)) herr]
  by_cases ht : self.isTimer = true
  · rw [cancelAny_eq_timer _ _ _ _ _ _ ht, cancelAny_eq_timer _ _ _ _ _ _ ht,
      timerCtxCancel_as_clear, timerCtxCancel_as_clear, core false]
  · rw [cancelAny_eq_cancel _ _ _ _ _ _ (bool_eq_false_of_ne_true ht),
      cancelAny_eq_cancel _ _ _ _ _ _ (bool_eq_false_of_ne_true ht), core rm]

/-! ## Monotonicity: a canceled node never changes again -/

/-- The observables of node `idx` (already canceled in `st` with error `e0`)
are unchanged from `st` to `stp`. -/
def StableAt (idx : Nat) (e0 : GoErr) (st stp : Heap) : Prop :=
  (stp.get idx).err = some e0 ∧ (stp.get idx).cause = (st.get idx).cause ∧
  doneClosed stp idx = doneClosed st idx ∧
  ((st.get idx).children = none → (stp.get idx).children = none)

theorem stableAt_of_getEq {idx : Nat} {e0 : GoErr} {st stp : Heap}
    (h : stp.get idx = st.get idx) (herr : (st.get idx).err = some e0) :
    StableAt idx e0 st stp := by
  refine ⟨by rw [h]; exact herr, by rw [h], ?_, fun hc => by rw [h]; exact hc⟩
  unfold doneClosed
  rw [h]

theorem stableAt_refl {idx : Nat} {e0 : GoErr} {st : Heap}
    (herr : (st.get idx).err = some e0) : StableAt idx e0 st st :=
  stableAt_of_getEq rfl herr

theorem stableAt_stitch {idx : Nat} {e0 : GoErr} {st st1 st2 : Heap}
    (h1 : StableAt idx e0 st st1) (h2 : StableAt idx e0 st1 st2) :
    StableAt idx e0 st st2 :=
  ⟨h2.1, h2.2.1.trans h1.2.1, h2.2.2.1.trans h1.2.2.1,
    fun hc => h2.2.2.2 (h1.2.2.2 hc)⟩

theorem stableAt_obsEq {idx : Nat} {e0 : GoErr} {st stp : Heap}
    (h : ObsEq st stp) (herr : (st.get idx).err = some e0) :
    StableAt idx e0 st stp := by
  obtain ⟨_, _, _, hf⟩ := h
  obtain ⟨h1, h2, h3, _, _, h6⟩ := hf idx
  exact ⟨by rw [h1]; exact herr, h2, h3, h6⟩

theorem stableAt_timerClear {idx : Nat} {e0 : GoErr} {st : Heap}
    (herr : (st.get idx).err = some e0) (i : Nat) :
    StableAt idx e0 st (timerClear st i) := by
  unfold timerClear
  split
  · by_cases hi : i < st.nodes.length
    · by_cases hd : idx = i
      · subst hd
        refine ⟨?_, ?_, ?_, ?_⟩
        · rw [Heap.get_set_eq _ _ _ hi]
          exact herr
        · rw [Heap.get_set_eq _ _ _ hi]
        · unfold doneClosed
          rw [Heap.get_set_eq _ _ _ hi]
        · intro hc
          rw [Heap.get_set_eq _ _ _ hi]
          exact hc
      · exact stableAt_of_getEq (Heap.get_set_ne _ _ _ idx hd) herr
    · rw [Heap.set_oob _ _ _ (Nat.le_of_not_lt hi)]
      exact stableAt_refl herr
  · exact stableAt_refl herr

theorem cancelAny_stable (idx : Nat) (e0 : GoErr) :
    ∀ (fuel : Nat) (st : Heap) (self : Canceler) (rm : Bool) (e : GoErr)
      (c0 : Option GoErr),
      (st.get idx).err = some e0 →
      StableAt idx e0 st (cancelAny fuel st self rm e c0) := by
  intro fuel
  induction fuel with
  | zero =>
      intro st self rm e c0 herr
      by_cases ht : self.isTimer = true
      · rw [cancelAny_eq_timer _ _ _ _ _ _ ht, timerCtxCancel_as_clear,
          cancelCtxCancel_zero]
        have hstep : StableAt idx e0 st
            (if rm then removeChild st self.ctxField self else st) := by
          rcases rm with _ | _
          · exact stableAt_refl herr
          · exact stableAt_obsEq (removeChild_obsEq st self.ctxField self) herr
        exact stableAt_stitch hstep (stableAt_timerClear hstep.1 self.id)
      · rw [cancelAny_eq_cancel _ _ _ _ _ _ (bool_eq_false_of_ne_true ht),
          cancelCtxCancel_zero]
        exact stableAt_refl herr
  | succ fuel ih =>
      intro st self rm e c0 herr
      have hfold : ∀ (kids : List Canceler) (s : Heap) (e2 : GoErr) (c2 : Option GoErr),
          (s.get idx).err = some e0 →
          StableAt idx e0 s
            (kids.foldl (fun acc ch => cancelAny fuel acc ch false e2 c2) s) := by
        intro kids
        induction kids with
        | nil => exact fun s e2 c2 h => stableAt_refl h
        | cons ch kids ihk =>
            intro s e2 c2 h
            rw [List.foldl_cons]
            have h1 := ih s ch false e2 c2 h
            exact stableAt_stitch h1 (ihk _ e2 c2 h1.1)
      have hcore : ∀ (rm2 : Bool),
          StableAt idx e0 st (cancelCtxCancel (fuel + 1) st self rm2 e c0) := by
        intro rm2
        by_cases herr2 : (st.get self.id).err = none
        · rw [cancelCtxCancel_fresh fuel st self rm2 e c0 herr2]
          have hne : idx ≠ self.id := by
            intro hcon
            rw [hcon, herr2] at herr
            cases herr
          set stW := st.set self.id (cancWrite (st.get self.id) e (c0.getD e)) with hstW
          set st2 := (childIds st self.id).foldl
            (fun acc ch => cancelAny fuel acc ch false e (some (c0.getD e))) stW with hst2
          set st3 := st2.set self.id { st2.get self.id with children := none } with hst3
          have h1 : StableAt idx e0 st stW :=
            stableAt_of_getEq (Heap.get_set_ne _ _ _ idx hne) herr
          have h2 : StableAt idx e0 st st2 :=
            stableAt_stitch h1 (hfold (childIds st self.id) stW e (some (c0.getD e)) h1.1)
          have h3 : StableAt idx e0 st st3 :=
            stableAt_stitch h2 (stableAt_of_getEq (Heap.get_set_ne _ _ _ idx hne) h2.1)
          rcases rm2 with _ | _
          · simp only [Bool.false_eq_true, if_false]
            exact h3
          · simp only [if_true]
            exact stableAt_stitch h3
              (stableAt_obsEq (removeChild_obsEq st3 self.ctxField self) h3.1)
        · rw [cancelCtxCancel_canceled fuel st self rm2 e c0 herr2]
          exact stableAt_refl herr
      by_cases ht : self.isTimer = true
      · rw [cancelAny_eq_timer _ _ _ _ _ _ ht, timerCtxCancel_as_clear]
        have h1 := hcore false
        have h2 : StableAt idx e0 st
            (if rm then
              removeChild (cancelCtxCancel (fuel + 1) st self false e c0) self.ctxField self
            else cancelCtxCancel (fuel + 1) st self false e c0) := by
          rcases rm with _ | _
          · exact h1
          · exact stableAt_stitch h1
              (stableAt_obsEq (removeChild_obsEq _ self.ctxField self) h1.1)
        exact stableAt_stitch h2 (stableAt_timerClear h2.1 self.id)
      · rw [cancelAny_eq_cancel _ _ _ _ _ _ (bool_eq_false_of_ne_true ht)]
        exact hcore rm

/-! ## The cascade reaches every registered descendant -/

theorem desc_lt (st : Heap) (hwf : Wf st) :
    ∀ {a d : Nat}, Desc st a d → d < st.nodes.length := by
  intro a d hd
  induction hd with
  | @here ch hmem =>
      by_cases ha : a < st.nodes.length
      · exact ((hwf a ha).1 ch hmem).2.1
      · rw [childIds_oob st a (Nat.le_of_not_lt ha)] at hmem
        cases hmem
  | @step b ch hdb hmem ihb =>
      exact ((hwf b ihb).1 ch hmem).2.1

theorem desc_fresh (st : Heap) (hwf : Wf st) :
    ∀ {a d : Nat}, Desc st a d → (st.get d).err = none := by
  intro a d hd
  induction hd with
  | @here ch hmem =>
      by_cases ha : a < st.nodes.length
      · exact ((hwf a ha).1 ch hmem).2.2.2
      · rw [childIds_oob st a (Nat.le_of_not_lt ha)] at hmem
        cases hmem
  | @step b ch hdb hmem _ =>
      exact ((hwf b (desc_lt st hwf hdb)).1 ch hmem).2.2.2

/-- The heart of the cascade claim: one cancel call (cascade form) fully
cancels every transitively registered descendant, with the same error and
resolved cause. -/
theorem cancel_cascades (e c : GoErr) (fuel : Nat) (st : Heap) (self : Canceler)
    (hwf : Wf st) (hlen : st.nodes.length ≤ fuel + self.id)
    (hcoh : self.isTimer = (st.get self.id).isTimer) :
    ∀ d, Desc st self.id d → Canc e c (cancelAny fuel st self false e (some c)) d := by
  have hrank := rankWf_of_wf st hwf
  obtain ⟨hadmin, hlow, hit, hinv, hcanc⟩ := cancelIH_all e c fuel st self hrank hlen hcoh
  intro d hd
  induction hd with
  | @here ch hmem =>
      have hid : self.id < st.nodes.length := by
        by_cases ha : self.id < st.nodes.length
        · exact ha
        · rw [childIds_oob st self.id (Nat.le_of_not_lt ha)] at hmem
          cases hmem
      have herr : (st.get self.id).err = none := by
        by_contra hcon
        have hc := (hwf self.id hid).2.1 hcon
        unfold childIds at hmem
        rw [hc] at hmem
        cases hmem
      have hcself := hcanc hid herr
      rcases hinv self.id with hx | hx
      · exfalso
        have := (tchg_fields hx).1
        rw [hcself.1, herr] at this
        cases this
      · rcases hx.2 ch hmem with hy | hy
        · exact hy
        · exact absurd ((hwf self.id hid).1 ch hmem).2.2.2 hy
  | @step b ch hdb hmem ihb =>
      have hblt := desc_lt st hwf hdb
      have hbcanc := ihb
      rcases hinv b with hx | hx
      · exfalso
        have := (tchg_fields hx).1
        rw [hbcanc.1, desc_fresh st hwf hdb] at this
        cases this
      · rcases hx.2 ch hmem with hy | hy
        · exact hy
        · exact absurd ((hwf b hblt).1 ch hmem).2.2.2 hy

/-- The cascade corollary for any `removeFromParent` flag and any raw cause
argument: each registered descendant ends with error `e`, the resolved
cause, a closed done signal and a cleared children set. -/
theorem cancel_cascades_rm (e : GoErr) (c0 : Option GoErr) (fuel : Nat) (st : Heap)
    (self : Canceler) (rm : Bool) (hwf : Wf st)
    (hlen : st.nodes.length ≤ fuel + self.id)
    (hcoh : self.isTimer = (st.get self.id).isTimer) :
    ∀ d, Desc st self.id d →
      ((cancelAny fuel st self rm e c0).get d).err = some e ∧
      ((cancelAny fuel st self rm e c0).get d).cause = some (c0.getD e) ∧
      doneClosed (cancelAny fuel st self rm e c0) d = true ∧
      ((cancelAny fuel st self rm e c0).get d).children = none := by
  intro d hd
  rw [cancelAny_causeNorm]
  have base := cancel_cascades e (c0.getD e) fuel st self hwf hlen hcoh d hd
  rcases rm with _ | _
  · exact ⟨base.1, base.2.1, base.2.2.1, base.2.2.2.1⟩
  · obtain ⟨_, _, _, hf⟩ :=
      cancelAny_rm fuel st self e (some (c0.getD e))
    obtain ⟨h1, h2, h3, _, _, h6⟩ := hf d
    exact ⟨by rw [h1]; exact base.1, by rw [h2]; exact base.2.1,
      by rw [h3]; exact base.2.2.1, h6 base.2.2.2.1⟩

/-- The canceled node itself, for any flag and raw cause. -/
theorem cancel_self_rm (e : GoErr) (c0 : Option GoErr) (fuel : Nat) (st : Heap)
    (self : Canceler) (rm : Bool) (hwf : Wf st)
    (hlen : st.nodes.length ≤ fuel + self.id)
    (hcoh : self.isTimer = (st.get self.id).isTimer)
    (hid : self.id < st.nodes.length) (herr : (st.get self.id).err = none) :
    ((cancelAny fuel st self rm e c0).get self.id).err = some e ∧
    ((cancelAny fuel st self rm e c0).get self.id).cause = some (c0.getD e) ∧
    doneClosed (cancelAny fuel st self rm e c0) self.id = true ∧
    ((cancelAny fuel st self rm e c0).get self.id).children = none := by
  rw [cancelAny_causeNorm]
  have hrank := rankWf_of_wf st hwf
  obtain ⟨_, _, _, _, hcanc⟩ :=
    cancelIH_all e (c0.getD e) fuel st self hrank hlen hcoh
  have base := hcanc hid herr
  rcases rm with _ | _
  · exact ⟨base.1, base.2.1, base.2.2.1, base.2.2.2.1⟩
  · obtain ⟨_, _, _, hf⟩ :=
      cancelAny_rm fuel st self e (some (c0.getD e))
    obtain ⟨h1, h2, h3, _, _, h6⟩ := hf self.id
    exact ⟨by rw [h1]; exact base.1, by rw [h2]; exact base.2.1,
      by rw [h3]; exact base.2.2.1, h6 base.2.2.2.1⟩

/-! ## Allocation -/

theorem Heap.get_append (st : Heap) (n : Node) (d : Nat) (h : d < st.nodes.length) :
    Heap.get { st with nodes := st.nodes ++ [n] } d = st.get d := by
  simp [Heap.get, List.getD_eq_getElem?_getD, List.getElem?_append, h]

theorem Heap.get_append_last (st : Heap) (n : Node) :
    Heap.get { st with nodes := st.nodes ++ [n] } st.nodes.length = n := by
  simp [Heap.get, List.getD_eq_getElem?_getD]

theorem Heap.length_append (st : Heap) (n : Node) :
    ({ st with nodes := st.nodes ++ [n] } : Heap).nodes.length = st.nodes.length + 1 := by
  simp

/-- Appending a zero node (fresh `cancelCtx` or `timerCtx`) preserves heap
well-formedness. -/
theorem wf_append (st : Heap) (hwf : Wf st) (tm : Bool) :
    Wf { st with nodes := st.nodes ++ [{ Node.default0 with isTimer := tm }] } := by
  intro a ha
  rw [Heap.length_append] at ha
  by_cases halt : a < st.nodes.length
  · have hget : ∀ d, d < st.nodes.length →
        Heap.get { st with nodes := st.nodes ++ [{ Node.default0 with isTimer := tm }] } d =
          st.get d := fun d hd => Heap.get_append st _ d hd
    have hwfa := hwf a halt
    have hchEq : childIds { st with nodes := st.nodes ++ [{ Node.default0 with isTimer := tm }] } a =
        childIds st a := by
      unfold childIds
      rw [hget a halt]
    refine ⟨?_, ?_, ?_, ?_, ?_⟩
    · intro ch hmem
      rw [hchEq] at hmem
      obtain ⟨h1, h2, h3, h4⟩ := hwfa.1 ch hmem
      refine ⟨h1, by rw [Heap.length_append]; omega, ?_, ?_⟩
      · rw [hget ch.id h2]
        exact h3
      · rw [hget ch.id h2]
        exact h4
    · rw [hget a halt]
      exact hwfa.2.1
    · rw [hget a halt]
      exact hwfa.2.2.1
    · have : doneClosed { st with nodes := st.nodes ++ [{ Node.default0 with isTimer := tm }] } a =
          doneClosed st a := by
        unfold doneClosed
        rw [hget a halt]
      rw [this, hget a halt]
      exact hwfa.2.2.2.1
    · rw [hget a halt]
      exact hwfa.2.2.2.2
  · have ha2 : a = st.nodes.length := by omega
    subst ha2
    rw [NodeWfAt]
    rw [show childIds { st with nodes := st.nodes ++ [{ Node.default0 with isTimer := tm }] } st.nodes.length = [] from by
      unfold childIds
      rw [Heap.get_append_last]
      rfl]
    refine ⟨fun ch hmem => absurd hmem (List.not_mem_nil ch), ?_, ?_, ?_, ?_⟩
    · rw [Heap.get_append_last]
      intro hcon
      exact absurd rfl hcon
    · rw [Heap.get_append_last]
      exact ⟨fun _ => rfl, fun _ => rfl⟩
    · rw [show doneClosed { st with nodes := st.nodes ++ [{ Node.default0 with isTimer := tm }] } st.nodes.length = false from by
        unfold doneClosed
        rw [Heap.get_append_last]
        rfl]
      rw [Heap.get_append_last]
      constructor
      · intro hcon
        cases hcon
      · intro hcon
        exact absurd rfl hcon
    · rw [Heap.get_append_last]
      intro _
      rfl

/-! ## Allocation commutes with the read operations -/

/-- The allocation step of a derivation: append one fresh node. -/
def Heap.push (st : Heap) (n : Node) : Heap := { st with nodes := st.nodes ++ [n] }

theorem Heap.push_get (st : Heap) (n : Node) (d : Nat) (h : d < st.nodes.length) :
    (st.push n).get d = st.get d := Heap.get_append st n d h

theorem Heap.push_get_last (st : Heap) (n : Node) :
    (st.push n).get st.nodes.length = n := Heap.get_append_last st n

theorem Heap.push_length (st : Heap) (n : Node) :
    (st.push n).nodes.length = st.nodes.length + 1 := Heap.length_append st n

theorem list_set_append_left {α : Type} (l1 l2 : List α) (i : Nat) (a : α)
    (h : i < l1.length) : (l1 ++ l2).set i a = l1.set i a ++ l2 := by
  induction l1 generalizing i with
  | nil => cases h
  | cons x l1 ih =>
      rcases i with _ | i
      · rfl
      · simp only [List.cons_append, List.set]
        show x :: (l1 ++ l2).set i a = x :: (l1.set i a ++ l2)
        rw [ih i (by simpa using h)]

theorem Heap.set_push (st : Heap) (n m : Node) (i : Nat) (h : i < st.nodes.length) :
    (st.push n).set i m = (st.set i m).push n := by
  unfold Heap.push Heap.set
  dsimp only
  rw [list_set_append_left st.nodes [n] i m h]

theorem ctxBound_mono {b1 b2 : Nat} (h : b1 ≤ b2) :
    ∀ p : Ctx, CtxBound b1 p = true → CtxBound b2 p = true := by
  intro p
  induction p with
  | background => intro _; rfl
  | todo => intro _; rfl
  | cancelRef id q ih =>
      intro hb
      unfold CtxBound at hb ⊢
      rw [Bool.and_eq_true] at hb ⊢
      obtain ⟨hb1, hb2⟩ := hb
      refine ⟨?_, ih hb2⟩
      simp only [decide_eq_true_eq] at hb1 ⊢
      omega
  | timerRef id dl q ih =>
      intro hb
      unfold CtxBound at hb ⊢
      rw [Bool.and_eq_true] at hb ⊢
      obtain ⟨hb1, hb2⟩ := hb
      refine ⟨?_, ih hb2⟩
      simp only [decide_eq_true_eq] at hb1 ⊢
      omega
  | valueC q k v ih =>
      intro hb
      unfold CtxBound at hb ⊢
      rw [Bool.and_eq_true] at hb ⊢
      exact ⟨hb.1, ih hb.2⟩
  | withoutC q ih => exact ih
  | stopC q t ih => exact ih
  | custom cc => intro _; rfl

theorem ctxValue_cancelPtr_bound {bound : Nat} {p : Ctx} {pid : Nat}
    (hb : CtxBound bound p = true) :
    (ctxValue p .cancelCtxKey = .cancelPtr pid → pid < bound) ∧
    (valueLookup p .cancelCtxKey = .cancelPtr pid → pid < bound) := by
  induction p with
  | background =>
      refine ⟨fun h => ?_, fun h => ?_⟩
      · unfold ctxValue at h
        cases h
      · unfold valueLookup at h
        cases h
  | todo =>
      refine ⟨fun h => ?_, fun h => ?_⟩
      · unfold ctxValue at h
        cases h
      · unfold valueLookup at h
        cases h
  | cancelRef id q ih =>
      unfold CtxBound at hb
      rw [Bool.and_eq_true] at hb
      have hid : id < bound := by
        have := hb.1
        simpa using this
      constructor
      · intro h
        unfold ctxValue at h
        rw [if_pos rfl] at h
        cases h
        exact hid
      · intro h
        unfold valueLookup at h
        rw [if_pos rfl] at h
        cases h
        exact hid
  | timerRef id dl q ih =>
      unfold CtxBound at hb
      rw [Bool.and_eq_true] at hb
      have hid : id < bound := by
        have := hb.1
        simpa using this
      constructor
      · intro h
        unfold ctxValue at h
        rw [if_pos rfl] at h
        cases h
        exact hid
      · intro h
        unfold valueLookup at h
        rw [if_pos rfl] at h
        cases h
        exact hid
  | valueC q k v ih =>
      unfold CtxBound at hb
      rw [Bool.and_eq_true] at hb
      have hk : k ≠ Key.cancelCtxKey := by
        have := hb.1
        simpa using this
      have := ih hb.2
      constructor
      · intro h
        unfold ctxValue at h
        rw [if_neg (fun hc => hk hc.symm)] at h
        exact this.2 h
      · intro h
        unfold valueLookup at h
        rw [if_neg (fun hc => hk hc.symm)] at h
        exact this.2 h
  | withoutC q ih =>
      have := ih hb
      constructor
      · intro h
        unfold ctxValue at h
        rw [if_pos rfl] at h
        cases h
      · intro h
        unfold valueLookup at h
        rw [if_pos rfl] at h
        cases h
  | stopC q t ih =>
      have := ih hb
      constructor
      · intro h
        unfold ctxValue at h
        exact this.1 h
      · intro h
        unfold valueLookup at h
        exact this.1 h
  | custom cc =>
      refine ⟨fun h => ?_, fun h => ?_⟩
      · unfold ctxValue at h
        cases h
      · unfold valueLookup at h
        cases h

theorem cancelCtxDone_push (st : Heap) (n : Node) (id : Nat) (h : id < st.nodes.length) :
    cancelCtxDone (st.push n) id = ((cancelCtxDone st id).1.push n, (cancelCtxDone st id).2) := by
  unfold cancelCtxDone
  dsimp only
  rw [Heap.push_get st n id h]
  rcases hdone : (st.get id).done with _ | b | _
  · dsimp only
    rw [Heap.set_push st n _ id h]
  · rfl
  · rfl

theorem ctxDone_push (st : Heap) (n : Node) (p : Ctx)
    (hb : CtxBound st.nodes.length p = true) :
    ctxDone (st.push n) p = ((ctxDone st p).1.push n, (ctxDone st p).2) := by
  induction p with
  | background => rfl
  | todo => rfl
  | cancelRef id q _ =>
      unfold CtxBound at hb
      rw [Bool.and_eq_true] at hb
      have hid : id < st.nodes.length := by
        have := hb.1
        simpa using this
      show ((cancelCtxDone (st.push n) id).1, some (cancelCtxDone (st.push n) id).2) = _
      rw [cancelCtxDone_push st n id hid]
      rfl
  | timerRef id dl q _ =>
      unfold CtxBound at hb
      rw [Bool.and_eq_true] at hb
      have hid : id < st.nodes.length := by
        have := hb.1
        simpa using this
      show ((cancelCtxDone (st.push n) id).1, some (cancelCtxDone (st.push n) id).2) = _
      rw [cancelCtxDone_push st n id hid]
      rfl
  | valueC q k v ih =>
      unfold CtxBound at hb
      rw [Bool.and_eq_true] at hb
      exact ih hb.2
  | withoutC q _ => rfl
  | stopC q t ih => exact ih hb
  | custom cc => rfl

theorem ctxErr_push (st : Heap) (n : Node) (p : Ctx)
    (hb : CtxBound st.nodes.length p = true) :
    ctxErr (st.push n) p = ctxErr st p := by
  induction p with
  | background => rfl
  | todo => rfl
  | cancelRef id q _ =>
      unfold CtxBound at hb
      rw [Bool.and_eq_true] at hb
      have hid : id < st.nodes.length := by
        have := hb.1
        simpa using this
      show ((st.push n).get id).err = (st.get id).err
      rw [Heap.push_get st n id hid]
  | timerRef id dl q _ =>
      unfold CtxBound at hb
      rw [Bool.and_eq_true] at hb
      have hid : id < st.nodes.length := by
        have := hb.1
        simpa using this
      show ((st.push n).get id).err = (st.get id).err
      rw [Heap.push_get st n id hid]
  | valueC q k v ih =>
      unfold CtxBound at hb
      rw [Bool.and_eq_true] at hb
      exact ih hb.2
  | withoutC q _ => rfl
  | stopC q t ih => exact ih hb
  | custom cc => rfl

theorem Cause_push (st : Heap) (n : Node) (p : Ctx)
    (hb : CtxBound st.nodes.length p = true) :
    Cause (st.push n) p = Cause st p := by
  unfold Cause
  rcases hv : ctxValue p .cancelCtxKey with _ | u | pid
  · exact ctxErr_push st n p hb
  · exact ctxErr_push st n p hb
  · have hpid : pid < st.nodes.length := (ctxValue_cancelPtr_bound hb).1 hv
    show ((st.push n).get pid).cause = (st.get pid).cause
    rw [Heap.push_get st n pid hpid]

theorem ctxDone_idem (st : Heap) (p : Ctx) :
    ctxDone (ctxDone st p).1 p = ctxDone st p := by
  induction p generalizing st with
  | background => rfl
  | todo => rfl
  | cancelRef id q _ =>
      show ((cancelCtxDone (cancelCtxDone st id).1 id).1,
        some (cancelCtxDone (cancelCtxDone st id).1 id).2) = _
      rcases hdone : (st.get id).done with _ | b | _
      · by_cases hi : id < st.nodes.length
        · simp [ctxDone, cancelCtxDone, hdone, Heap.get_set_eq st id _ hi]
        · simp [ctxDone, cancelCtxDone, hdone, Node.default0,
            Heap.set_oob st id _ (Nat.le_of_not_lt hi),
            Heap.get_oob st id (Nat.le_of_not_lt hi)]
      · simp [ctxDone, cancelCtxDone, hdone]
      · simp [ctxDone, cancelCtxDone, hdone]
  | timerRef id dl q _ =>
      show ((cancelCtxDone (cancelCtxDone st id).1 id).1,
        some (cancelCtxDone (cancelCtxDone st id).1 id).2) = _
      rcases hdone : (st.get id).done with _ | b | _
      · by_cases hi : id < st.nodes.length
        · simp [ctxDone, cancelCtxDone, hdone, Heap.get_set_eq st id _ hi]
        · simp [ctxDone, cancelCtxDone, hdone, Node.default0,
            Heap.set_oob st id _ (Nat.le_of_not_lt hi),
            Heap.get_oob st id (Nat.le_of_not_lt hi)]
      · simp [ctxDone, cancelCtxDone, hdone]
      · simp [ctxDone, cancelCtxDone, hdone]
  | valueC q k v ih => exact ih st
  | withoutC q _ => rfl
  | stopC q t ih => exact ih st
  | custom cc => rfl

/-- Materializing done channels along a chain bounded by `bound` leaves every
node at or above `bound` untouched. -/
theorem ctxDone_get_untouched (st : Heap) (p : Ctx) (bound d : Nat)
    (hb : CtxBound bound p = true) (hd : bound ≤ d) :
    ((ctxDone st p).1.get d) = st.get d := by
  induction p generalizing st with
  | background => rfl
  | todo => rfl
  | cancelRef id q _ =>
      unfold CtxBound at hb
      rw [Bool.and_eq_true] at hb
      have hid : id < bound := by
        have := hb.1
        simpa using this
      show ((cancelCtxDone st id).1.get d) = st.get d
      unfold cancelCtxDone
      dsimp only
      rcases hdone : (st.get id).done with _ | b | _
      · exact Heap.get_set_ne st id _ d (by omega)
      · rfl
      · rfl
  | timerRef id dl q _ =>
      unfold CtxBound at hb
      rw [Bool.and_eq_true] at hb
      have hid : id < bound := by
        have := hb.1
        simpa using this
      show ((cancelCtxDone st id).1.get d) = st.get d
      unfold cancelCtxDone
      dsimp only
      rcases hdone : (st.get id).done with _ | b | _
      · exact Heap.get_set_ne st id _ d (by omega)
      · rfl
      · rfl
  | valueC q k v ih =>
      unfold CtxBound at hb
      rw [Bool.and_eq_true] at hb
      exact ih st hb.2
  | withoutC q _ => rfl
  | stopC q t ih => exact ih st hb
  | custom cc => rfl

theorem childIds_set_children (st : Heap) (i : Nat) (hi : i < st.nodes.length)
    (n : Node) (cs : List Canceler) (h : n.children = some cs) :
    childIds (st.set i n) i = cs := by
  unfold childIds
  rw [Heap.get_set_eq st i n hi, h]
  rfl

theorem childIds_set_other (st : Heap) (i : Nat) (n : Node) (d : Nat) (hd : d ≠ i) :
    childIds (st.set i n) d = childIds st d := by
  unfold childIds
  rw [Heap.get_set_ne st i n d hd]

/-- `Wf` only depends on the cancellation observables, so it survives done
channel materialization. -/
theorem wf_fieldsEq (st stp : Heap) (hwf : Wf st) (hf : FieldsEq st stp)
    (hch : ∀ d, (stp.get d).children = (st.get d).children) : Wf stp := by
  intro a ha
  rw [hf.1] at ha
  have hwfa := hwf a ha
  have hchEq : childIds stp a = childIds st a := by
    unfold childIds
    rw [hch a]
  refine ⟨?_, ?_, ?_, ?_, ?_⟩
  · intro ch hmem
    rw [hchEq] at hmem
    obtain ⟨h1, h2, h3, h4⟩ := hwfa.1 ch hmem
    exact ⟨h1, by rw [hf.1]; exact h2, by rw [(hf.2.2.2 ch.id).2.2.1]; exact h3,
      by rw [(hf.2.2.2 ch.id).1]; exact h4⟩
  · rw [(hf.2.2.2 a).1, hch a]
    exact hwfa.2.1
  · rw [(hf.2.2.2 a).1, (hf.2.2.2 a).2.1]
    exact hwfa.2.2.1
  · rw [(hf.2.2.2 a).2.2.2.2, (hf.2.2.2 a).1]
    exact hwfa.2.2.2.1
  · rw [(hf.2.2.2 a).1, (hf.2.2.2 a).2.2.2.1]
    exact hwfa.2.2.2.2

theorem wf_goroutines (st : Heap) (g : Nat) (hwf : Wf st) :
    Wf { st with goroutines := g } := hwf

/-- Inserting a fresh, higher-id, type-coherent child into a live parent's
children set preserves heap well-formedness. -/
theorem wf_insert (st : Heap) (hwf : Wf st) (pid : Nat) (child : Canceler)
    (hpid : pid < st.nodes.length) (hperr : (st.get pid).err = none)
    (hc1 : pid < child.id) (hc2 : child.id < st.nodes.length)
    (hc3 : child.isTimer = (st.get child.id).isTimer)
    (hc4 : (st.get child.id).err = none) :
    Wf (st.set pid { st.get pid with children := some (childIds st pid ++ [child]) }) := by
  intro a ha
  rw [Heap.length_set] at ha
  have hget : ∀ d, d ≠ pid →
      (st.set pid { st.get pid with children := some (childIds st pid ++ [child]) }).get d =
        st.get d := fun d hd => Heap.get_set_ne st pid _ d hd
  have hgetp : (st.set pid { st.get pid with children := some (childIds st pid ++ [child]) }).get pid =
      { st.get pid with children := some (childIds st pid ++ [child]) } :=
    Heap.get_set_eq st pid _ hpid
  by_cases hap : a = pid
  · subst hap
    refine ⟨?_, ?_, ?_, ?_, ?_⟩
    · intro ch hmem
      rw [childIds_set_children st a hpid _ _ rfl] at hmem
      rcases List.mem_append.mp hmem with hmem | hmem
      · obtain ⟨h1, h2, h3, h4⟩ := (hwf a ha).1 ch hmem
        refine ⟨h1, by rw [Heap.length_set]; exact h2, ?_, ?_⟩
        · rw [hget ch.id (by omega)]
          exact h3
        · rw [hget ch.id (by omega)]
          exact h4
      · rw [List.mem_singleton] at hmem
        refine ⟨by rw [hmem]; exact hc1, by rw [hmem, Heap.length_set]; exact hc2, ?_, ?_⟩
        · rw [hmem, hget child.id (by omega)]
          exact hc3
        · rw [hmem, hget child.id (by omega)]
          exact hc4
    · rw [hgetp]
      intro hcon
      exact absurd hperr hcon
    · rw [hgetp]
      show (st.get a).err = none ↔ (st.get a).cause = none
      exact (hwf a ha).2.2.1
    · rw [show doneClosed (st.set a { st.get a with children := some (childIds st a ++ [child]) }) a =
          doneClosed st a from by
        unfold doneClosed
        rw [hgetp]]
      rw [hgetp]
      show doneClosed st a = true ↔ (st.get a).err ≠ none
      exact (hwf a ha).2.2.2.1
    · rw [hgetp]
      show (st.get a).err ≠ none → (st.get a).timer = false
      exact (hwf a ha).2.2.2.2
  · have hchEq : childIds (st.set pid { st.get pid with children := some (childIds st pid ++ [child]) }) a =
        childIds st a := childIds_set_other st pid _ a hap
    refine ⟨?_, ?_, ?_, ?_, ?_⟩
    · intro ch hmem
      rw [hchEq] at hmem
      obtain ⟨h1, h2, h3, h4⟩ := (hwf a ha).1 ch hmem
      refine ⟨h1, by rw [Heap.length_set]; exact h2, ?_, ?_⟩
      · by_cases hcp : ch.id = pid
        · rw [hcp, hgetp]
          rw [hcp] at h3
          exact h3
        · rw [hget ch.id hcp]
          exact h3
      · by_cases hcp : ch.id = pid
        · rw [hcp, hgetp]
          rw [hcp] at h4
          exact h4
        · rw [hget ch.id hcp]
          exact h4
    · rw [hget a hap]
      exact (hwf a ha).2.1
    · rw [hget a hap]
      exact (hwf a ha).2.2.1
    · rw [show doneClosed (st.set pid { st.get pid with children := some (childIds st pid ++ [child]) }) a =
          doneClosed st a from by
        unfold doneClosed
        rw [hget a hap]]
      rw [hget a hap]
      exact (hwf a ha).2.2.2.1
    · rw [hget a hap]
      exact (hwf a ha).2.2.2.2

/-- A successful `parentCancelCtx` lookup: the chain's innermost
`*cancelCtx` owns a live lazily created channel, and that channel is exactly
the parent's done channel. -/
theorem parentCancelCtx_some (st : Heap) (p : Ctx) (pid : Nat)
    (h : (parentCancelCtx st p).2 = some pid) :
    ctxValue p .cancelCtxKey = .cancelPtr pid ∧
    (∃ b, ((ctxDone st p).1.get pid).done = DoneV.fresh b) ∧
    (ctxDone st p).2 = some (Chan.node pid) := by
  unfold parentCancelCtx at h
  dsimp only at h
  by_cases hg : (ctxDone st p).2 = some Chan.closedchan ∨ (ctxDone st p).2 = none
  · rw [if_pos hg] at h
    cases h
  · rw [if_neg hg] at h
    rcases hv : ctxValue p .cancelCtxKey with _ | u | pid2
    · rw [hv] at h
      cases h
    · rw [hv] at h
      cases h
    · rw [hv] at h
      dsimp only at h
      rcases hdone : ((ctxDone st p).1.get pid2).done with _ | b | _
      · rw [hdone] at h
        dsimp only at h
        split at h
        · rename_i hcond
          exact absurd hcond.symm (by
            push_neg at hg
            exact hg.2)
        · cases h
      · rw [hdone] at h
        dsimp only at h
        split at h
        · rename_i hcond
          cases h
          exact ⟨rfl, ⟨b, hdone⟩, hcond.symm⟩
        · cases h
      · rw [hdone] at h
        dsimp only at h
        split at h
        · rename_i hcond
          exact absurd hcond.symm (fun hcon => hg (Or.inl hcon))
        · cases h

/-- Wiring a fresh child to a parent that is not yet done never cancels the
child: it is registered (or left standalone), the heap stays well-formed,
and the child node itself is untouched. -/
theorem propagateCancel_notDone (fuel : Nat) (st1 : Heap) (parent : Ctx) (child : Canceler)
    (hwf : Wf st1)
    (hb : CtxBound child.id parent = true)
    (hcid : child.id < st1.nodes.length)
    (hfresh : (st1.get child.id).err = none)
    (hcoh : child.isTimer = (st1.get child.id).isTimer)
    (hnd : ∀ dch, (ctxDone st1 parent).2 = some dch →
        chanClosed (ctxDone st1 parent).1 dch = false) :
    Wf (propagateCancel fuel st1 parent child).1 ∧
    (propagateCancel fuel st1 parent child).1.nodes.length = st1.nodes.length ∧
    (propagateCancel fuel st1 parent child).1.now = st1.now ∧
    (propagateCancel fuel st1 parent child).1.get child.id = st1.get child.id := by
  have hfe := ctxDone_fieldsEq st1 parent
  have hwfY : Wf (ctxDone st1 parent).1 := wf_fieldsEq st1 _ hwf hfe.1 hfe.2
  have hYlen : (ctxDone st1 parent).1.nodes.length = st1.nodes.length := hfe.1.1
  have hYnow : (ctxDone st1 parent).1.now = st1.now := hfe.1.2.1
  have hYchild : (ctxDone st1 parent).1.get child.id = st1.get child.id :=
    ctxDone_get_untouched st1 parent child.id child.id hb (Nat.le_refl _)
  have hq1 : (parentCancelCtx (ctxDone st1 parent).1 parent).1 = (ctxDone st1 parent).1 := by
    rw [parentCancelCtx_heap, ctxDone_idem]
  unfold propagateCancel
  dsimp only
  rcases hdch : (ctxDone st1 parent).2 with _ | dch
  · exact ⟨hwfY, hYlen, hYnow, hYchild⟩
  · dsimp only
    rw [hnd dch hdch]
    simp only [Bool.false_eq_true, if_false]
    rcases hq : (parentCancelCtx (ctxDone st1 parent).1 parent).2 with _ | pid
    · by_cases haf : hasAfterFuncCap parent = true
      · rw [if_pos haf]
        rw [hq1]
        exact ⟨hwfY, hYlen, hYnow, hYchild⟩
      · rw [if_neg haf]
        rw [hq1]
        refine ⟨wf_goroutines _ _ hwfY, hYlen, hYnow, hYchild⟩
    · dsimp only
      obtain ⟨hv, ⟨b, hdoneb⟩, hchan⟩ :=
        parentCancelCtx_some (ctxDone st1 parent).1 parent pid hq
      have hid2 : (ctxDone (ctxDone st1 parent).1 parent) = ctxDone st1 parent :=
        ctxDone_idem st1 parent
      rw [hid2] at hdoneb hchan
      have hdcheq : dch = Chan.node pid := by
        rw [hdch] at hchan
        cases hchan
        rfl
      have hbfalse : b = false := by
        have h5 := hnd dch hdch
        rw [hdcheq] at h5
        unfold chanClosed at h5
        dsimp only at h5
        rw [hdoneb] at h5
        exact h5
      subst hbfalse
      have hpidlt : pid < child.id := (ctxValue_cancelPtr_bound hb).1 hv
      have hpidY : pid < (ctxDone st1 parent).1.nodes.length := by omega
      have hperr : ((ctxDone st1 parent).1.get pid).err = none := by
        by_contra hcon
        have hdc := (hwfY pid hpidY).2.2.2.1.mpr hcon
        unfold doneClosed at hdc
        rw [hdoneb] at hdc
        cases hdc
      rw [hq1, hperr]
      dsimp only
      have hcne : child.id ≠ pid := by omega
      refine ⟨?_, ?_, ?_, ?_⟩
      · exact hperr ▸ wf_insert (ctxDone st1 parent).1 hwfY pid child hpidY hperr hpidlt
          (by omega) (by rw [hYchild]; exact hcoh) (by rw [hYchild]; exact hfresh)
      · rw [Heap.length_set]
        exact hYlen
      · rw [Heap.now_set]
        exact hYnow
      · rw [Heap.get_set_ne _ pid _ child.id hcne]
        exact hYchild

/-! ## Permanence: no public operation disturbs a canceled node -/

theorem stableAt_fieldsEq {idx : Nat} {e0 : GoErr} {st stp : Heap}
    (hf : FieldsEq st stp) (hch : ∀ d, (stp.get d).children = (st.get d).children)
    (herr : (st.get idx).err = some e0) : StableAt idx e0 st stp :=
  ⟨by rw [(hf.2.2.2 idx).1]; exact herr, (hf.2.2.2 idx).2.1, (hf.2.2.2 idx).2.2.2.2,
    fun hc => by rw [hch idx]; exact hc⟩

theorem stableAt_push {idx : Nat} {e0 : GoErr} {st : Heap} (n : Node)
    (herr : (st.get idx).err = some e0) : StableAt idx e0 st (st.push n) := by
  have hidx : idx < st.nodes.length := by
    by_contra hcon
    rw [Heap.get_oob st idx (Nat.le_of_not_lt hcon)] at herr
    cases herr
  exact stableAt_of_getEq (Heap.push_get st n idx hidx) herr

theorem stableAt_setTimerFlag {idx : Nat} {e0 : GoErr} {st : Heap} (i : Nat) (b : Bool)
    (herr : (st.get idx).err = some e0) :
    StableAt idx e0 st (st.set i { st.get i with timer := b }) := by
  by_cases hi : i < st.nodes.length
  · by_cases hd : idx = i
    · subst hd
      refine ⟨?_, ?_, ?_, ?_⟩
      · rw [Heap.get_set_eq _ _ _ hi]
        exact herr
      · rw [Heap.get_set_eq _ _ _ hi]
      · unfold doneClosed
        rw [Heap.get_set_eq _ _ _ hi]
      · intro hc
        rw [Heap.get_set_eq _ _ _ hi]
        exact hc
    · exact stableAt_of_getEq (Heap.get_set_ne _ _ _ idx hd) herr
  · rw [Heap.set_oob _ _ _ (Nat.le_of_not_lt hi)]
    exact stableAt_refl herr

/-- Wiring a new child to any parent leaves an already-canceled node's
observables untouched (the only node it can cancel is the fresh child, and
the only children set it can grow is an uncanceled parent's). -/
theorem propagateCancel_stable (idx : Nat) (e0 : GoErr) (fuel : Nat) (st : Heap)
    (parent : Ctx) (child : Canceler) (herr : (st.get idx).err = some e0) :
    StableAt idx e0 st (propagateCancel fuel st parent child).1 := by
  have hfe := ctxDone_fieldsEq st parent
  have hY : StableAt idx e0 st (ctxDone st parent).1 := stableAt_fieldsEq hfe.1 hfe.2 herr
  unfold propagateCancel
  dsimp only
  rcases hdch : (ctxDone st parent).2 with _ | dch
  · exact hY
  · dsimp only
    split
    · rcases herr2 : ctxErr (ctxDone st parent).1 parent with _ | e
      · exact hY
      · exact stableAt_stitch hY (cancelAny_stable idx e0 fuel _ child false e _ hY.1)
    · have hq1 : (parentCancelCtx (ctxDone st parent).1 parent).1 =
          (ctxDone (ctxDone st parent).1 parent).1 := parentCancelCtx_heap _ _
      have hfe2 := ctxDone_fieldsEq (ctxDone st parent).1 parent
      have hQ : StableAt idx e0 st (parentCancelCtx (ctxDone st parent).1 parent).1 := by
        rw [hq1]
        exact stableAt_stitch hY (stableAt_fieldsEq hfe2.1 hfe2.2 hY.1)
      rcases hq : (parentCancelCtx (ctxDone st parent).1 parent).2 with _ | pid
      · dsimp only
        split
        · exact hQ
        · exact ⟨hQ.1, hQ.2.1, hQ.2.2.1, hQ.2.2.2⟩
      · dsimp only
        rcases hperr : ((parentCancelCtx (ctxDone st parent).1 parent).1.get pid).err
          with _ | pe
        · have hne : idx ≠ pid := by
            intro hcon
            rw [← hcon] at hperr
            rw [hQ.1] at hperr
            cases hperr
          exact stableAt_stitch hQ
            (stableAt_of_getEq (Heap.get_set_ne _ pid _ idx hne) hQ.1)
        · exact stableAt_stitch hQ
            (cancelAny_stable idx e0 fuel _ child false pe _ hQ.1)

theorem withCancel_stable (idx : Nat) (e0 : GoErr) (fuel : Nat) (st : Heap)
    (parent : Ctx) (herr : (st.get idx).err = some e0) :
    StableAt idx e0 st (withCancel fuel st parent).1 := by
  unfold withCancel
  dsimp only
  have h1 : StableAt idx e0 st (st.push Node.default0) := stableAt_push _ herr
  exact stableAt_stitch h1 (propagateCancel_stable idx e0 fuel _ parent _ h1.1)

theorem WithDeadlineCauseBody_stable (idx : Nat) (e0 : GoErr) (fuel : Nat) (st : Heap)
    (parent : Ctx) (d : Int) (cause : Option GoErr)
    (herr : (st.get idx).err = some e0) :
    StableAt idx e0 st (WithDeadlineCause.body fuel st parent d cause).1 := by
  unfold WithDeadlineCause.body
  dsimp only
  have h1 : StableAt idx e0 st (st.push { Node.default0 with isTimer := true }) :=
    stableAt_push _ herr
  have h2 := stableAt_stitch h1
    (propagateCancel_stable idx e0 fuel _ parent
      ⟨st.nodes.length, true, parent⟩ h1.1)
  split
  · exact stableAt_stitch h2 (cancelAny_stable idx e0 fuel _ _ true .deadlineExceeded _ h2.1)
  · split
    · exact stableAt_stitch h2 (stableAt_setTimerFlag _ true h2.1)
    · exact h2

theorem WithDeadlineCause_stable (idx : Nat) (e0 : GoErr) (fuel : Nat) (st : Heap)
    (parent : Ctx) (d : Int) (cause : Option GoErr)
    (herr : (st.get idx).err = some e0) :
    StableAt idx e0 st (WithDeadlineCause fuel st parent d cause).1 := by
  unfold WithDeadlineCause
  split
  · split
    · exact withCancel_stable idx e0 fuel st parent herr
    · exact WithDeadlineCauseBody_stable idx e0 fuel st parent d cause herr
  · exact WithDeadlineCauseBody_stable idx e0 fuel st parent d cause herr

/-- One step of the package public interface over the modelled state: the
cancel functions, a timer firing, a `Done` query (which materializes lazy
channels), the three allocating derivations, and the clock advancing. -/
inductive Op where
  | cancelOp (h : CancelHandle)
  | cancelCauseOp (c : Canceler) (cause : Option GoErr)
  | fireOp (c : Canceler) (d : Int) (cause : Option GoErr)
  | doneOp (c : Ctx)
  | withCancelOp (parent : Ctx)
  | withCancelCauseOp (parent : Ctx)
  | withDeadlineOp (parent : Ctx) (d : Int) (cause : Option GoErr)
  | advanceOp (dt : Int)

def runOp (fuel : Nat) (st : Heap) : Op → Heap
  | .cancelOp h => callCancelFunc fuel st h
  | .cancelCauseOp c cause => callCancelCauseFunc fuel st c cause
  | .fireOp c d cause => fireTimer fuel st c d cause
  | .doneOp c => (ctxDone st c).1
  | .withCancelOp parent => (WithCancel fuel st parent).1
  | .withCancelCauseOp parent => (WithCancelCause fuel st parent).1
  | .withDeadlineOp parent d cause => (WithDeadlineCause fuel st parent d cause).1
  | .advanceOp dt => { st with now := st.now + dt }

def runOps (fuel : Nat) (st : Heap) (ops : List Op) : Heap :=
  ops.foldl (runOp fuel) st

theorem runOp_stable (idx : Nat) (e0 : GoErr) (fuel : Nat) (st : Heap) (op : Op)
    (herr : (st.get idx).err = some e0) : StableAt idx e0 st (runOp fuel st op) := by
  rcases op with h | ⟨c, cause⟩ | ⟨c, d, cause⟩ | c | parent | parent | ⟨parent, d, cause⟩ | dt
  · exact cancelAny_stable idx e0 fuel st h.c h.removeFromParent .canceled none herr
  · exact cancelAny_stable idx e0 fuel st c true .canceled cause herr
  · show StableAt idx e0 st (fireTimer fuel st c d cause)
    unfold fireTimer
    split
    · exact cancelAny_stable idx e0 fuel st c true .deadlineExceeded cause herr
    · exact stableAt_refl herr
  · exact stableAt_fieldsEq (ctxDone_fieldsEq st c).1 (ctxDone_fieldsEq st c).2 herr
  · exact withCancel_stable idx e0 fuel st parent herr
  · exact withCancel_stable idx e0 fuel st parent herr
  · exact WithDeadlineCause_stable idx e0 fuel st parent d cause herr
  · exact ⟨herr, rfl, rfl, fun hc => hc⟩

theorem runOps_stable (idx : Nat) (e0 : GoErr) (fuel : Nat) (ops : List Op) :
    ∀ st : Heap, (st.get idx).err = some e0 → StableAt idx e0 st (runOps fuel st ops) := by
  induction ops with
  | nil => exact fun st herr => stableAt_refl herr
  | cons op ops ih =>
      intro st herr
      have h1 := runOp_stable idx e0 fuel st op herr
      exact stableAt_stitch h1 (ih (runOp fuel st op) h1.1)

/-! ## The timer flag: cancel always clears it, nothing re-arms it -/

theorem timerClear_timer (st : Heap) (i : Nat) : ((timerClear st i).get i).timer = false := by
  unfold timerClear
  split
  · rename_i htm
    by_cases hi : i < st.nodes.length
    · rw [Heap.get_set_eq _ _ _ hi]
    · rw [Heap.get_oob st i (Nat.le_of_not_lt hi)] at htm
      cases htm
  · rename_i htm
    exact bool_eq_false_of_ne_true htm

/-- `timerCtx.cancel` always returns with the timer stopped: the explicit
cancel call, the handle of the past-deadline creation path, and the timer
firing all end here. -/
theorem cancelAny_timer_self (fuel : Nat) (st : Heap) (self : Canceler) (rm : Bool)
    (e : GoErr) (c0 : Option GoErr) (ht : self.isTimer = true) :
    ((cancelAny fuel st self rm e c0).get self.id).timer = false := by
  rw [cancelAny_eq_timer _ _ _ _ _ _ ht, timerCtxCancel_as_clear]
  exact timerClear_timer _ _

theorem timerClear_timer_mono (st : Heap) (i d : Nat)
    (h : ((timerClear st i).get d).timer = true) : (st.get d).timer = true := by
  unfold timerClear at h
  split at h
  · by_cases hi : i < st.nodes.length
    · by_cases hd : d = i
      · subst hd
        rw [Heap.get_set_eq _ _ _ hi] at h
        cases h
      · rw [Heap.get_set_ne _ _ _ d hd] at h
        exact h
    · rw [Heap.set_oob _ _ _ (Nat.le_of_not_lt hi)] at h
      exact h
  · exact h

theorem removeChild_timer (st : Heap) (p : Ctx) (child : Canceler) (d : Nat) :
    ((removeChild st p child).get d).timer = (st.get d).timer :=
  ((removeChild_obsEq st p child).2.2.2 d).2.2.2.2.1

/-- A cancel cascade never arms a timer: any timer flag set afterwards was
already set before. -/
theorem cancelAny_timer_mono (d : Nat) :
    ∀ (fuel : Nat) (st : Heap) (self : Canceler) (rm : Bool) (e : GoErr)
      (c0 : Option GoErr),
      ((cancelAny fuel st self rm e c0).get d).timer = true → (st.get d).timer = true := by
  intro fuel
  induction fuel with
  | zero =>
      intro st self rm e c0 h
      by_cases ht : self.isTimer = true
      · rw [cancelAny_eq_timer _ _ _ _ _ _ ht, timerCtxCancel_as_clear,
          cancelCtxCancel_zero] at h
        have h2 := timerClear_timer_mono _ self.id d h
        rcases rm with _ | _
        · exact h2
        · rw [if_pos rfl] at h2
          rw [removeChild_timer] at h2
          exact h2
      · rw [cancelAny_eq_cancel _ _ _ _ _ _ (bool_eq_false_of_ne_true ht),
          cancelCtxCancel_zero] at h
        exact h
  | succ fuel ih =>
      intro st self rm e c0 h
      have hfold : ∀ (kids : List Canceler) (s : Heap) (e2 : GoErr) (c2 : Option GoErr),
          ((kids.foldl (fun acc ch => cancelAny fuel acc ch false e2 c2) s).get d).timer
            = true → (s.get d).timer = true := by
        intro kids
        induction kids with
        | nil => exact fun s e2 c2 h2 => h2
        | cons ch kids ihk =>
            intro s e2 c2 h2
            rw [List.foldl_cons] at h2
            exact ih _ ch false e2 c2 (ihk _ e2 c2 h2)
      have hcore : ∀ (rm2 : Bool),
          ((cancelCtxCancel (fuel + 1) st self rm2 e c0).get d).timer = true →
            (st.get d).timer = true := by
        intro rm2 h2
        by_cases herr2 : (st.get self.id).err = none
        · rw [cancelCtxCancel_fresh fuel st self rm2 e c0 herr2] at h2
          dsimp only at h2
          have h3 : ((((childIds st self.id).foldl
              (fun acc ch => cancelAny fuel acc ch false e (some (c0.getD e)))
              (st.set self.id (cancWrite (st.get self.id) e (c0.getD e)))).set self.id
                { ((childIds st self.id).foldl
                    (fun acc ch => cancelAny fuel acc ch false e (some (c0.getD e)))
                    (st.set self.id (cancWrite (st.get self.id) e (c0.getD e)))).get self.id
                  with children := none }).get d).timer = true := by
            rcases rm2 with _ | _
            · rw [if_neg Bool.false_ne_true] at h2
              exact h2
            · rw [if_pos rfl] at h2
              rw [removeChild_timer] at h2
              exact h2
          have h4 : (((childIds st self.id).foldl
              (fun acc ch => cancelAny fuel acc ch false e (some (c0.getD e)))
              (st.set self.id (cancWrite (st.get self.id) e (c0.getD e)))).get d).timer
                = true := by
            by_cases hd : d = self.id
            · rw [hd] at h3 ⊢
              by_cases hlt : self.id < ((childIds st self.id).foldl
                  (fun acc ch => cancelAny fuel acc ch false e (some (c0.getD e)))
                  (st.set self.id (cancWrite (st.get self.id) e (c0.getD e)))).nodes.length
              · rw [Heap.get_set_eq _ _ _ hlt] at h3
                exact h3
              · rw [Heap.set_oob _ _ _ (Nat.le_of_not_lt hlt)] at h3
                exact h3
            · rw [Heap.get_set_ne _ _ _ d hd] at h3
              exact h3
          have h5 := hfold (childIds st self.id) _ e (some (c0.getD e)) h4
          by_cases hd : d = self.id
          · rw [hd] at h5 ⊢
            by_cases hlt : self.id < st.nodes.length
            · rw [Heap.get_set_eq _ _ _ hlt] at h5
              rw [cancWrite_timer] at h5
              exact h5
            · rw [Heap.set_oob _ _ _ (Nat.le_of_not_lt hlt)] at h5
              exact h5
          · rw [Heap.get_set_ne _ _ _ d hd] at h5
            exact h5
        · rw [cancelCtxCancel_canceled fuel st self rm2 e c0 herr2] at h2
          exact h2
      by_cases ht : self.isTimer = true
      · rw [cancelAny_eq_timer _ _ _ _ _ _ ht, timerCtxCancel_as_clear] at h
        have h2 := timerClear_timer_mono _ self.id d h
        rcases rm with _ | _
        · exact hcore false h2
        · rw [if_pos rfl] at h2
          rw [removeChild_timer] at h2
          exact hcore false h2
      · rw [cancelAny_eq_cancel _ _ _ _ _ _ (bool_eq_false_of_ne_true ht)] at h
        exact hcore rm h

theorem push_timer_eq (st : Heap) (n : Node) (hn : n.timer = false) (d : Nat) :
    ((st.push n).get d).timer = (st.get d).timer := by
  by_cases hd : d < st.nodes.length
  · rw [Heap.push_get st n d hd]
  · by_cases hd2 : d = st.nodes.length
    · rw [hd2, Heap.push_get_last, Heap.get_oob st _ (Nat.le_refl _), hn]
      rfl
    · rw [Heap.get_oob (st.push n) d
        (by rw [Heap.push_length]; omega),
        Heap.get_oob st d (Nat.le_of_not_lt hd)]

/-- Wiring a child never arms a timer either. -/
theorem propagateCancel_timer_mono (d : Nat) (fuel : Nat) (st : Heap)
    (parent : Ctx) (child : Canceler)
    (h : ((propagateCancel fuel st parent child).1.get d).timer = true) :
    (st.get d).timer = true := by
  have hfe := ctxDone_fieldsEq st parent
  have hYt : ((ctxDone st parent).1.get d).timer = (st.get d).timer :=
    (hfe.1.2.2.2 d).2.2.2.1
  rw [← hYt]
  unfold propagateCancel at h
  dsimp only at h
  rcases hdch : (ctxDone st parent).2 with _ | dch
  · rw [hdch] at h
    exact h
  · rw [hdch] at h
    dsimp only at h
    split at h
    · rcases herr2 : ctxErr (ctxDone st parent).1 parent with _ | e
      · rw [herr2] at h
        exact h
      · rw [herr2] at h
        exact cancelAny_timer_mono d fuel _ child false e _ h
    · have hq1 : (parentCancelCtx (ctxDone st parent).1 parent).1 =
          (ctxDone (ctxDone st parent).1 parent).1 := parentCancelCtx_heap _ _
      have hfe2 := ctxDone_fieldsEq (ctxDone st parent).1 parent
      have hQt : ((parentCancelCtx (ctxDone st parent).1 parent).1.get d).timer =
          ((ctxDone st parent).1.get d).timer := by
        rw [hq1]
        exact (hfe2.1.2.2.2 d).2.2.2.1
      rw [← hQt]
      rcases hq : (parentCancelCtx (ctxDone st parent).1 parent).2 with _ | pid
      · rw [hq] at h
        dsimp only at h
        split at h
        · exact h
        · exact h
      · rw [hq] at h
        dsimp only at h
        rcases hperr : ((parentCancelCtx (ctxDone st parent).1 parent).1.get pid).err
          with _ | pe
        · rw [hperr] at h
          by_cases hd : d = pid
          · rw [hd] at h ⊢
            by_cases hlt : pid <
                (parentCancelCtx (ctxDone st parent).1 parent).1.nodes.length
            · rw [Heap.get_set_eq _ _ _ hlt] at h
              exact h
            · rw [Heap.set_oob _ _ _ (Nat.le_of_not_lt hlt)] at h
              exact h
          · rw [Heap.get_set_ne _ _ _ d hd] at h
            exact h
        · rw [hperr] at h
          exact cancelAny_timer_mono d fuel _ child false pe _ h

theorem propagateCancel_ctx (fuel : Nat) (st : Heap) (parent : Ctx) (child : Canceler) :
    (propagateCancel fuel st parent child).2 = parent ∨
    (propagateCancel fuel st parent child).2 = .stopC parent (afterFuncTag parent) := by
  unfold propagateCancel
  dsimp only
  rcases hdch : (ctxDone st parent).2 with _ | dch
  · exact Or.inl rfl
  · dsimp only
    split
    · rcases herr2 : ctxErr (ctxDone st parent).1 parent with _ | e
      · exact Or.inl rfl
      · exact Or.inl rfl
    · rcases hq : (parentCancelCtx (ctxDone st parent).1 parent).2 with _ | pid
      · dsimp only
        split
        · exact Or.inr rfl
        · exact Or.inl rfl
      · dsimp only
        rcases hperr : ((parentCancelCtx (ctxDone st parent).1 parent).1.get pid).err
          with _ | pe
        · exact Or.inl rfl
        · exact Or.inl rfl

theorem WithCancel_timer_mono (d : Nat) (fuel : Nat) (st : Heap) (parent : Ctx)
    (h : ((WithCancel fuel st parent).1.get d).timer = true) :
    (st.get d).timer = true := by
  unfold WithCancel withCancel at h
  dsimp only at h
  have h2 := propagateCancel_timer_mono d fuel _ parent _ h
  rw [show ({ st with nodes := st.nodes ++ [Node.default0] } : Heap)
      = st.push Node.default0 from rfl] at h2
  rw [push_timer_eq st Node.default0 rfl d] at h2
  exact h2

theorem WithCancel_deadline (fuel : Nat) (st : Heap) (parent : Ctx) :
    ctxDeadline (WithCancel fuel st parent).2.1 = ctxDeadline parent := by
  unfold WithCancel withCancel
  dsimp only
  show ctxDeadline (propagateCancel fuel _ parent _).2 = ctxDeadline parent
  rcases propagateCancel_ctx fuel ({ st with nodes := st.nodes ++ [Node.default0] })
      parent ⟨st.nodes.length, false, parent⟩ with hc | hc
  · rw [hc]
  · rw [hc]
    rfl

/-! ## Lock traces: equations and balance -/

theorem cancelCtxCancelTrace_zero (st : Heap) (self : Canceler) (rm : Bool)
    (e : GoErr) (c0 : Option GoErr) :
    cancelCtxCancelTrace 0 st self rm e c0 = ([], st) := by
  unfold cancelCtxCancelTrace
  rfl

theorem timerCtxCancelTrace_eq (fuel : Nat) (st : Heap) (self : Canceler) (rm : Bool)
    (e : GoErr) (c0 : Option GoErr) :
    timerCtxCancelTrace fuel st self rm e c0 =
      (let r := cancelCtxCancelTrace fuel st self false e c0
       let st2 := if rm then removeChild r.2 self.ctxField self else r.2
       let st3 := if (st2.get self.id).timer then
           st2.set self.id { st2.get self.id with timer := false } else st2
       (r.1 ++ [.acq self.id, .rel self.id], st3)) := by
  unfold timerCtxCancelTrace
  rfl

theorem cancelAnyTrace_eq_timer (fuel : Nat) (st : Heap) (self : Canceler) (rm : Bool)
    (e : GoErr) (c0 : Option GoErr) (h : self.isTimer = true) :
    cancelAnyTrace fuel st self rm e c0 = timerCtxCancelTrace fuel st self rm e c0 := by
  unfold cancelAnyTrace
  rw [h]
  simp

theorem cancelAnyTrace_eq_cancel (fuel : Nat) (st : Heap) (self : Canceler) (rm : Bool)
    (e : GoErr) (c0 : Option GoErr) (h : self.isTimer = false) :
    cancelAnyTrace fuel st self rm e c0 = cancelCtxCancelTrace fuel st self rm e c0 := by
  unfold cancelAnyTrace
  rw [h]
  simp

theorem cancelCtxCancelTrace_canceled (fuel : Nat) (st : Heap) (self : Canceler)
    (rm : Bool) (e : GoErr) (c0 : Option GoErr) (herr : (st.get self.id).err ≠ none) :
    cancelCtxCancelTrace (fuel + 1) st self rm e c0 =
      ([.acq self.id, .rel self.id], st) := by
  unfold cancelCtxCancelTrace
  dsimp only
  rw [if_pos herr]

theorem cancelCtxCancelTrace_fresh (fuel : Nat) (st : Heap) (self : Canceler)
    (rm : Bool) (e : GoErr) (c0 : Option GoErr) (herr : (st.get self.id).err = none) :
    cancelCtxCancelTrace (fuel + 1) st self rm e c0 =
      (let r := (childIds st self.id).foldl
          (fun acc ch =>
            let t := cancelAnyTrace fuel acc.2 ch false e (some (c0.getD e))
            (acc.1 ++ t.1, t.2))
          (([] : List LockEv), st.set self.id (cancWrite (st.get self.id) e (c0.getD e)))
       let st3 := r.2.set self.id { r.2.get self.id with children := none }
       let st4 := if rm then removeChild st3 self.ctxField self else st3
       ([LockEv.acq self.id] ++ r.1 ++ [LockEv.rel self.id], st4)) := by
  unfold cancelCtxCancelTrace
  dsimp only
  rw [if_neg (by simp [herr])]
  rfl

/-- Running an event list from an arbitrary multiset of held locks. -/
def runHeld (s : List Nat) (evs : List LockEv) : List Nat :=
  evs.foldl
    (fun held e =>
      match e with
      | .acq id => id :: held
      | .rel id => held.erase id)
    s

theorem heldAfter_eq_runHeld (evs : List LockEv) : heldAfter evs = runHeld [] evs := rfl

theorem runHeld_append (s : List Nat) (a b : List LockEv) :
    runHeld s (a ++ b) = runHeld (runHeld s a) b := by
  unfold runHeld
  rw [List.foldl_append]

theorem runHeld_lockPair (i : Nat) (s : List Nat) :
    runHeld s [LockEv.acq i, LockEv.rel i] = s := by
  show (i :: s).erase i = s
  exact List.erase_cons_head i s

theorem runHeld_bracket (i : Nat) (t : List LockEv)
    (h : ∀ s : List Nat, runHeld s t = s) (s : List Nat) :
    runHeld s ([LockEv.acq i] ++ t ++ [LockEv.rel i]) = s := by
  rw [runHeld_append, runHeld_append]
  rw [show runHeld s [LockEv.acq i] = i :: s from rfl]
  rw [h (i :: s)]
  show (i :: s).erase i = s
  exact List.erase_cons_head i s

theorem traceFold_neutral (fuel : Nat) (e : GoErr) (c : Option GoErr)
    (IH : ∀ (st : Heap) (self : Canceler) (rm : Bool) (s : List Nat),
      runHeld s (cancelAnyTrace fuel st self rm e c).1 = s) :
    ∀ (kids : List Canceler) (acc : List LockEv × Heap),
      (∀ s : List Nat, runHeld s acc.1 = s) →
      ∀ s : List Nat,
        runHeld s ((kids.foldl
          (fun acc ch =>
            let t := cancelAnyTrace fuel acc.2 ch false e c
            (acc.1 ++ t.1, t.2)) acc).1) = s := by
  intro kids
  induction kids with
  | nil => exact fun acc hacc s => hacc s
  | cons ch kids ihk =>
      intro acc hacc s
      rw [List.foldl_cons]
      refine ihk _ ?_ s
      intro s2
      show runHeld s2 (acc.1 ++ (cancelAnyTrace fuel acc.2 ch false e c).1) = s2
      rw [runHeld_append, hacc s2, IH acc.2 ch false s2]

/-- Every lock the cascade acquires is released before the call returns, from
any starting lock multiset: the trace is balanced. -/
theorem cancelAnyTrace_neutral :
    ∀ (fuel : Nat) (st : Heap) (self : Canceler) (rm : Bool) (e : GoErr)
      (c0 : Option GoErr) (s : List Nat),
      runHeld s (cancelAnyTrace fuel st self rm e c0).1 = s := by
  intro fuel
  induction fuel with
  | zero =>
      intro st self rm e c0 s
      by_cases ht : self.isTimer = true
      · rw [cancelAnyTrace_eq_timer _ _ _ _ _ _ ht, timerCtxCancelTrace_eq,
          cancelCtxCancelTrace_zero]
        show runHeld s ([] ++ [LockEv.acq self.id, LockEv.rel self.id]) = s
        rw [List.nil_append]
        exact runHeld_lockPair self.id s
      · rw [cancelAnyTrace_eq_cancel _ _ _ _ _ _ (bool_eq_false_of_ne_true ht),
          cancelCtxCancelTrace_zero]
        rfl
  | succ fuel ih =>
      intro st self rm e c0 s
      have hcore : ∀ (rm2 : Bool) (s2 : List Nat),
          runHeld s2 (cancelCtxCancelTrace (fuel + 1) st self rm2 e c0).1 = s2 := by
        intro rm2 s2
        by_cases herr2 : (st.get self.id).err = none
        · rw [cancelCtxCancelTrace_fresh fuel st self rm2 e c0 herr2]
          refine runHeld_bracket self.id _ ?_ s2
          exact traceFold_neutral fuel e (some (c0.getD e))
            (fun st3 self3 rm3 s3 => ih st3 self3 rm3 e (some (c0.getD e)) s3)
            (childIds st self.id) _ (fun _ => rfl)
        · rw [cancelCtxCancelTrace_canceled fuel st self rm2 e c0 herr2]
          exact runHeld_lockPair self.id s2
      by_cases ht : self.isTimer = true
      · rw [cancelAnyTrace_eq_timer _ _ _ _ _ _ ht, timerCtxCancelTrace_eq]
        show runHeld s ((cancelCtxCancelTrace (fuel + 1) st self false e c0).1 ++
          [LockEv.acq self.id, LockEv.rel self.id]) = s
        rw [runHeld_append, hcore false s]
        exact runHeld_lockPair self.id s
      · rw [cancelAnyTrace_eq_cancel _ _ _ _ _ _ (bool_eq_false_of_ne_true ht)]
        exact hcore rm s

/-! ## Value chains -/

/-- A chain of nested `WithValue` derivations over `base`: the head of the
list is the innermost (most recently derived) key/value pair. -/
def valueChainOf (base : Ctx) : List (Key × Val) → Ctx
  | [] => base
  | kv :: rest => .valueC (valueChainOf base rest) kv.1 kv.2

theorem valueLookup_chain_cancelPtr (id : Nat) (p : Ctx) :
    ∀ (pairs : List (Key × Val)), (∀ kv ∈ pairs, kv.1 ≠ Key.cancelCtxKey) →
      valueLookup (valueChainOf (.cancelRef id p) pairs) Key.cancelCtxKey =
        .cancelPtr id := by
  intro pairs
  induction pairs with
  | nil =>
      intro _
      rfl
  | cons kv rest ih =>
      intro h
      show (if Key.cancelCtxKey = kv.1 then kv.2
        else valueLookup (valueChainOf (.cancelRef id p) rest) Key.cancelCtxKey) =
          .cancelPtr id
      rw [if_neg (fun hcon => h kv (List.mem_cons_self kv rest) hcon.symm)]
      exact ih (fun kv2 hm => h kv2 (List.mem_cons_of_mem kv hm))

theorem ctxValue_chain_cancelPtr (id : Nat) (p : Ctx) (pairs : List (Key × Val))
    (h : ∀ kv ∈ pairs, kv.1 ≠ Key.cancelCtxKey) :
    ctxValue (valueChainOf (.cancelRef id p) pairs) Key.cancelCtxKey = .cancelPtr id := by
  rcases pairs with _ | ⟨kv, rest⟩
  · rfl
  · show (if Key.cancelCtxKey = kv.1 then kv.2
      else valueLookup (valueChainOf (.cancelRef id p) rest) Key.cancelCtxKey) =
        .cancelPtr id
    rw [if_neg (fun hcon => h kv (List.mem_cons_self kv rest) hcon.symm)]
    exact valueLookup_chain_cancelPtr id p rest
      (fun kv2 hm => h kv2 (List.mem_cons_of_mem kv hm))

theorem valueLookup_chain_ptr (base : Ctx) (id : Nat)
    (hb : valueLookup base Key.cancelCtxKey = .cancelPtr id) :
    ∀ (pairs : List (Key × Val)), (∀ kv ∈ pairs, kv.1 ≠ Key.cancelCtxKey) →
      valueLookup (valueChainOf base pairs) Key.cancelCtxKey = .cancelPtr id := by
  intro pairs
  induction pairs with
  | nil => exact fun _ => hb
  | cons kv rest ih =>
      intro h
      show (if Key.cancelCtxKey = kv.1 then kv.2
        else valueLookup (valueChainOf base rest) Key.cancelCtxKey) = .cancelPtr id
      rw [if_neg (fun hcon => h kv (List.mem_cons_self kv rest) hcon.symm)]
      exact ih (fun kv2 hm => h kv2 (List.mem_cons_of_mem kv hm))

theorem ctxValue_chain_ptr (base : Ctx) (id : Nat)
    (hb1 : ctxValue base Key.cancelCtxKey = .cancelPtr id)
    (hb2 : valueLookup base Key.cancelCtxKey = .cancelPtr id)
    (pairs : List (Key × Val)) (h : ∀ kv ∈ pairs, kv.1 ≠ Key.cancelCtxKey) :
    ctxValue (valueChainOf base pairs) Key.cancelCtxKey = .cancelPtr id := by
  rcases pairs with _ | ⟨kv, rest⟩
  · exact hb1
  · show (if Key.cancelCtxKey = kv.1 then kv.2
      else valueLookup (valueChainOf base rest) Key.cancelCtxKey) = .cancelPtr id
    rw [if_neg (fun hcon => h kv (List.mem_cons_self kv rest) hcon.symm)]
    exact valueLookup_chain_ptr base id hb2 rest
      (fun kv2 hm => h kv2 (List.mem_cons_of_mem kv hm))

theorem valueLookup_chain (root : Ctx) (hroot : root = .background ∨ root = .todo)
    (k : Key) :
    ∀ (pairs : List (Key × Val)),
      valueLookup (valueChainOf root pairs) k =
        (match pairs.find? (fun kv => kv.1 == k) with
         | some kv => kv.2
         | none => .nilv) := by
  intro pairs
  induction pairs with
  | nil =>
      rcases hroot with h | h
      · rw [h]
        rfl
      · rw [h]
        rfl
  | cons kv rest ih =>
      show (if k = kv.1 then kv.2 else valueLookup (valueChainOf root rest) k) = _
      by_cases hk : k = kv.1
      · rw [if_pos hk]
        rw [List.find?_cons,
          show (kv.1 == k) = true from by rw [hk]; exact beq_self_eq_true kv.1]
      · rw [if_neg hk]
        rw [List.find?_cons,
          show (kv.1 == k) = false from beq_eq_false_iff_ne.mpr (fun hcon => hk hcon.symm)]
        exact ih

theorem ctxValue_chain (root : Ctx) (hroot : root = .background ∨ root = .todo)
    (k : Key) (pairs : List (Key × Val)) :
    ctxValue (valueChainOf root pairs) k =
      (match pairs.find? (fun kv => kv.1 == k) with
       | some kv => kv.2
       | none => .nilv) := by
  rcases pairs with _ | ⟨kv, rest⟩
  · rcases hroot with h | h
    · rw [h]
      rfl
    · rw [h]
      rfl
  · show (if k = kv.1 then kv.2 else valueLookup (valueChainOf root rest) k) = _
    by_cases hk : k = kv.1
    · rw [if_pos hk]
      rw [List.find?_cons,
        show (kv.1 == k) = true from by rw [hk]; exact beq_self_eq_true kv.1]
    · rw [if_neg hk]
      rw [List.find?_cons,
        show (kv.1 == k) = false from beq_eq_false_iff_ne.mpr (fun hcon => hk hcon.symm)]
      exact valueLookup_chain root hroot k rest

/-! ## Channel identities stay in range -/

theorem ctxDone_chan_bound (bound : Nat) (p : Ctx) (hb : CtxBound bound p = true) :
    ∀ (st : Heap) (i : Nat), (ctxDone st p).2 = some (.node i) → i < bound := by
  induction p with
  | background =>
      intro st i h
      simp [ctxDone] at h
  | todo =>
      intro st i h
      simp [ctxDone] at h
  | cancelRef id q _ =>
      unfold CtxBound at hb
      rw [Bool.and_eq_true] at hb
      have hid : id < bound := by
        have := hb.1
        simpa using this
      intro st i h
      unfold ctxDone cancelCtxDone at h
      dsimp only at h
      rcases hdone : (st.get id).done with _ | b | _ <;> rw [hdone] at h <;>
        dsimp only at h
      · cases h
        exact hid
      · cases h
        exact hid
      · cases h
  | timerRef id dl q _ =>
      unfold CtxBound at hb
      rw [Bool.and_eq_true] at hb
      have hid : id < bound := by
        have := hb.1
        simpa using this
      intro st i h
      unfold ctxDone cancelCtxDone at h
      dsimp only at h
      rcases hdone : (st.get id).done with _ | b | _ <;> rw [hdone] at h <;>
        dsimp only at h
      · cases h
        exact hid
      · cases h
        exact hid
      · cases h
  | valueC q k v ih =>
      unfold CtxBound at hb
      rw [Bool.and_eq_true] at hb
      exact ih hb.2
  | withoutC q _ =>
      intro st i h
      simp [ctxDone] at h
  | stopC q t ih => exact ih hb
  | custom cc =>
      intro st i h
      unfold ctxDone at h
      dsimp only at h
      rcases hd : cc.hasDone with _ | _ <;> rw [hd] at h
      · rw [if_neg Bool.false_ne_true] at h
        cases h
      · rw [if_pos rfl] at h
        cases h

theorem chanClosed_push (st : Heap) (n : Node) (ch : Chan)
    (hbc : ∀ i, ch = .node i → i < st.nodes.length) :
    chanClosed (st.push n) ch = chanClosed st ch := by
  rcases ch with _ | i | ⟨t, b⟩
  · rfl
  · show chanClosed (st.push n) (.node i) = chanClosed st (.node i)
    unfold chanClosed
    dsimp only
    rw [Heap.push_get st n i (hbc i rfl)]
  · rfl

/-! ## The past-deadline creation path -/

theorem wdc_body_past (fuel : Nat) (st : Heap) (parent : Ctx) (d : Int)
    (cause : Option GoErr)
    (hwf : Wf st)
    (hbnd : CtxBound st.nodes.length parent = true)
    (hfuel : 1 ≤ fuel)
    (hpast : d ≤ st.now)
    (hnd : ∀ dch, (ctxDone st parent).2 = some dch →
        chanClosed (ctxDone st parent).1 dch = false) :
    ((WithDeadlineCause.body fuel st parent d cause).1.get st.nodes.length).err
       = some .deadlineExceeded ∧
    ((WithDeadlineCause.body fuel st parent d cause).1.get st.nodes.length).cause
       = some (cause.getD .deadlineExceeded) ∧
    doneClosed (WithDeadlineCause.body fuel st parent d cause).1 st.nodes.length = true ∧
    ((WithDeadlineCause.body fuel st parent d cause).1.get st.nodes.length).children
       = none ∧
    ((WithDeadlineCause.body fuel st parent d cause).1.get st.nodes.length).timer
       = false ∧
    (WithDeadlineCause.body fuel st parent d cause).2.2.removeFromParent = false ∧
    ∃ pc, (WithDeadlineCause.body fuel st parent d cause).2.1
       = .timerRef st.nodes.length d pc := by
  have hnd1 : ∀ dch,
      (ctxDone (st.push { Node.default0 with isTimer := true }) parent).2 = some dch →
      chanClosed (ctxDone (st.push { Node.default0 with isTimer := true }) parent).1 dch
        = false := by
    intro dch hdch
    rw [ctxDone_push st _ parent hbnd] at hdch ⊢
    have hb2 : ∀ i, dch = Chan.node i → i < (ctxDone st parent).1.nodes.length := by
      intro i hi
      rw [(ctxDone_fieldsEq st parent).1.1]
      exact ctxDone_chan_bound st.nodes.length parent hbnd st i (by rw [← hi]; exact hdch)
    rw [chanClosed_push _ _ dch hb2]
    exact hnd dch hdch
  have hwf1 : Wf (st.push { Node.default0 with isTimer := true }) := wf_append st hwf true
  obtain ⟨hwfr, hrlen, hrnow, hrchild⟩ :=
    propagateCancel_notDone fuel (st.push { Node.default0 with isTimer := true })
      parent ⟨st.nodes.length, true, parent⟩ hwf1 hbnd
      (by rw [Heap.push_length]
          show st.nodes.length < st.nodes.length + 1
          omega)
      (by rw [Heap.push_get_last]
          rfl)
      (by rw [Heap.push_get_last])
      hnd1
  have hcond : d - (propagateCancel fuel (st.push { Node.default0 with isTimer := true })
      parent ⟨st.nodes.length, true, parent⟩).1.now ≤ 0 := by
    rw [hrnow]
    show d - st.now ≤ 0
    omega
  have hbody : WithDeadlineCause.body fuel st parent d cause =
      (cancelAny fuel
        (propagateCancel fuel (st.push { Node.default0 with isTimer := true })
          parent ⟨st.nodes.length, true, parent⟩).1
        ⟨st.nodes.length, true,
          (propagateCancel fuel (st.push { Node.default0 with isTimer := true })
            parent ⟨st.nodes.length, true, parent⟩).2⟩
        true .deadlineExceeded cause,
       .timerRef st.nodes.length d
         (propagateCancel fuel (st.push { Node.default0 with isTimer := true })
           parent ⟨st.nodes.length, true, parent⟩).2,
       ⟨⟨st.nodes.length, true,
         (propagateCancel fuel (st.push { Node.default0 with isTimer := true })
           parent ⟨st.nodes.length, true, parent⟩).2⟩, false⟩) := by
    unfold WithDeadlineCause.body
    dsimp only
    rw [show ({ st with nodes :=
        st.nodes ++ [{ Node.default0 with isTimer := true }] } : Heap)
      = st.push { Node.default0 with isTimer := true } from rfl]
    rw [if_pos hcond]
  rw [hbody]
  have hself := cancel_self_rm .deadlineExceeded cause fuel
    (propagateCancel fuel (st.push { Node.default0 with isTimer := true })
      parent ⟨st.nodes.length, true, parent⟩).1
    ⟨st.nodes.length, true,
      (propagateCancel fuel (st.push { Node.default0 with isTimer := true })
        parent ⟨st.nodes.length, true, parent⟩).2⟩
    true hwfr
    (by rw [hrlen, Heap.push_length]
        show st.nodes.length + 1 ≤ fuel + st.nodes.length
        omega)
    (by rw [hrchild, Heap.push_get_last])
    (by rw [hrlen, Heap.push_length]
        show st.nodes.length < st.nodes.length + 1
        omega)
    (by rw [hrchild, Heap.push_get_last]
        rfl)
  refine ⟨hself.1, hself.2.1, hself.2.2.1, hself.2.2.2, ?_, rfl, ⟨_, rfl⟩⟩
  exact cancelAny_timer_self fuel _ _ true .deadlineExceeded cause rfl

/-! ## Concrete states used by the witnesses -/

/-- A one-node heap: a fresh `cancelCtx` derived from `Background`. -/
def sampleHeap1 : Heap :=
  ⟨[{ isTimer := false, done := .unset, children := none,
      err := none, cause := none, timer := false }], 0, 0⟩

/-- A two-node heap: a fresh `cancelCtx` (node 0) with one registered child
`cancelCtx` (node 1). -/
def sampleHeap2 : Heap :=
  ⟨[{ isTimer := false, done := .unset,
      children := some [⟨1, false, .cancelRef 0 .background⟩],
      err := none, cause := none, timer := false },
    { isTimer := false, done := .unset, children := none,
      err := none, cause := none, timer := false }], 0, 0⟩

/-- A one-node heap holding a fresh `timerCtx` with an armed timer. -/
def sampleTimerHeap : Heap :=
  ⟨[{ isTimer := true, done := .unset, children := none,
      err := none, cause := none, timer := true }], 0, 0⟩

/-! ## The claims -/

/-- C1: canceling a cancelable node with error `e` and raw cause `c0`
cancels, before the call returns, every descendant transitively registered
in its children sets: each descendant's done signal is closed, its error is
`e` and its cause the resolved cause, and its children set is cleared; the
canceled node's own children set is cleared to nil; and all of this is
permanent — no later sequence of package operations reopens a done signal,
changes the recorded error, or repopulates a cleared children set. -/
theorem c1_cancel_cascades_all (e : GoErr) (c0 : Option GoErr) (fuel : Nat)
    (st : Heap) (self : Canceler) (rm : Bool)
    (hwf : Wf st) (hlen : st.nodes.length ≤ fuel + self.id)
    (hcoh : self.isTimer = (st.get self.id).isTimer)
    (hid : self.id < st.nodes.length)
    (herr : (st.get self.id).err = none) :
    (∀ d, Desc st self.id d →
      ((cancelAny fuel st self rm e c0).get d).err = some e ∧
      ((cancelAny fuel st self rm e c0).get d).cause = some (c0.getD e) ∧
      doneClosed (cancelAny fuel st self rm e c0) d = true ∧
      ((cancelAny fuel st self rm e c0).get d).children = none ∧
      (∀ fuel2 ops,
        ((runOps fuel2 (cancelAny fuel st self rm e c0) ops).get d).err = some e ∧
        doneClosed (runOps fuel2 (cancelAny fuel st self rm e c0) ops) d = true ∧
        ((runOps fuel2 (cancelAny fuel st self rm e c0) ops).get d).children = none)) ∧
    (((cancelAny fuel st self rm e c0).get self.id).children = none ∧
     ∀ fuel2 ops,
       ((runOps fuel2 (cancelAny fuel st self rm e c0) ops).get self.id).children
         = none) := by
  constructor
  · intro d hd
    have base := cancel_cascades_rm e c0 fuel st self rm hwf hlen hcoh d hd
    refine ⟨base.1, base.2.1, base.2.2.1, base.2.2.2, ?_⟩
    intro fuel2 ops
    have hs := runOps_stable d e fuel2 ops _ base.1
    exact ⟨hs.1, by rw [hs.2.2.1]; exact base.2.2.1, hs.2.2.2 base.2.2.2⟩
  · have hself := cancel_self_rm e c0 fuel st self rm hwf hlen hcoh hid herr
    refine ⟨hself.2.2.2, ?_⟩
    intro fuel2 ops
    have hs := runOps_stable self.id e fuel2 ops _ hself.1
    exact hs.2.2.2 hself.2.2.2

theorem c1_witness :
    ((cancelAny 2 sampleHeap2 ⟨0, false, Ctx.background⟩ true GoErr.canceled none).get
      0).children = none :=
  (c1_cancel_cascades_all .canceled none 2 sampleHeap2 ⟨0, false, .background⟩ true
    (by decide) (by decide) (by decide) (by decide) (by decide)).2.1

/-- C2: cancellation is one-way and idempotent.  The first cancel call on a
fresh node records its error and resolved cause and closes the done signal;
the closed signal and recorded error survive every later sequence of package
operations; and a second cancel call with arbitrary arguments changes none
of the node's observables — the first call's error and cause stay, and `Err`
keeps answering the first call's error. -/
theorem c2_cancel_idempotent (fuel1 fuel2 : Nat) (st : Heap) (self : Canceler)
    (rm1 rm2 : Bool) (e1 e2 : GoErr) (ca1 ca2 : Option GoErr) (p : Ctx)
    (hwf : Wf st) (hlen : st.nodes.length ≤ fuel1 + self.id)
    (hcoh : self.isTimer = (st.get self.id).isTimer)
    (hid : self.id < st.nodes.length)
    (herr : (st.get self.id).err = none) :
    ((cancelAny fuel1 st self rm1 e1 ca1).get self.id).err = some e1 ∧
    ((cancelAny fuel1 st self rm1 e1 ca1).get self.id).cause = some (ca1.getD e1) ∧
    doneClosed (cancelAny fuel1 st self rm1 e1 ca1) self.id = true ∧
    (∀ fuel3 ops,
      ((runOps fuel3 (cancelAny fuel1 st self rm1 e1 ca1) ops).get self.id).err
        = some e1 ∧
      doneClosed (runOps fuel3 (cancelAny fuel1 st self rm1 e1 ca1) ops) self.id
        = true) ∧
    (((cancelAny fuel2 (cancelAny fuel1 st self rm1 e1 ca1) self rm2 e2 ca2).get
        self.id).err = some e1 ∧
     ((cancelAny fuel2 (cancelAny fuel1 st self rm1 e1 ca1) self rm2 e2 ca2).get
        self.id).cause = some (ca1.getD e1) ∧
     doneClosed (cancelAny fuel2 (cancelAny fuel1 st self rm1 e1 ca1) self rm2 e2 ca2)
        self.id = true ∧
     ctxErr (cancelAny fuel2 (cancelAny fuel1 st self rm1 e1 ca1) self rm2 e2 ca2)
        (.cancelRef self.id p) = some e1) := by
  have h1 := cancel_self_rm e1 ca1 fuel1 st self rm1 hwf hlen hcoh hid herr
  have hs := cancelAny_stable self.id e1 fuel2 _ self rm2 e2 ca2 h1.1
  refine ⟨h1.1, h1.2.1, h1.2.2.1, ?_, hs.1, by rw [hs.2.1]; exact h1.2.1,
    by rw [hs.2.2.1]; exact h1.2.2.1, ?_⟩
  · intro fuel3 ops
    have hp := runOps_stable self.id e1 fuel3 ops _ h1.1
    exact ⟨hp.1, by rw [hp.2.2.1]; exact h1.2.2.1⟩
  · show ((cancelAny fuel2 (cancelAny fuel1 st self rm1 e1 ca1) self rm2 e2 ca2).get
      self.id).err = some e1
    exact hs.1

theorem c2_witness :
    doneClosed
      (cancelAny 1 (cancelAny 1 sampleHeap1 ⟨0, false, Ctx.background⟩ true
        GoErr.canceled none) ⟨0, false, Ctx.background⟩ false (GoErr.other 7)
        (some (GoErr.other 8))) 0 = true :=
  (c2_cancel_idempotent 1 1 sampleHeap1 ⟨0, false, .background⟩ true false
    .canceled (.other 7) none (some (.other 8)) .background
    (by decide) (by decide) (by decide) (by decide) (by decide)).2.2.2.2.2.2.1

/-- C3: a node canceled through the cause-aware handle with cause `x` ends
with terminal error exactly `Canceled` (never `x`); `Cause` returns exactly
`x` on that node — also through any chain of plain `WithValue` derivations
above it — and on every descendant that was derived from it by plain
(non-cause) derivations and registered below it (a `WithCancel` or
`WithDeadline` descendant, at any depth, again under any `WithValue`
chain), since the cascade propagates the cause; with no cause supplied the
cause defaults to the terminal error; and `Cause` of the node before
cancellation is nil. -/
theorem c3_cause_exact (fuel : Nat) (st : Heap) (self : Canceler) (x : GoErr)
    (p : Ctx) (pairs : List (Key × Val))
    (hwf : Wf st) (hlen : st.nodes.length ≤ fuel + self.id)
    (hcoh : self.isTimer = (st.get self.id).isTimer)
    (hid : self.id < st.nodes.length)
    (herr : (st.get self.id).err = none)
    (hkeys : ∀ kv ∈ pairs, kv.1 ≠ Key.cancelCtxKey) :
    ((callCancelCauseFunc fuel st self (some x)).get self.id).err
      = some .canceled ∧
    Cause (callCancelCauseFunc fuel st self (some x))
      (valueChainOf (.cancelRef self.id p) pairs) = some x ∧
    ((callCancelCauseFunc fuel st self none).get self.id).err = some .canceled ∧
    Cause (callCancelCauseFunc fuel st self none) (.cancelRef self.id p)
      = some .canceled ∧
    Cause st (.cancelRef self.id p) = none ∧
    (∀ d, Desc st self.id d →
      ∀ (p2 : Ctx) (dl : Int) (pairs2 : List (Key × Val)),
        (∀ kv ∈ pairs2, kv.1 ≠ Key.cancelCtxKey) →
        ((callCancelCauseFunc fuel st self (some x)).get d).err = some .canceled ∧
        Cause (callCancelCauseFunc fuel st self (some x))
          (valueChainOf (.cancelRef d p2) pairs2) = some x ∧
        Cause (callCancelCauseFunc fuel st self (some x))
          (valueChainOf (.timerRef d dl p2) pairs2) = some x) := by
  have h1 := cancel_self_rm .canceled (some x) fuel st self true hwf hlen hcoh hid herr
  have h2 := cancel_self_rm .canceled none fuel st self true hwf hlen hcoh hid herr
  refine ⟨h1.1, ?_, h2.1, ?_, ?_, ?_⟩
  · unfold Cause
    rw [ctxValue_chain_cancelPtr self.id p pairs hkeys]
    exact h1.2.1
  · show ((callCancelCauseFunc fuel st self none).get self.id).cause = some GoErr.canceled
    exact h2.2.1
  · show (st.get self.id).cause = none
    exact ((hwf self.id hid).2.2.1).mp herr
  · intro d hd p2 dl pairs2 hkeys2
    have hdesc := cancel_cascades_rm .canceled (some x) fuel st self true hwf hlen
      hcoh d hd
    refine ⟨hdesc.1, ?_, ?_⟩
    · unfold Cause
      rw [ctxValue_chain_ptr (.cancelRef d p2) d rfl rfl pairs2 hkeys2]
      exact hdesc.2.1
    · unfold Cause
      rw [ctxValue_chain_ptr (.timerRef d dl p2) d rfl rfl pairs2 hkeys2]
      exact hdesc.2.1

theorem c3_witness :
    Cause (callCancelCauseFunc 2 sampleHeap2 ⟨0, false, Ctx.background⟩
      (some (GoErr.other 5)))
      (valueChainOf (.cancelRef 1 (.cancelRef 0 .background))
        [(Key.user 1, Val.user 9)])
      = some (GoErr.other 5) :=
  ((c3_cause_exact 2 sampleHeap2 ⟨0, false, .background⟩ (.other 5) .background []
      (by decide) (by decide) (by decide) (by decide) (by decide)
      (by decide)).2.2.2.2.2 1
    (Desc.here (show (⟨1, false, .cancelRef 0 .background⟩ : Canceler) ∈
      childIds sampleHeap2 0 by decide))
    (.cancelRef 0 .background) 0 [(Key.user 1, Val.user 9)] (by decide)).2.1

/-- C4: `propagateCancel` wires a fresh child to its parent by exactly the
first applicable strategy of the fixed priority order: (1) nil parent done
channel — register nothing; (2) parent's done channel already closed — cancel
the child immediately with the parent's error and cause; (3) an enclosing
`*cancelCtx` — insert the child into its children set, or cancel the child
immediately if that node was meanwhile canceled; (4) an `afterFuncer` parent —
record the stop handle in a `stopCtx`; (5) otherwise spawn one waiter
goroutine, and only then is the goroutine counter bumped. -/
theorem c4_wiring_priority (fuel : Nat) (st : Heap) (parent : Ctx) (child : Canceler)
    (hwf : Wf st)
    (hb : CtxBound child.id parent = true)
    (hcid : child.id < st.nodes.length)
    (hfresh : (st.get child.id).err = none)
    (hcoh : child.isTimer = (st.get child.id).isTimer)
    (hlen : st.nodes.length ≤ fuel + child.id) :
    ((ctxDone st parent).2 = none →
      propagateCancel fuel st parent child = ((ctxDone st parent).1, parent) ∧
      (ctxDone st parent).1.goroutines = st.goroutines) ∧
    (∀ dch, (ctxDone st parent).2 = some dch →
      chanClosed (ctxDone st parent).1 dch = true →
      ∀ e, ctxErr (ctxDone st parent).1 parent = some e →
        ((propagateCancel fuel st parent child).1.get child.id).err = some e ∧
        ((propagateCancel fuel st parent child).1.get child.id).cause
          = some ((Cause (ctxDone st parent).1 parent).getD e) ∧
        doneClosed (propagateCancel fuel st parent child).1 child.id = true ∧
        (propagateCancel fuel st parent child).1.goroutines = st.goroutines) ∧
    (∀ dch, (ctxDone st parent).2 = some dch →
      chanClosed (ctxDone st parent).1 dch = false →
      ∀ pid, (parentCancelCtx (ctxDone st parent).1 parent).2 = some pid →
        (∀ pe, ((parentCancelCtx (ctxDone st parent).1 parent).1.get pid).err
            = some pe →
          ((propagateCancel fuel st parent child).1.get child.id).err = some pe ∧
          doneClosed (propagateCancel fuel st parent child).1 child.id = true ∧
          (propagateCancel fuel st parent child).1.goroutines = st.goroutines) ∧
        (((parentCancelCtx (ctxDone st parent).1 parent).1.get pid).err = none →
          child ∈ childIds (propagateCancel fuel st parent child).1 pid ∧
          (propagateCancel fuel st parent child).1.goroutines = st.goroutines)) ∧
    (∀ dch, (ctxDone st parent).2 = some dch →
      chanClosed (ctxDone st parent).1 dch = false →
      (parentCancelCtx (ctxDone st parent).1 parent).2 = none →
      hasAfterFuncCap parent = true →
        propagateCancel fuel st parent child =
          ((parentCancelCtx (ctxDone st parent).1 parent).1,
            .stopC parent (afterFuncTag parent)) ∧
        (parentCancelCtx (ctxDone st parent).1 parent).1.goroutines
          = st.goroutines) ∧
    (∀ dch, (ctxDone st parent).2 = some dch →
      chanClosed (ctxDone st parent).1 dch = false →
      (parentCancelCtx (ctxDone st parent).1 parent).2 = none →
      hasAfterFuncCap parent = false →
        (propagateCancel fuel st parent child).1.goroutines = st.goroutines + 1 ∧
        (propagateCancel fuel st parent child).2 = parent) := by
  have hfe := ctxDone_fieldsEq st parent
  have hwfY : Wf (ctxDone st parent).1 := wf_fieldsEq st _ hwf hfe.1 hfe.2
  have hYlen : (ctxDone st parent).1.nodes.length = st.nodes.length := hfe.1.1
  have hYgor : (ctxDone st parent).1.goroutines = st.goroutines := hfe.1.2.2.1
  have hYchild : (ctxDone st parent).1.get child.id = st.get child.id :=
    ctxDone_get_untouched st parent child.id child.id hb (Nat.le_refl _)
  have hq1 : (parentCancelCtx (ctxDone st parent).1 parent).1 =
      (ctxDone st parent).1 := by
    rw [parentCancelCtx_heap, ctxDone_idem]
  have hlenY : (ctxDone st parent).1.nodes.length ≤ fuel + child.id := by
    rw [hYlen]
    exact hlen
  have hcohY : child.isTimer = ((ctxDone st parent).1.get child.id).isTimer := by
    rw [hYchild]
    exact hcoh
  have hcidY : child.id < (ctxDone st parent).1.nodes.length := by
    rw [hYlen]
    exact hcid
  have hfreshY : ((ctxDone st parent).1.get child.id).err = none := by
    rw [hYchild]
    exact hfresh
  have hgorY : ∀ (e2 : GoErr) (c2 : Option GoErr),
      (cancelAny fuel (ctxDone st parent).1 child false e2 c2).goroutines
        = st.goroutines := by
    intro e2 c2
    rw [cancelAny_causeNorm]
    rw [((cancelIH_all e2 (c2.getD e2) fuel (ctxDone st parent).1 child
      (rankWf_of_wf _ hwfY) hlenY hcohY).1).2.2]
    exact hYgor
  refine ⟨?_, ?_, ?_, ?_, ?_⟩
  · intro h
    constructor
    · unfold propagateCancel
      dsimp only
      rw [h]
    · exact hYgor
  · intro dch hdch hcl e he
    have hres : propagateCancel fuel st parent child =
        (cancelAny fuel (ctxDone st parent).1 child false e
          (Cause (ctxDone st parent).1 parent), parent) := by
      unfold propagateCancel
      dsimp only
      rw [hdch]
      dsimp only
      rw [hcl, if_pos rfl, he]
    have hself := cancel_self_rm e (Cause (ctxDone st parent).1 parent) fuel _
      child false hwfY hlenY hcohY hcidY hfreshY
    rw [hres]
    exact ⟨hself.1, hself.2.1, hself.2.2.1, hgorY e _⟩
  · intro dch hdch hcl pid hpid
    constructor
    · intro pe hpe
      have hres : propagateCancel fuel st parent child =
          (cancelAny fuel (parentCancelCtx (ctxDone st parent).1 parent).1 child
            false pe
            ((parentCancelCtx (ctxDone st parent).1 parent).1.get pid).cause,
           parent) := by
        unfold propagateCancel
        dsimp only
        rw [hdch]
        dsimp only
        rw [hcl, if_neg Bool.false_ne_true, hpid]
        dsimp only
        rw [hpe]
      rw [hres]
      rw [hq1]
      have hself := cancel_self_rm pe ((ctxDone st parent).1.get pid).cause fuel _
        child false hwfY hlenY hcohY hcidY hfreshY
      exact ⟨hself.1, hself.2.2.1, hgorY pe _⟩
    · intro hpe
      have hpidlt : pid < child.id := by
        obtain ⟨hv, _, _⟩ :=
          parentCancelCtx_some (ctxDone st parent).1 parent pid hpid
        exact (ctxValue_cancelPtr_bound hb).1 hv
      have hres : propagateCancel fuel st parent child =
          ((parentCancelCtx (ctxDone st parent).1 parent).1.set pid
            { (parentCancelCtx (ctxDone st parent).1 parent).1.get pid with
              children := some
                ((((parentCancelCtx (ctxDone st parent).1 parent).1.get
                  pid).children).getD [] ++ [child]) }, parent) := by
        unfold propagateCancel
        dsimp only
        rw [hdch]
        dsimp only
        rw [hcl, if_neg Bool.false_ne_true, hpid]
        dsimp only
        rw [hpe]
      rw [hres]
      constructor
      · have hpidY :
            pid < (parentCancelCtx (ctxDone st parent).1 parent).1.nodes.length := by
          rw [hq1, hYlen]
          omega
        show child ∈ childIds ((parentCancelCtx (ctxDone st parent).1 parent).1.set
          pid _) pid
        rw [childIds_set_children _ pid hpidY _ _ rfl]
        exact List.mem_append_right _ (List.mem_singleton.mpr rfl)
      · show ((parentCancelCtx (ctxDone st parent).1 parent).1.set pid _).goroutines
          = st.goroutines
        rw [Heap.goroutines_set, hq1]
        exact hYgor
  · intro dch hdch hcl hpid hcap
    constructor
    · unfold propagateCancel
      dsimp only
      rw [hdch]
      dsimp only
      rw [hcl, if_neg Bool.false_ne_true, hpid]
      dsimp only
      rw [hcap, if_pos rfl]
    · rw [hq1]
      exact hYgor
  · intro dch hdch hcl hpid hcap
    have hres : propagateCancel fuel st parent child =
        ({ (parentCancelCtx (ctxDone st parent).1 parent).1 with goroutines :=
            (parentCancelCtx (ctxDone st parent).1 parent).1.goroutines + 1 },
         parent) := by
      unfold propagateCancel
      dsimp only
      rw [hdch]
      dsimp only
      rw [hcl, if_neg Bool.false_ne_true, hpid]
      dsimp only
      rw [hcap, if_neg Bool.false_ne_true]
    rw [hres]
    constructor
    · show (parentCancelCtx (ctxDone st parent).1 parent).1.goroutines + 1
        = st.goroutines + 1
      rw [hq1, hYgor]
    · rfl

theorem c4_witness :
    (⟨1, false, Ctx.cancelRef 0 Ctx.background⟩ : Canceler) ∈
      childIds (propagateCancel 2 sampleHeap2 (Ctx.cancelRef 0 Ctx.background)
        ⟨1, false, Ctx.cancelRef 0 Ctx.background⟩).1 0 ∧
    (propagateCancel 2 sampleHeap2 (Ctx.cancelRef 0 Ctx.background)
      ⟨1, false, Ctx.cancelRef 0 Ctx.background⟩).1.goroutines
      = sampleHeap2.goroutines :=
  ((c4_wiring_priority 2 sampleHeap2 (.cancelRef 0 .background)
      ⟨1, false, .cancelRef 0 .background⟩
      (by decide) (by decide) (by decide) (by decide) (by decide)
      (by decide)).2.2.1 (Chan.node 0) (by decide) (by decide) 0
      (by decide)).2 (by decide)

/-- C5: a deadline (`timerCtx`) node's timer is stopped and cleared by the
time any cancellation of it completes: (1) any direct cancel call on the
timer node (the explicit handle, a firing timer, and the past-deadline
creation path all end in this call) returns with the timer flag cleared;
(2) a cascade from an ancestor clears the timer of every registered timer
descendant; (3) the handle `WithDeadlineCause` returns on its past-deadline
path points at a node whose timer is already cleared. -/
theorem c5_timer_stopped (fuel : Nat) (st : Heap) (self : Canceler) (rm : Bool)
    (e : GoErr) (c0 : Option GoErr)
    (hwf : Wf st) (hlen : st.nodes.length ≤ fuel + self.id)
    (hcoh : self.isTimer = (st.get self.id).isTimer) :
    (self.isTimer = true →
      ((cancelAny fuel st self rm e c0).get self.id).timer = false) ∧
    (∀ d, Desc st self.id d → (st.get d).isTimer = true →
      ((cancelAny fuel st self rm e c0).get d).timer = false) ∧
    (∀ (fuel2 : Nat) (st2 : Heap) (parent2 : Ctx) (d2 : Int)
        (cause2 : Option GoErr),
      (WithDeadlineCause fuel2 st2 parent2 d2 cause2).2.2.removeFromParent = false →
      ((WithDeadlineCause fuel2 st2 parent2 d2 cause2).1.get
        (WithDeadlineCause fuel2 st2 parent2 d2 cause2).2.2.c.id).timer = false) := by
  refine ⟨?_, ?_, ?_⟩
  · intro ht
    exact cancelAny_timer_self fuel st self rm e c0 ht
  · intro d hd hdt
    rw [cancelAny_causeNorm]
    obtain ⟨_, _, hit, _, _⟩ :=
      cancelIH_all e (c0.getD e) fuel st self (rankWf_of_wf st hwf) hlen hcoh
    have hcancF := cancel_cascades e (c0.getD e) fuel st self hwf hlen hcoh d hd
    have htF : ((cancelAny fuel st self false e (some (c0.getD e))).get d).timer
        = false := by
      refine hcancF.2.2.2.2 ?_
      rw [hit d]
      exact hdt
    rcases rm with _ | _
    · exact htF
    · obtain ⟨_, _, _, hf⟩ :=
        cancelAny_rm fuel st self e (some (c0.getD e))
      rw [(hf d).2.2.2.2.1]
      exact htF
  · intro fuel2 st2 parent2 d2 cause2 hrm
    have hbody : ∀ (st3 : Heap),
        (WithDeadlineCause.body fuel2 st3 parent2 d2 cause2).2.2.removeFromParent
          = false →
        ((WithDeadlineCause.body fuel2 st3 parent2 d2 cause2).1.get
          (WithDeadlineCause.body fuel2 st3 parent2 d2 cause2).2.2.c.id).timer
          = false := by
      intro st3 hrm3
      unfold WithDeadlineCause.body at hrm3 ⊢
      dsimp only at hrm3 ⊢
      by_cases hdur : d2 - (propagateCancel fuel2
          { st3 with nodes :=
            st3.nodes ++ [{ Node.default0 with isTimer := true }] } parent2
          ⟨st3.nodes.length, true, parent2⟩).1.now ≤ 0
      · rw [if_pos hdur]
        exact cancelAny_timer_self fuel2 _ _ true .deadlineExceeded cause2 rfl
      · rw [if_neg hdur] at hrm3
        exact Bool.noConfusion hrm3
    unfold WithDeadlineCause at hrm ⊢
    rcases hdl : ctxDeadline parent2 with _ | cur
    · rw [hdl] at hrm
      exact hbody st2 hrm
    · rw [hdl] at hrm
      dsimp only at hrm ⊢
      by_cases hcd : cur < d2
      · rw [if_pos hcd] at hrm
        exact Bool.noConfusion hrm
      · rw [if_neg hcd] at hrm ⊢
        exact hbody st2 hrm

theorem c5_witness :
    ((cancelAny 2 sampleTimerHeap ⟨0, true, Ctx.background⟩ true
      GoErr.deadlineExceeded none).get 0).timer = false :=
  (c5_timer_stopped 2 sampleTimerHeap ⟨0, true, .background⟩ true
    .deadlineExceeded none (by decide) (by decide) (by decide)).1 rfl

/-! ## C6: a past deadline under an already-canceled parent -/

/-- A one-node heap whose single `cancelCtx` is already canceled with
`Canceled`. -/
def c6Heap : Heap :=
  ⟨[{ isTimer := false, done := .storedClosed, children := none,
      err := some .canceled, cause := some .canceled, timer := false }], 0, 0⟩

/-- `c6Heap` after `WithDeadlineCause` has allocated the fresh `timerCtx`. -/
def c6HeapPushed : Heap :=
  ⟨[{ isTimer := false, done := .storedClosed, children := none,
      err := some .canceled, cause := some .canceled, timer := false },
    { isTimer := true, done := .unset, children := none,
      err := none, cause := none, timer := false }], 0, 0⟩

/-- `c6HeapPushed` after `propagateCancel` has canceled the fresh child with
the parent's error. -/
def c6HeapCanceled : Heap :=
  ⟨[{ isTimer := false, done := .storedClosed, children := none,
      err := some .canceled, cause := some .canceled, timer := false },
    { isTimer := true, done := .storedClosed, children := none,
      err := some .canceled, cause := some .canceled, timer := false }], 0, 0⟩

/-- C6 counterexample: deriving a deadline node with a past timestamp from an
already-canceled parent returns a node whose error and cause are the
parent's `Canceled` — not `DeadlineExceeded` as the claim requires for every
parent scope. -/
theorem c6_counterexample :
    ((WithDeadlineCause 1 c6Heap (Ctx.cancelRef 0 Ctx.background) (-1) none).1.get
      1).err = some GoErr.canceled ∧
    ¬ ((WithDeadlineCause 1 c6Heap (Ctx.cancelRef 0 Ctx.background) (-1) none).1.get
      1).err = some GoErr.deadlineExceeded ∧
    Cause (WithDeadlineCause 1 c6Heap (Ctx.cancelRef 0 Ctx.background) (-1) none).1
      (WithDeadlineCause 1 c6Heap (Ctx.cancelRef 0 Ctx.background) (-1) none).2.1
      = some GoErr.canceled := by
  have hA : cancelAny 1 c6HeapPushed ⟨1, true, Ctx.cancelRef 0 Ctx.background⟩ false
      GoErr.canceled (some GoErr.canceled) = c6HeapCanceled := by
    show cancelAny (0 + 1) c6HeapPushed ⟨1, true, Ctx.cancelRef 0 Ctx.background⟩
      false GoErr.canceled (some GoErr.canceled) = c6HeapCanceled
    rw [cancelAny_eq_timer _ _ _ _ _ _ rfl, timerCtxCancel_eq]
    dsimp only
    rw [cancelCtxCancel_fresh 0 c6HeapPushed
      ⟨1, true, Ctx.cancelRef 0 Ctx.background⟩ false GoErr.canceled
      (some GoErr.canceled) (by decide)]
    rfl
  have hC : cancelAny 1 c6HeapCanceled ⟨1, true, Ctx.cancelRef 0 Ctx.background⟩ true
      GoErr.deadlineExceeded none = c6HeapCanceled := by
    show cancelAny (0 + 1) c6HeapCanceled ⟨1, true, Ctx.cancelRef 0 Ctx.background⟩
      true GoErr.deadlineExceeded none = c6HeapCanceled
    rw [cancelAny_eq_timer _ _ _ _ _ _ rfl, timerCtxCancel_eq]
    dsimp only
    rw [cancelCtxCancel_canceled 0 c6HeapCanceled
      ⟨1, true, Ctx.cancelRef 0 Ctx.background⟩ false GoErr.deadlineExceeded none
      (by decide)]
    rfl
  have hmain : WithDeadlineCause 1 c6Heap (Ctx.cancelRef 0 Ctx.background) (-1) none
      = (c6HeapCanceled,
         Ctx.timerRef 1 (-1) (Ctx.cancelRef 0 Ctx.background),
         (⟨⟨1, true, Ctx.cancelRef 0 Ctx.background⟩, false⟩ : CancelHandle)) := by
    show (let r1 := cancelAny 1 c6HeapPushed
            ⟨1, true, Ctx.cancelRef 0 Ctx.background⟩ false GoErr.canceled
            (some GoErr.canceled)
          if (-1 : Int) - r1.now ≤ 0 then
            (cancelAny 1 r1 ⟨1, true, Ctx.cancelRef 0 Ctx.background⟩ true
              GoErr.deadlineExceeded none,
             Ctx.timerRef 1 (-1) (Ctx.cancelRef 0 Ctx.background),
             (⟨⟨1, true, Ctx.cancelRef 0 Ctx.background⟩, false⟩ : CancelHandle))
          else
            ((if (r1.get 1).err = none then r1.set 1 { r1.get 1 with timer := true }
              else r1),
             Ctx.timerRef 1 (-1) (Ctx.cancelRef 0 Ctx.background),
             (⟨⟨1, true, Ctx.cancelRef 0 Ctx.background⟩, true⟩ : CancelHandle))) = _
    rw [hA]
    dsimp only
    rw [if_pos (by decide)]
    rw [hC]
  rw [hmain]
  exact ⟨by decide, by decide, by decide⟩

/-- C6 (amended): when the parent is not already done (its done channel, if
any, is still open) and carries no deadline earlier than `d`, deriving with
a timestamp `d` not in the future returns, before the call returns, a node
that is canceled with `DeadlineExceeded`, whose cause is the supplied cause
(defaulting to `DeadlineExceeded`), whose done signal is closed, and whose
timer was never armed. -/
theorem c6_deadline_past_amended (fuel : Nat) (st : Heap) (parent : Ctx) (d : Int)
    (cause : Option GoErr)
    (hwf : Wf st)
    (hbnd : CtxBound st.nodes.length parent = true)
    (hfuel : 1 ≤ fuel)
    (hpast : d ≤ st.now)
    (hpdl : ∀ cur, ctxDeadline parent = some cur → d ≤ cur)
    (hnd : ((ctxDone st parent).2.all
      fun dch => ! chanClosed (ctxDone st parent).1 dch) = true) :
    ((WithDeadlineCause fuel st parent d cause).1.get st.nodes.length).err
      = some .deadlineExceeded ∧
    ((WithDeadlineCause fuel st parent d cause).1.get st.nodes.length).cause
      = some (cause.getD .deadlineExceeded) ∧
    doneClosed (WithDeadlineCause fuel st parent d cause).1 st.nodes.length = true ∧
    ((WithDeadlineCause fuel st parent d cause).1.get st.nodes.length).children
      = none ∧
    ((WithDeadlineCause fuel st parent d cause).1.get st.nodes.length).timer
      = false ∧
    (WithDeadlineCause fuel st parent d cause).2.2.removeFromParent = false ∧
    ∃ pc, (WithDeadlineCause fuel st parent d cause).2.1
      = .timerRef st.nodes.length d pc := by
  have hnd2 : ∀ dch, (ctxDone st parent).2 = some dch →
      chanClosed (ctxDone st parent).1 dch = false := by
    intro dch hdch
    rw [hdch] at hnd
    have h3 : (! chanClosed (ctxDone st parent).1 dch) = true := hnd
    rcases hcb : chanClosed (ctxDone st parent).1 dch with _ | _
    · rfl
    · rw [hcb] at h3
      cases h3
  have hbody := wdc_body_past fuel st parent d cause hwf hbnd hfuel hpast hnd2
  have heq : WithDeadlineCause fuel st parent d cause
      = WithDeadlineCause.body fuel st parent d cause := by
    unfold WithDeadlineCause
    rcases hdl : ctxDeadline parent with _ | cur
    · rfl
    · dsimp only
      rw [if_neg (show ¬ cur < d from by have := hpdl cur hdl; omega)]
  rw [heq]
  exact hbody

theorem c6_amended_witness :
    ((WithDeadlineCause 2 sampleHeap1 (Ctx.cancelRef 0 Ctx.background) (-3)
      (some (GoErr.other 3))).1.get 1).err = some GoErr.deadlineExceeded :=
  (c6_deadline_past_amended 2 sampleHeap1 (.cancelRef 0 .background) (-3)
    (some (.other 3)) (by decide) (by decide) (by decide) (by decide)
    (fun cur h => Option.noConfusion h) (by decide)).1

/-- C7: when the parent already carries a deadline strictly earlier than the
requested `d`, `WithDeadlineCause` is literally `WithCancel`: the same heap,
context and handle; the returned scope keeps the parent's deadline (no new
deadline is reported), no timer flag anywhere in the heap becomes armed —
in particular the new node's own timer stays off — so no independent
`DeadlineExceeded` firing can ever originate from this node. -/
theorem c7_earlier_deadline_plain (fuel : Nat) (st : Heap) (parent : Ctx)
    (d : Int) (cause : Option GoErr) (cur : Int)
    (hdl : ctxDeadline parent = some cur) (hlt : cur < d) :
    WithDeadlineCause fuel st parent d cause = WithCancel fuel st parent ∧
    ctxDeadline (WithDeadlineCause fuel st parent d cause).2.1
      = ctxDeadline parent ∧
    (∀ i, ((WithDeadlineCause fuel st parent d cause).1.get i).timer = true →
      (st.get i).timer = true) ∧
    ((WithDeadlineCause fuel st parent d cause).1.get st.nodes.length).timer
      = false ∧
    (∀ (fuel2 : Nat) (d2 : Int) (cause2 : Option GoErr) (tf : Bool) (cf : Ctx),
      fireTimer fuel2 (WithDeadlineCause fuel st parent d cause).1
        ⟨st.nodes.length, tf, cf⟩ d2 cause2
        = (WithDeadlineCause fuel st parent d cause).1) := by
  have heq : WithDeadlineCause fuel st parent d cause = WithCancel fuel st parent := by
    unfold WithDeadlineCause
    rw [hdl]
    dsimp only
    rw [if_pos hlt]
  have hmono : ∀ i, ((WithDeadlineCause fuel st parent d cause).1.get i).timer = true →
      (st.get i).timer = true := by
    intro i h
    rw [heq] at h
    exact WithCancel_timer_mono i fuel st parent h
  have hnew : ((WithDeadlineCause fuel st parent d cause).1.get
      st.nodes.length).timer = false := by
    rcases h : ((WithDeadlineCause fuel st parent d cause).1.get
      st.nodes.length).timer with _ | _
    · rfl
    · have h2 := hmono st.nodes.length h
      rw [Heap.get_oob st st.nodes.length (Nat.le_refl _)] at h2
      cases h2
  refine ⟨heq, by rw [heq]; exact WithCancel_deadline fuel st parent, hmono, hnew, ?_⟩
  intro fuel2 d2 cause2 tf cf
  unfold fireTimer
  rw [if_neg]
  intro hcon
  have h3 := hcon.1
  rw [hnew] at h3
  cases h3

theorem c7_witness :
    WithDeadlineCause 1 sampleHeap1 (Ctx.timerRef 0 5 Ctx.background) 7 none
      = WithCancel 1 sampleHeap1 (Ctx.timerRef 0 5 Ctx.background) :=
  (c7_earlier_deadline_plain 1 sampleHeap1 (.timerRef 0 5 .background) 7 none 5
    rfl (by decide)).1

/-- C8: across any chain of nested `WithValue` derivations over a root
scope, `Value` returns the innermost pair whose key equals the query key
(ignoring shadowed outer pairs with the same key), and when no pair in the
chain carries the key, the lookup terminates at the root and returns nil. -/
theorem c8_value_nearest (root : Ctx) (pairs : List (Key × Val)) (k : Key)
    (hroot : root = .background ∨ root = .todo) :
    ctxValue (valueChainOf root pairs) k =
      (match pairs.find? (fun kv => kv.1 == k) with
       | some kv => kv.2
       | none => .nilv) ∧
    ((∀ kv ∈ pairs, (kv.1 == k) = false) →
      ctxValue (valueChainOf root pairs) k = .nilv) := by
  have h1 := ctxValue_chain root hroot k pairs
  refine ⟨h1, ?_⟩
  intro h
  rw [h1]
  have h2 : pairs.find? (fun kv => kv.1 == k) = none := by
    rw [List.find?_eq_none]
    intro x hx
    rw [h x hx]
    exact Bool.false_ne_true
  rw [h2]

theorem c8_witness :
    ctxValue (valueChainOf Ctx.background
      [(Key.user 1, Val.user 10), (Key.user 1, Val.user 20),
       (Key.user 2, Val.user 30)]) (Key.user 1) = Val.user 10 :=
  (c8_value_nearest .background
    [(Key.user 1, Val.user 10), (Key.user 1, Val.user 20),
     (Key.user 2, Val.user 30)] (Key.user 1) (Or.inl rfl)).1

/-! ## C9: locks held during the cascade -/

/-- `sampleHeap2` after the parent's cancel has written its own record (the
children loop has not yet run). -/
def c9ChildHeap : Heap :=
  ⟨[{ isTimer := false, done := .storedClosed,
      children := some [⟨1, false, .cancelRef 0 .background⟩],
      err := some .canceled, cause := some .canceled, timer := false },
    { isTimer := false, done := .storedClosed, children := none,
      err := some .canceled, cause := some .canceled, timer := false }], 0, 0⟩

/-- C9 counterexample: canceling a parent with one registered child acquires
the child's lock while still holding the parent's — two locks at once — so
the claim that at most one lock is ever held during a cascade is false (the
source comment above the children loop says as much). -/
theorem c9_counterexample :
    (cancelAnyTrace 2 sampleHeap2 ⟨0, false, Ctx.background⟩ true GoErr.canceled
      none).1 = [LockEv.acq 0, LockEv.acq 1, LockEv.rel 1, LockEv.rel 0] ∧
    maxHeld (cancelAnyTrace 2 sampleHeap2 ⟨0, false, Ctx.background⟩ true
      GoErr.canceled none).1 = 2 ∧
    ¬ maxHeld (cancelAnyTrace 2 sampleHeap2 ⟨0, false, Ctx.background⟩ true
      GoErr.canceled none).1 ≤ 1 := by
  have hchild : cancelAnyTrace 1
      (sampleHeap2.set 0 (cancWrite (sampleHeap2.get 0) GoErr.canceled
        (Option.getD none GoErr.canceled)))
      ⟨1, false, Ctx.cancelRef 0 Ctx.background⟩ false GoErr.canceled
      (some (Option.getD none GoErr.canceled))
      = ([LockEv.acq 1, LockEv.rel 1], c9ChildHeap) := by
    show cancelAnyTrace (0 + 1)
      (sampleHeap2.set 0 (cancWrite (sampleHeap2.get 0) GoErr.canceled
        (Option.getD none GoErr.canceled)))
      ⟨1, false, Ctx.cancelRef 0 Ctx.background⟩ false GoErr.canceled
      (some (Option.getD none GoErr.canceled))
      = ([LockEv.acq 1, LockEv.rel 1], c9ChildHeap)
    rw [cancelAnyTrace_eq_cancel _ _ _ _ _ _ rfl,
      cancelCtxCancelTrace_fresh 0 _ _ false _ _ (by decide)]
    rfl
  have htop : (cancelAnyTrace 2 sampleHeap2 ⟨0, false, Ctx.background⟩ true
      GoErr.canceled none).1
      = [LockEv.acq 0, LockEv.acq 1, LockEv.rel 1, LockEv.rel 0] := by
    show (cancelAnyTrace (1 + 1) sampleHeap2 ⟨0, false, Ctx.background⟩ true
      GoErr.canceled none).1
      = [LockEv.acq 0, LockEv.acq 1, LockEv.rel 1, LockEv.rel 0]
    rw [cancelAnyTrace_eq_cancel _ _ _ _ _ _ rfl,
      cancelCtxCancelTrace_fresh 1 sampleHeap2 ⟨0, false, Ctx.background⟩ true
        GoErr.canceled none (by decide)]
    dsimp only
    rw [show childIds sampleHeap2 0
      = [⟨1, false, Ctx.cancelRef 0 Ctx.background⟩] from rfl]
    rw [List.foldl_cons, List.foldl_nil]
    dsimp only
    rw [hchild]
    decide
  refine ⟨htop, ?_, ?_⟩
  · rw [htop]
    decide
  · rw [htop]
    decide

/-- C9 (amended): `cancelCtx.cancel` does hold the canceling node's lock
across the whole children loop — every child's lock events sit strictly
between the parent's acquire and release, so two locks are held at once in a
cascade — but the discipline is still safe: the trace of canceling a fresh
`cancelCtx` is exactly acquire, children's nested events, release, and from
any starting held-lock multiset every lock acquired during the cascade is
released before the call returns. -/
theorem c9_lock_nesting (fuel : Nat) (st : Heap) (self : Canceler) (rm : Bool)
    (e : GoErr) (c0 : Option GoErr)
    (ht : self.isTimer = false)
    (herr : (st.get self.id).err = none) :
    (cancelAnyTrace (fuel + 1) st self rm e c0).1 =
      [LockEv.acq self.id] ++
        ((childIds st self.id).foldl
          (fun acc ch =>
            let t := cancelAnyTrace fuel acc.2 ch false e (some (c0.getD e))
            (acc.1 ++ t.1, t.2))
          (([] : List LockEv),
            st.set self.id (cancWrite (st.get self.id) e (c0.getD e)))).1 ++
        [LockEv.rel self.id] ∧
    heldAfter (cancelAnyTrace (fuel + 1) st self rm e c0).1 = [] ∧
    (∀ s : List Nat, runHeld s (cancelAnyTrace (fuel + 1) st self rm e c0).1 = s) := by
  refine ⟨?_, ?_, ?_⟩
  · rw [cancelAnyTrace_eq_cancel _ _ _ _ _ _ ht,
      cancelCtxCancelTrace_fresh fuel st self rm e c0 herr]
  · rw [heldAfter_eq_runHeld]
    exact cancelAnyTrace_neutral (fuel + 1) st self rm e c0 []
  · exact fun s => cancelAnyTrace_neutral (fuel + 1) st self rm e c0 s

theorem c9_witness :
    heldAfter (cancelAnyTrace 2 sampleHeap2 ⟨0, false, Ctx.background⟩ true
      GoErr.canceled none).1 = [] :=
  (c9_lock_nesting 1 sampleHeap2 ⟨0, false, .background⟩ true .canceled none
    rfl (by decide)).2.1

/-- C10: `WithValue` panics exactly when the parent is nil, the key is nil,
or the key's type is not comparable; otherwise it returns a `valueCtx`
storing exactly the given key/value pair over the given parent. -/
theorem c10_withValue_panics (parent : Option Ctx) (key : Option KeyArg) (v : Val) :
    ((∃ msg, WithValue parent key v = .error msg) ↔
      (parent = none ∨ key = none ∨ ∃ n, key = some (.noncomparableKey n))) ∧
    (∀ p k, parent = some p → key = some (.validKey k) →
      WithValue parent key v = .ok (.valueC p k v)) := by
  rcases parent with _ | p
  · refine ⟨⟨fun _ => Or.inl rfl, fun _ => ⟨_, rfl⟩⟩, ?_⟩
    intro p k hp _
    cases hp
  · rcases key with _ | karg
    · refine ⟨⟨fun _ => Or.inr (Or.inl rfl), fun _ => ⟨_, rfl⟩⟩, ?_⟩
      intro p2 k _ hk
      cases hk
    · rcases karg with k | n
      · refine ⟨⟨?_, ?_⟩, ?_⟩
        · rintro ⟨msg, hmsg⟩
          cases hmsg
        · rintro (h | h | ⟨n, h⟩)
          · cases h
          · cases h
          · cases h
        · intro p2 k2 hp hk
          cases hp
          cases hk
          rfl
      · refine ⟨⟨fun _ => Or.inr (Or.inr ⟨n, rfl⟩), fun _ => ⟨_, rfl⟩⟩, ?_⟩
        intro p2 k _ hk
        cases hk

end ContextPkg
